import Mathlib

/-!
Verification of the caddyfile-rs core pipeline (lexer, parser, formatter,
address decomposition) against its specification.

The Rust sources are shallowly embedded: strings are `List Char` (the Rust
lexer scans bytes; every character relevant to control flow is ASCII, so a
scalar-level scan is behaviour-equivalent, with columns counted in scalars),
`Vec` is `List`, fallible functions return `Except`/`Option`, and the
scanning loops of lexer and parser are structurally recursive on an explicit
fuel argument so that every definition is executable by kernel reduction.
The recursive directive tree uses a mutually inductive list type `Dirs`
(isomorphic to `List Directive`) so that all recursions over the tree are
structural.
-/

namespace Caddy

/-- Left curly brace character. -/
def braceL : Char := Char.ofNat 123

/-- Right curly brace character. -/
def braceR : Char := Char.ofNat 125

/-- Backquote character. -/
def backquote : Char := Char.ofNat 96

/-- Source location (`token.rs` `Span`): 1-based line and column.  The
`file` field of the Rust struct is never populated by the pipeline and is
omitted. -/
structure Span where
  line : Nat
  column : Nat
deriving DecidableEq, Repr

/-- URL scheme (`ast.rs` `Scheme`). -/
inductive Scheme where
  | http
  | https
deriving DecidableEq, Repr

/-- Site address with parsed components (`ast.rs` `Address`).  The `u16`
port is a `Nat`; `parse_address` only constructs values below 65536. -/
structure Address where
  scheme : Option Scheme
  host : List Char
  port : Option Nat
  path : Option (List Char)
deriving DecidableEq, Repr

/-- Matcher token after a directive name (`ast.rs` `Matcher`). -/
inductive Matcher where
  | all
  | path (p : List Char)
  | named (n : List Char)
deriving DecidableEq, Repr

/-- Argument value preserving its quoting style (`ast.rs` `Argument`). -/
inductive Argument where
  | unquoted (s : List Char)
  | quoted (s : List Char)
  | backtick (s : List Char)
  | heredoc (marker : List Char) (content : List Char)
deriving DecidableEq, Repr

mutual

/-- A directive with optional matcher, arguments and sub-block
(`ast.rs` `Directive`). -/
inductive Directive where
  | mk (name : List Char) (matcher : Option Matcher)
      (arguments : List Argument) (block : Option Dirs)

/-- A list of directives (`Vec<Directive>`), as a mutual inductive so that
recursion over the nested tree is structural. -/
inductive Dirs where
  | nil
  | cons (d : Directive) (ds : Dirs)

end

/-- The directive's name. -/
def Directive.name : Directive → List Char
  | .mk n _ _ _ => n

/-- The directive's optional matcher. -/
def Directive.matcher : Directive → Option Matcher
  | .mk _ m _ _ => m

/-- The directive's argument list. -/
def Directive.arguments : Directive → List Argument
  | .mk _ _ a _ => a

/-- The directive's optional sub-block. -/
def Directive.block : Directive → Option Dirs
  | .mk _ _ _ b => b

/-- Whether the directive owns a sub-block (`directive.block.is_some()`). -/
def Directive.hasBlock (d : Directive) : Bool := d.block.isSome

/-- Convert `Dirs` to an ordinary list. -/
def Dirs.toList : Dirs → List Directive
  | .nil => []
  | .cons d ds => d :: ds.toList

/-- Length of a `Dirs` list. -/
def Dirs.length (ds : Dirs) : Nat := ds.toList.length

/-- Global options block (`ast.rs` `GlobalOptions`). -/
structure GlobalOptions where
  directives : Dirs

/-- Reusable snippet (`ast.rs` `Snippet`). -/
structure Snippet where
  name : List Char
  directives : Dirs

/-- Named route (`ast.rs` `NamedRoute`). -/
structure NamedRoute where
  name : List Char
  directives : Dirs

/-- Site block (`ast.rs` `SiteBlock`). -/
structure SiteBlock where
  addresses : List Address
  directives : Dirs

/-- Complete Caddyfile document (`ast.rs` `Caddyfile`). -/
structure Caddyfile where
  global_options : Option GlobalOptions
  snippets : List Snippet
  named_routes : List NamedRoute
  sites : List SiteBlock

/-! ## Address decomposition (`ast.rs` `parse_address`) -/

/-- Rust `str::parse::<u16>()`: an optional leading `+`, then one or more
ASCII digits, value below 2^16; anything else is an error (`none`). -/
def parseU16 (s : List Char) : Option Nat :=
  let ds := match s with
    | '+' :: rest => rest
    | _ => s
  if ds = [] then none
  else if ds.all (fun c => c.isDigit) then
    let v := ds.foldl (fun a c => a * 10 + (c.toNat - 48)) 0
    if v < 65536 then some v else none
  else none

/-- Decimal digits of `n`, most significant first (auxiliary loop;
the fuel `n + 1` always suffices). -/
def natToDecAux : Nat → Nat → List Char → List Char
  | 0, _, acc => acc
  | fuel + 1, n, acc =>
    let acc' := Char.ofNat (48 + n % 10) :: acc
    if n < 10 then acc' else natToDecAux fuel (n / 10) acc'

/-- Decimal rendering of a natural number (Rust `u16::to_string`). -/
def natToDec (n : Nat) : List Char := natToDecAux (n + 1) n []

/-- Index of the first element satisfying `p` (Rust `str::find`). -/
def firstIdx? (p : Char → Bool) : List Char → Option Nat
  | [] => none
  | c :: rest => if p c then some 0 else (firstIdx? p rest).map (· + 1)

/-- Test for a slash character. -/
def isSlash (c : Char) : Bool := c = '/'

/-- Test for a colon character. -/
def isColon (c : Char) : Bool := c = ':'

/-- Index of the last element satisfying `p` (Rust `str::rfind`). -/
def lastIdx? (p : Char → Bool) (l : List Char) : Option Nat :=
  match firstIdx? p l.reverse with
  | some i => some (l.length - 1 - i)
  | none => none

/-- Strip an optional `http://`/`https://` prefix into the scheme (the
two `strip_prefix` branches of `parse_address`). -/
def stripScheme (addr : List Char) : Option Scheme × List Char :=
  if List.isPrefixOf ("https://".toList) addr then (some .https, addr.drop 8)
  else if List.isPrefixOf ("http://".toList) addr then (some .http, addr.drop 7)
  else (none, addr)

/-- Parse an address string into its components (`ast.rs` `parse_address`):
strip an optional `http://`/`https://` prefix, split at the first `/` into
host:port and path, then split at the last `:` only when the suffix parses
as a `u16`. -/
def parse_address (addr : List Char) : Address :=
  let sr : Option Scheme × List Char := stripScheme addr
  let remaining := sr.2
  let hp : List Char × Option (List Char) :=
    match firstIdx? isSlash remaining with
    | some pos => (remaining.take pos, some (remaining.drop pos))
    | none => (remaining, none)
  let host_port := hp.1
  let hpr : List Char × Option Nat :=
    match lastIdx? isColon host_port with
    | none => (host_port, none)
    | some pos =>
      match parseU16 (host_port.drop (pos + 1)) with
      | none => (host_port, none)
      | some p => (host_port.take pos, some p)
  { scheme := sr.1, host := hpr.1, port := hpr.2, path := hp.2 }

/-! ## Formatter (`formatter.rs`) -/

/-- Escape of one character inside a double-quoted argument
(`format_argument`, `Argument::Quoted` arm). -/
def escQuotedChar (c : Char) : List Char :=
  if c = '"' then ['\\', '"']
  else if c = '\\' then ['\\', '\\']
  else if c = '\n' then ['\\', 'n']
  else if c = '\t' then ['\\', 't']
  else if c = '\r' then ['\\', 'r']
  else [c]

/-- Render one argument (`formatter.rs` `format_argument`). -/
def format_argument : Argument → List Char
  | .unquoted s => s
  | .quoted s => '"' :: ((s.map escQuotedChar).flatten ++ ['"'])
  | .backtick s => backquote :: (s ++ [backquote])
  | .heredoc m c => '<' :: '<' :: (m ++ '\n' :: (c ++ '\n' :: m))

/-- Render one address (`formatter.rs` `format_address`, identical to the
`Display` impl in `ast.rs`). -/
def format_address (a : Address) : List Char :=
  (match a.scheme with
   | some .http => "http://".toList
   | some .https => "https://".toList
   | none => [])
  ++ a.host
  ++ (match a.port with
      | some p => ':' :: natToDec p
      | none => [])
  ++ (match a.path with
      | some p => p
      | none => [])

mutual

/-- Render one directive at the given indent
(`formatter.rs` `format_directive`). -/
def format_directive (d : Directive) (indent : Nat) : List Char :=
  match d with
  | .mk name m args block =>
    let pre := List.replicate indent '\t'
    pre ++ name
      ++ (match m with
          | none => []
          | some .all => [' ', '*']
          | some (.path p) => ' ' :: p
          | some (.named n) => ' ' :: '@' :: n)
      ++ (args.map (fun a => ' ' :: format_argument a)).flatten
      ++ (match block with
          | some b =>
              ' ' :: braceL :: '\n' ::
                (format_directives_with_spacing b (indent + 1)
                  ++ pre ++ [braceR, '\n'])
          | none => ['\n'])

/-- Render a directive list with no inserted blank lines
(`formatter.rs` `format_directives`). -/
def format_directives : Dirs → Nat → List Char
  | .nil, _ => []
  | .cons d rest, indent =>
      format_directive d indent ++ format_directives rest indent

/-- Render a directive list with blank lines around block-bearing
directives (`formatter.rs` `format_directives_with_spacing`). -/
def format_directives_with_spacing : Dirs → Nat → List Char
  | .nil, _ => []
  | .cons d rest, indent =>
      format_directive d indent ++ spacing_rest rest d.hasBlock indent

/-- Loop body of `format_directives_with_spacing` for indices above zero;
the boolean is the previous directive's `has_block`. -/
def spacing_rest : Dirs → Bool → Nat → List Char
  | .nil, _, _ => []
  | .cons d rest, prevHad, indent =>
      (if d.hasBlock || prevHad then ['\n'] else [])
        ++ format_directive d indent ++ spacing_rest rest d.hasBlock indent

end

/-- Render the global options block
(`formatter.rs` `format_global_options`). -/
def format_global_options (g : GlobalOptions) : List Char :=
  braceL :: '\n' :: (format_directives g.directives 1 ++ [braceR, '\n'])

/-- Render a snippet (`formatter.rs` `format_snippet`). -/
def format_snippet (s : Snippet) : List Char :=
  '(' :: (s.name ++ ')' :: ' ' :: braceL :: '\n' ::
    (format_directives s.directives 1 ++ [braceR, '\n']))

/-- Render a named route (`formatter.rs` `format_named_route`). -/
def format_named_route (r : NamedRoute) : List Char :=
  '&' :: '(' :: (r.name ++ ')' :: ' ' :: braceL :: '\n' ::
    (format_directives r.directives 1 ++ [braceR, '\n']))

/-- Addresses after the first, each preceded by a comma and a space. -/
def format_addresses_rest : List Address → List Char
  | [] => []
  | a :: rest => ',' :: ' ' :: (format_address a ++ format_addresses_rest rest)

/-- Render the comma-space-joined address list of a site header
(address loop of `formatter.rs` `format_site_block`). -/
def format_addresses : List Address → List Char
  | [] => []
  | a :: rest => format_address a ++ format_addresses_rest rest

/-- Render a site block (`formatter.rs` `format_site_block`). -/
def format_site_block (s : SiteBlock) : List Char :=
  format_addresses s.addresses ++ ' ' :: braceL :: '\n' ::
    (format_directives_with_spacing s.directives 1 ++ [braceR, '\n'])

/-- Top-level block loop of `formatter.rs` `format`: each block after the
first is preceded by one blank line. -/
def emit_blocks {α : Type} (f : α → List Char) : List α → Bool → List Char
  | [], _ => []
  | x :: xs, first =>
      (if first then [] else ['\n']) ++ f x ++ emit_blocks f xs false

/-- Render a whole document (`formatter.rs` `format`): global options,
snippets, named routes, then site blocks, one blank line between blocks,
and a guaranteed single trailing newline. -/
def format (cf : Caddyfile) : List Char :=
  let s0 := match cf.global_options with
    | some g => format_global_options g
    | none => []
  let first0 := cf.global_options.isNone
  let s1 := emit_blocks format_snippet cf.snippets first0
  let first1 := first0 && cf.snippets.isEmpty
  let s2 := emit_blocks format_named_route cf.named_routes first1
  let first2 := first1 && cf.named_routes.isEmpty
  let s3 := emit_blocks format_site_block cf.sites first2
  let out := s0 ++ s1 ++ s2 ++ s3
  match out.getLast? with
  | some c => if c = '\n' then out else out ++ ['\n']
  | none => out ++ ['\n']

/-! ## Lexer (`lexer.rs`) -/

/-- Token kinds produced by the lexer (`token.rs` `TokenKind`). -/
inductive TokenKind where
  | word
  | quotedString
  | backtickString
  | heredoc (marker : List Char)
  | comment
  | openBrace
  | closeBrace
  | newline
  | envVar (name : List Char) (default : Option (List Char))
deriving DecidableEq, Repr

/-- A single token with kind, decoded text and source location
(`token.rs` `Token`). -/
structure Token where
  kind : TokenKind
  text : List Char
  span : Span
deriving DecidableEq, Repr

/-- Lexer error kinds (`lexer.rs` `LexErrorKind`). -/
inductive LexErrorKind where
  | unterminatedString
  | unterminatedBacktick
  | unterminatedHeredoc (marker : List Char)
  | emptyHeredocMarker
  | unexpectedCharacter (ch : Char)
deriving DecidableEq, Repr

/-- Lexer error with location (`lexer.rs` `LexError`). -/
structure LexError where
  kind : LexErrorKind
  span : Span
deriving DecidableEq, Repr

/-- Scan a comment: everything up to, excluding, the next newline
(`Lexer::read_comment`).  Returns the token, the remaining input and the
new column. -/
def read_comment (rem : List Char) (line col : Nat) :
    Token × List Char × Nat :=
  let text := rem.takeWhile (fun c => c ≠ '\n')
  ({ kind := .comment, text, span := ⟨line, col⟩ },
   rem.dropWhile (fun c => c ≠ '\n'), col + text.length)

/-- The UTF-8 bytes of one scalar — the bytes the Rust lexer's byte-level
scan consumes for this character of the input string. -/
def utf8Bytes (c : Char) : List Nat :=
  let n := c.toNat
  if n < 0x80 then [n]
  else if n < 0x800 then [0xC0 + n / 64, 0x80 + n % 64]
  else if n < 0x10000 then
    [0xE0 + n / 4096, 0x80 + n / 64 % 64, 0x80 + n % 64]
  else
    [0xF0 + n / 262144, 0x80 + n / 4096 % 64, 0x80 + n / 64 % 64,
     0x80 + n % 64]

/-- Byte-wise `value.push(char::from(c))` reconstruction of one input
scalar (`lexer.rs` lines 262, 280 and 323): the Rust loop advances one
byte at a time and pushes each raw UTF-8 byte as a Latin-1 character,
so a multi-byte character is distorted into one character per byte
(none of the trailing bytes of a multi-byte character can equal the
ASCII bytes `\\`, `"`, `` ` `` or `\n` that drive the loop's control
flow, so at the scalar level the whole character is consumed in one
step with this text contribution). -/
def mojibake (c : Char) : List Char := (utf8Bytes c).map Char.ofNat

/-- An ASCII scalar: one byte per character, on which the byte-wise
text reconstruction of the string readers is the identity. -/
def asciiChar (c : Char) : Bool := decide (c.toNat < 128)

/-- Body loop of `Lexer::read_quoted_string`: `rem` is positioned right
after the opening quote, `start` is the opening quote's span. -/
def qstrLoop : List Char → Nat → Nat → Span → List Char →
    Except LexError (List Char × List Char × Nat × Nat)
  | [], _, _, start, _ =>
      .error { kind := .unterminatedString, span := start }
  | c :: rest, line, col, start, acc =>
    if c = '\\' then
      match rest with
      | [] =>
          -- the lone backslash is pushed, then the loop sees end of input
          .error { kind := .unterminatedString, span := start }
      | e :: rest2 =>
        if e = 'n' then qstrLoop rest2 line (col + 2) start (acc ++ ['\n'])
        else if e = 't' then qstrLoop rest2 line (col + 2) start (acc ++ ['\t'])
        else if e = 'r' then qstrLoop rest2 line (col + 2) start (acc ++ ['\r'])
        else if e = '"' then qstrLoop rest2 line (col + 2) start (acc ++ ['"'])
        else if e = '\\' then qstrLoop rest2 line (col + 2) start (acc ++ ['\\'])
        else if e = '\n' then qstrLoop rest2 (line + 1) 1 start (acc ++ ['\\', '\n'])
        else qstrLoop rest2 line (col + 2) start (acc ++ ('\\' :: mojibake e))
    else if c = '"' then .ok (acc, rest, line, col + 1)
    else if c = '\n' then qstrLoop rest (line + 1) 1 start (acc ++ ['\n'])
    else qstrLoop rest line (col + 1) start (acc ++ mojibake c)

/-- Scan a double-quoted string (`Lexer::read_quoted_string`): `rest` is
the input after the opening quote, `(line, col)` the opening quote's
position. -/
def read_quoted_string (rest : List Char) (line col : Nat) :
    Except LexError (Token × List Char × Nat × Nat) :=
  match qstrLoop rest line (col + 1) ⟨line, col⟩ [] with
  | .error e => .error e
  | .ok (value, rem, line', col') =>
      .ok ({ kind := .quotedString, text := value, span := ⟨line, col⟩ },
           rem, line', col')

/-- Body loop of `Lexer::read_backtick_string`. -/
def btickLoop : List Char → Nat → Nat → Span → List Char →
    Except LexError (List Char × List Char × Nat × Nat)
  | [], _, _, start, _ =>
      .error { kind := .unterminatedBacktick, span := start }
  | c :: rest, line, col, start, acc =>
    if c = backquote then .ok (acc, rest, line, col + 1)
    else if c = '\n' then btickLoop rest (line + 1) 1 start (acc ++ ['\n'])
    else btickLoop rest line (col + 1) start (acc ++ mojibake c)

/-- Scan a backtick string (`Lexer::read_backtick_string`): `rest` is the
input after the opening backtick. -/
def read_backtick_string (rest : List Char) (line col : Nat) :
    Except LexError (Token × List Char × Nat × Nat) :=
  match btickLoop rest line (col + 1) ⟨line, col⟩ [] with
  | .error e => .error e
  | .ok (value, rem, line', col') =>
      .ok ({ kind := .backtickString, text := value, span := ⟨line, col⟩ },
           rem, line', col')

/-- Character that continues an env-var name scan: anything other than a
closing brace, colon or newline. -/
def envNameChar (c : Char) : Bool := ¬(c = braceR ∨ c = ':' ∨ c = '\n')

/-- Character that continues an env-var default scan: anything other than
a closing brace or newline. -/
def envDefaultChar (c : Char) : Bool := ¬(c = braceR ∨ c = '\n')

/-- Speculative environment-variable scan (`Lexer::try_read_env_var`):
`rem` is positioned at the opening brace.  `none` means the attempt failed
and the caller continues from the saved state. -/
def try_read_env_var (rem : List Char) (line col : Nat) :
    Option (Token × List Char × Nat) :=
  match rem with
  | c0 :: c1 :: rest =>
    if c0 = braceL ∧ c1 = '$' then
      let name := rest.takeWhile envNameChar
      let rem2 := rest.dropWhile envNameChar
      let col2 := col + 2 + name.length
      let dfl : Option (List Char) × List Char × Nat :=
        if rem2.head? = some ':' then
          let d := rem2.tail.takeWhile envDefaultChar
          (some d,
           rem2.tail.dropWhile envDefaultChar,
           col2 + 1 + d.length)
        else (none, rem2, col2)
      if dfl.2.1.head? = some braceR then
        let text := braceL :: '$' ::
          (name ++
            (match dfl.1 with
             | some d => ':' :: d
             | none => []) ++ [braceR])
        some ({ kind := .envVar name dfl.1, text, span := ⟨line, col⟩ },
              dfl.2.1.tail, dfl.2.2 + 1)
      else none
    else none
  | _ => none

/-- Word scan loop of `Lexer::read_word`: returns the consumed prefix.
The boolean records whether nothing has been consumed yet (`pos == start`
in the source). -/
def wordScan : List Char → Bool → List Char
  | [], _ => []
  | c :: rest, atStart =>
    if c = ' ' ∨ c = '\t' ∨ c = '\n' ∨ c = '\r' then []
    else if c = braceL ∨ c = braceR then
      if c = braceL ∧ rest.head? = some '$' then []
      else if atStart then []
      else c :: wordScan rest false
    else if c = '\\' then
      match rest with
      | [] => [c]
      | e :: rest2 => c :: e :: wordScan rest2 false
    else c :: wordScan rest false

/-- Rust `str::trim` on the scalar level: drop whitespace from both
ends. -/
def trimChars (l : List Char) : List Char :=
  ((l.dropWhile Char.isWhitespace).reverse.dropWhile Char.isWhitespace).reverse

/-- Strip one trailing newline from heredoc content, mirroring
`strip_suffix('\n').or_else(strip_suffix(\"\r\n\"))` (the second branch is
unreachable because a `\r\n` suffix already ends in `\n`). -/
def dropNewlineSuffix (l : List Char) : List Char :=
  if l.getLast? = some '\n' then l.dropLast
  else if l.reverse.take 2 = ['\n', '\r'] then l.dropLast.dropLast
  else l

/-- Heredoc content loop of `Lexer::read_heredoc`: reads one line per
iteration until the line whose trimmed text equals the marker.  `acc` is
everything consumed since the content start.  The fuel (one plus the
remaining length at entry) always suffices: each recursive call consumes
at least the line's newline. -/
def hdLoop : Nat → List Char → Nat → Nat → List Char → List Char → Span →
    Except LexError (Token × List Char × Nat × Nat)
  | _, [], _, _, _, marker, start =>
      .error { kind := .unterminatedHeredoc marker, span := start }
  | 0, _ :: _, _, _, _, marker, start =>
      .error { kind := .unterminatedHeredoc marker, span := start }
  | fuel + 1, rem@(_ :: _), line, col, acc, marker, start =>
    let lineTxt := rem.takeWhile (fun c => c ≠ '\n')
    let rem2 := rem.dropWhile (fun c => c ≠ '\n')
    let col2 := col + lineTxt.length
    if trimChars lineTxt = marker then
      let content := dropNewlineSuffix acc
      let tok : Token :=
        { kind := .heredoc marker, text := content, span := start }
      match rem2 with
      | '\n' :: r3 => .ok (tok, r3, line + 1, 1)
      | _ => .ok (tok, rem2, line, col2)
    else
      match rem2 with
      | '\n' :: r3 =>
          hdLoop fuel r3 (line + 1) 1 (acc ++ lineTxt ++ ['\n']) marker start
      | _ => hdLoop fuel rem2 line col2 acc marker start

/-- Scan a heredoc (`Lexer::read_heredoc`): `rest2` is the input after the
two `<` characters, `(line, col)` the position of the first `<`. -/
def read_heredoc (rest2 : List Char) (line col : Nat) :
    Except LexError (Token × List Char × Nat × Nat) :=
  let start : Span := ⟨line, col⟩
  let marker := rest2.takeWhile
    (fun c => ¬(c = '\n' ∨ c = '\r' ∨ c = ' ' ∨ c = '\t'))
  let rem3 := rest2.dropWhile
    (fun c => ¬(c = '\n' ∨ c = '\r' ∨ c = ' ' ∨ c = '\t'))
  let col3 := col + 2 + marker.length
  if marker = [] then
    .error { kind := .emptyHeredocMarker, span := start }
  else
    -- skip to the next line: an optional CR, then an optional LF
    let s1 : List Char × Nat × Nat :=
      match rem3 with
      | '\r' :: r => (r, line, col3 + 1)
      | _ => (rem3, line, col3)
    let s2 : List Char × Nat × Nat :=
      match s1.1 with
      | '\n' :: r => (r, s1.2.1 + 1, 1)
      | _ => s1
    hdLoop (s2.1.length + 1) s2.1 s2.2.1 s2.2.2 [] marker start

/-- Scan a word or heredoc (`Lexer::read_word`): `c` is the current
character, `rest` the input after it. -/
def read_word (c : Char) (rest : List Char) (line col : Nat) :
    Except LexError (Token × List Char × Nat × Nat) :=
  if c = '<' ∧ rest.head? = some '<' then
    read_heredoc rest.tail line col
  else
    let text := wordScan (c :: rest) true
    if text = [] then
      .error { kind := .unexpectedCharacter c, span := ⟨line, col⟩ }
    else
      .ok ({ kind := .word, text, span := ⟨line, col⟩ },
           (c :: rest).drop text.length, line, col + text.length)

/-- Prepend a token to a pending lexer result. -/
def consTok (t : Token) (r : Option (Except LexError (List Token))) :
    Option (Except LexError (List Token)) :=
  r.map (Except.map (fun ts => t :: ts))

/-- Outcome of one iteration of the scanning loop: a token was pushed,
characters were silently consumed, or a lexical error occurred. -/
inductive LexStep where
  | emit (t : Token) (rem : List Char) (line : Nat) (col : Nat)
  | skip (rem : List Char) (line : Nat) (col : Nat)
  | fail (e : LexError)

/-- One iteration of the scanning loop of `Lexer::tokenize` — the body of
the `while` with its character dispatch; `c` is the current character and
`rest` the input after it. -/
def lexStep (c : Char) (rest : List Char) (line col : Nat) : LexStep :=
  if c = '\n' then
    .emit { kind := .newline, text := ['\n'], span := ⟨line, col⟩ }
      rest (line + 1) 1
  else if c = '\r' then
    match rest with
    | '\n' :: rest2 =>
        .emit { kind := .newline, text := ['\n'], span := ⟨line + 1 - 1, 1⟩ }
          rest2 (line + 1) 1
    | _ =>
        .emit { kind := .newline, text := ['\n'],
                span := ⟨line - 1, col + 1⟩ }
          rest line (col + 1)
  else if c = ' ' ∨ c = '\t' then .skip rest line (col + 1)
  else if c = '#' then
    let r := read_comment (c :: rest) line col
    .emit r.1 r.2.1 line r.2.2
  else if c = braceL then
    match try_read_env_var (c :: rest) line col with
    | some (t, rem', col') => .emit t rem' line col'
    | none =>
        .emit { kind := .openBrace, text := [braceL], span := ⟨line, col⟩ }
          rest line (col + 1)
  else if c = braceR then
    .emit { kind := .closeBrace, text := [braceR], span := ⟨line, col⟩ }
      rest line (col + 1)
  else if c = '"' then
    match read_quoted_string rest line col with
    | .error e => .fail e
    | .ok (t, rem', line', col') => .emit t rem' line' col'
  else if c = backquote then
    match read_backtick_string rest line col with
    | .error e => .fail e
    | .ok (t, rem', line', col') => .emit t rem' line' col'
  else if c = '\\' then
    match rest with
    | '\n' :: rest2 => .skip rest2 (line + 1) 1
    | '\r' :: '\n' :: rest3 => .skip rest3 (line + 1) 1
    | '\r' :: rest2 => .skip rest2 line (col + 2)
    | _ =>
      match read_word c rest line col with
      | .error e => .fail e
      | .ok (t, rem', line', col') => .emit t rem' line' col'
  else
    match read_word c rest line col with
    | .error e => .fail e
    | .ok (t, rem', line', col') => .emit t rem' line' col'

/-- Main scanning loop of `Lexer::tokenize`, iterating `lexStep`.  `none`
means the fuel ran out; the top level supplies one more than the input
length, which always suffices because every iteration consumes at least
one character. -/
def lexLoop : Nat → List Char → Nat → Nat →
    Option (Except LexError (List Token))
  | _, [], _, _ => some (.ok [])
  | 0, _ :: _, _, _ => none
  | fuel + 1, c :: rest, line, col =>
    match lexStep c rest line col with
    | .emit t rem' line' col' => consTok t (lexLoop fuel rem' line' col')
    | .skip rem' line' col' => lexLoop fuel rem' line' col'
    | .fail e => some (.error e)

/-- The byte-order mark scalar. -/
def bomChar : Char := Char.ofNat 0xFEFF

/-- Skip a leading byte-order mark. -/
def stripBom (input : List Char) : List Char :=
  match input with
  | c :: rest => if c = bomChar then rest else input
  | [] => []

/-- Tokenize a source string (`lexer.rs` `tokenize`): skip a leading BOM,
then run the scanning loop from line 1, column 1. -/
def tokenize (input : List Char) : Except LexError (List Token) :=
  (lexLoop ((stripBom input).length + 1) (stripBom input) 1 1).getD (.ok [])

/-! ## Parser (`parser.rs`)

The parser's cursor is modelled by the remaining token list; the full
token list is passed along unchanged because `eof_span` needs the last
token of the whole input.  The two mutually recursive functions take a
fuel argument (`none` = fuel ran out; the top level supplies more than
enough). -/

/-- Parser error kinds (`parser.rs` `ParseErrorKind`). -/
inductive ParseErrorKind where
  | expectedOpenBrace (found : Option (List Char))
  | expectedCloseBrace (found : Option (List Char))
deriving DecidableEq, Repr

/-- Parser error with location (`parser.rs` `ParseError`). -/
structure ParseError where
  kind : ParseErrorKind
  span : Span
deriving DecidableEq, Repr

/-- Whether a token is skipped between syntactic entities
(`Parser::skip_newlines_and_comments` condition). -/
def isNlOrComment (t : Token) : Bool :=
  match t.kind with
  | .newline => true
  | .comment => true
  | _ => false

/-- Skip newline and comment tokens
(`Parser::skip_newlines_and_comments`). -/
def skipNC : List Token → List Token
  | [] => []
  | t :: rest => if isNlOrComment t then skipNC rest else t :: rest

/-- Skip newline tokens only (`Parser::skip_whitespace_tokens`). -/
def skipNl : List Token → List Token
  | [] => []
  | t :: rest => if t.kind = .newline then skipNl rest else t :: rest

/-- Span reported at end of input: the last token's span, or (1,1) for an
empty token stream (`Parser::eof_span`). -/
def eof_span (full : List Token) : Span :=
  match full.getLast? with
  | some t => t.span
  | none => ⟨1, 1⟩

/-- Require and consume an opening brace
(`Parser::expect_open_brace`). -/
def expect_open_brace (full rem : List Token) :
    Except ParseError (List Token) :=
  match skipNC rem with
  | [] => .error { kind := .expectedOpenBrace none, span := eof_span full }
  | t :: rest =>
    if t.kind = .openBrace then .ok rest
    else .error { kind := .expectedOpenBrace (some t.text), span := t.span }

/-- Require and consume a closing brace
(`Parser::expect_close_brace`). -/
def expect_close_brace (full rem : List Token) :
    Except ParseError (List Token) :=
  match skipNC rem with
  | [] => .error { kind := .expectedCloseBrace none, span := eof_span full }
  | t :: rest =>
    if t.kind = .closeBrace then .ok rest
    else .error { kind := .expectedCloseBrace (some t.text), span := t.span }

/-- Convert a token to an argument (`Parser::token_to_argument`). -/
def token_to_argument (t : Token) : Argument :=
  match t.kind with
  | .quotedString => .quoted t.text
  | .backtickString => .backtick t.text
  | .heredoc m => .heredoc m t.text
  | _ => .unquoted t.text

/-- Try to read a matcher token (`Parser::try_parse_matcher`); returns the
matcher, if any, and the remaining tokens. -/
def try_parse_matcher (rem : List Token) : Option Matcher × List Token :=
  match rem with
  | [] => (none, [])
  | t :: rest =>
    match t.kind with
    | .newline => (none, t :: rest)
    | .openBrace => (none, t :: rest)
    | .closeBrace => (none, t :: rest)
    | .comment => (none, t :: rest)
    | _ =>
      if t.text = ['*'] then (some .all, rest)
      else
        match t.text with
        | '@' :: n => (some (.named n), rest)
        | '/' :: _ => (some (.path t.text), rest)
        | _ => (none, t :: rest)

/-- Argument collection loop of `Parser::parse_directive`: arguments up to
a newline (consumed) or a brace (left in place); comments are skipped. -/
def argsLoop : List Token → List Argument × List Token
  | [] => ([], [])
  | t :: rest =>
    match t.kind with
    | .newline => ([], rest)
    | .openBrace => ([], t :: rest)
    | .closeBrace => ([], t :: rest)
    | .comment => argsLoop rest
    | _ =>
      let r := argsLoop rest
      (token_to_argument t :: r.1, r.2)

/-- Strip all trailing commas from an address token's text
(`text.trim_end_matches(',')`). -/
def stripTrailingCommas (l : List Char) : List Char :=
  (l.reverse.dropWhile (fun c => c = ',')).reverse

/-- Address collection loop of `Parser::parse_site_block`: tokens up to an
opening brace (left in place) or newline (consumed); comments skipped;
each address token is decomposed by `parse_address`. -/
def addrLoop : List Token → List Address × List Token
  | [] => ([], [])
  | t :: rest =>
    match t.kind with
    | .openBrace => ([], t :: rest)
    | .newline => ([], rest)
    | .comment => addrLoop rest
    | _ =>
      let r := addrLoop rest
      (parse_address (stripTrailingCommas t.text) :: r.1, r.2)

mutual

/-- Parse one directive (`Parser::parse_directive`): `t` is the (already
inspected) name token, `rem` the tokens after it. -/
def parse_directive (fuel : Nat) (full : List Token) (t : Token)
    (rem : List Token) :
    Option (Except ParseError (Directive × List Token)) :=
  match fuel with
  | 0 => none
  | fuel + 1 =>
    let name := t.text
    let m := try_parse_matcher rem
    let ar := argsLoop m.2
    match ar.2 with
    | t2 :: rest2 =>
      if t2.kind = .openBrace then
        match parse_directives fuel full rest2 with
        | none => none
        | some (.error e) => some (.error e)
        | some (.ok (sub, rem3)) =>
          match expect_close_brace full rem3 with
          | .error e => some (.error e)
          | .ok rem4 => some (.ok (.mk name m.1 ar.1 (some sub), rem4))
      else some (.ok (.mk name m.1 ar.1 none, t2 :: rest2))
    | [] => some (.ok (.mk name m.1 ar.1 none, []))

/-- Parse a directive list (`Parser::parse_directives`): stops at a
closing brace (left in place) or end of input. -/
def parse_directives (fuel : Nat) (full rem : List Token) :
    Option (Except ParseError (Dirs × List Token)) :=
  match fuel with
  | 0 => none
  | fuel + 1 =>
    match skipNC rem with
    | [] => some (.ok (.nil, []))
    | t :: rest =>
      if t.kind = .closeBrace then some (.ok (.nil, t :: rest))
      else
        match parse_directive fuel full t rest with
        | none => none
        | some (.error e) => some (.error e)
        | some (.ok (d, rem2)) =>
          match parse_directives fuel full rem2 with
          | none => none
          | some (.error e) => some (.error e)
          | some (.ok (ds, rem3)) => some (.ok (.cons d ds, rem3))

end

/-- Parse the global options block (`Parser::parse_global_options`). -/
def parse_global_options (fuel : Nat) (full rem : List Token) :
    Option (Except ParseError (GlobalOptions × List Token)) :=
  match expect_open_brace full rem with
  | .error e => some (.error e)
  | .ok rem1 =>
    match parse_directives fuel full rem1 with
    | none => none
    | some (.error e) => some (.error e)
    | some (.ok (ds, rem2)) =>
      match expect_close_brace full rem2 with
      | .error e => some (.error e)
      | .ok rem3 => some (.ok (⟨ds⟩, rem3))

/-- Parse a snippet (`Parser::parse_snippet`): `t` is the `(name)` token,
already matched by the caller. -/
def parse_snippet (fuel : Nat) (full : List Token) (t : Token)
    (rem : List Token) :
    Option (Except ParseError (Snippet × List Token)) :=
  let name := (t.text.drop 1).dropLast
  match expect_open_brace full (skipNl rem) with
  | .error e => some (.error e)
  | .ok rem1 =>
    match parse_directives fuel full rem1 with
    | none => none
    | some (.error e) => some (.error e)
    | some (.ok (ds, rem2)) =>
      match expect_close_brace full rem2 with
      | .error e => some (.error e)
      | .ok rem3 => some (.ok (⟨name, ds⟩, rem3))

/-- Parse a named route (`Parser::parse_named_route`): `t` is the
`&(name)` token, already matched by the caller. -/
def parse_named_route (fuel : Nat) (full : List Token) (t : Token)
    (rem : List Token) :
    Option (Except ParseError (NamedRoute × List Token)) :=
  let name := (t.text.drop 2).dropLast
  match expect_open_brace full (skipNl rem) with
  | .error e => some (.error e)
  | .ok rem1 =>
    match parse_directives fuel full rem1 with
    | none => none
    | some (.error e) => some (.error e)
    | some (.ok (ds, rem2)) =>
      match expect_close_brace full rem2 with
      | .error e => some (.error e)
      | .ok rem3 => some (.ok (⟨name, ds⟩, rem3))

/-- Parse a site block (`Parser::parse_site_block`). -/
def parse_site_block (fuel : Nat) (full rem : List Token) :
    Option (Except ParseError (SiteBlock × List Token)) :=
  let ar := addrLoop rem
  let rem2 := skipNC ar.2
  match rem2 with
  | [] => some (.ok (⟨ar.1, .nil⟩, []))
  | t :: rest =>
    if t.kind ≠ .openBrace then some (.ok (⟨ar.1, .nil⟩, t :: rest))
    else
      match expect_open_brace full (t :: rest) with
      | .error e => some (.error e)
      | .ok rem3 =>
        match parse_directives fuel full rem3 with
        | none => none
        | some (.error e) => some (.error e)
        | some (.ok (ds, rem4)) =>
          match expect_close_brace full rem4 with
          | .error e => some (.error e)
          | .ok rem5 => some (.ok (⟨ar.1, ds⟩, rem5))

/-- Does a token's text have the `(name)` shape of a snippet header? -/
def isSnippetTok (t : Token) : Bool :=
  t.text.head? = some '(' && t.text.getLast? = some ')'
    && decide (t.text.length > 2)

/-- Does a token's text have the `&(name)` shape of a named route
header? -/
def isRouteTok (t : Token) : Bool :=
  t.text.take 2 = ['&', '('] && t.text.getLast? = some ')'
    && decide (t.text.length > 3)

/-- Top-level block loop of `Parser::parse` (step 3 of the algorithm):
snippets, named routes and site blocks in source order. -/
def parseBlocks (fuel : Nat) (full rem : List Token) (acc : Caddyfile) :
    Option (Except ParseError Caddyfile) :=
  match rem with
  | [] => some (.ok acc)
  | _ :: _ =>
    match fuel with
    | 0 => none
    | fuel + 1 =>
      match skipNC rem with
      | [] => some (.ok acc)
      | t :: rest =>
        if isSnippetTok t then
          match parse_snippet fuel full t rest with
          | none => none
          | some (.error e) => some (.error e)
          | some (.ok (s, rem2)) =>
              parseBlocks fuel full rem2
                { acc with snippets := acc.snippets ++ [s] }
        else if isRouteTok t then
          match parse_named_route fuel full t rest with
          | none => none
          | some (.error e) => some (.error e)
          | some (.ok (r, rem2)) =>
              parseBlocks fuel full rem2
                { acc with named_routes := acc.named_routes ++ [r] }
        else
          match parse_site_block fuel full (t :: rest) with
          | none => none
          | some (.error e) => some (.error e)
          | some (.ok (s, rem2)) =>
              parseBlocks fuel full rem2
                { acc with sites := acc.sites ++ [s] }

/-- The empty document accumulator. -/
def emptyCaddyfile : Caddyfile :=
  { global_options := none, snippets := [], named_routes := [], sites := [] }

/-- Formalisation of the specification's own wording of the address
algorithm (spec section 4.2): strip a scheme prefix; split at the first
`/` into host:port and optional path via `takeWhile`/`dropWhile`; split
the host:port segment at the last `:` (reached from the reversed list)
only when the text after it parses as a `u16`. -/
def parse_address_spec (addr : List Char) : Address :=
  let sr : Option Scheme × List Char := stripScheme addr
  let host_port := sr.2.takeWhile (fun c => !(isSlash c))
  let pathPart := sr.2.dropWhile (fun c => !(isSlash c))
  let path : Option (List Char) :=
    if pathPart = [] then none else some pathPart
  let afterLastColon :=
    (host_port.reverse.takeWhile (fun c => !(isColon c))).reverse
  let beforeLastColon :=
    ((host_port.reverse.dropWhile (fun c => !(isColon c))).drop 1).reverse
  let hp : List Char × Option Nat :=
    if ':' ∈ host_port then
      match parseU16 afterLastColon with
      | some p => (beforeLastColon, some p)
      | none => (host_port, none)
    else (host_port, none)
  { scheme := sr.1, host := hp.1, port := hp.2, path := path }

/-- Parse with explicit fuel (`Parser::parse`): skip leading trivia, a
global options block if the first token is an opening brace, then the
block loop. -/
def parseWithFuel (fuel : Nat) (tokens : List Token) :
    Option (Except ParseError Caddyfile) :=
  let rem0 := skipNC tokens
  match rem0 with
  | t :: rest =>
    if t.kind = .openBrace then
      match parse_global_options fuel tokens (t :: rest) with
      | none => none
      | some (.error e) => some (.error e)
      | some (.ok (g, rem1)) =>
          parseBlocks fuel tokens (skipNC rem1)
            { emptyCaddyfile with global_options := some g }
    else parseBlocks fuel tokens rem0 emptyCaddyfile
  | [] => parseBlocks fuel tokens rem0 emptyCaddyfile

/-- Parse a token stream into a document (`parser.rs` `parse`).  The fuel
`2 * tokens.length + 8` always suffices (every mutual call either consumes
a token or alternates between the two mutual functions); the fall-back
value of `getD` is never reached. -/
def parse (tokens : List Token) : Except ParseError Caddyfile :=
  (parseWithFuel (2 * tokens.length + 8) tokens).getD
    (.error { kind := .expectedCloseBrace none, span := ⟨1, 1⟩ })

/-- Separator that the blank-line rule places between two adjacent
directives of one list: one blank line when either owns a block (so two
adjacent block-owners share a single separating blank line). -/
def sepBetween (p d : Directive) : List Char :=
  if d.hasBlock || p.hasBlock then ['\n'] else []

mutual

/-- Pairwise-separator formulation of the blank-line spacing rule, as the
specification words it: no separator before the first directive, then
between each adjacent pair exactly the separator `sepBetween`. -/
def spacedSpec : Dirs → Nat → List Char
  | .nil, _ => []
  | .cons d rest, ind => format_directive d ind ++ spacedSpecRest d rest ind

/-- Tail of `spacedSpec`: `p` is the directive preceding the head of the
list. -/
def spacedSpecRest : Directive → Dirs → Nat → List Char
  | _, .nil, _ => []
  | p, .cons d rest, ind =>
      sepBetween p d ++ format_directive d ind ++ spacedSpecRest d rest ind

end

/-- Global-options document with a block-owning directive followed by a
plain one, exercising the blank-line spacing question inside the
global-options block. -/
def gOptsDoc : Caddyfile :=
  { global_options := some
      { directives := .cons (.mk ['a'] none [] (some .nil))
          (.cons (.mk ['b'] none [] none) .nil) }
    snippets := [], named_routes := [], sites := [] }

/-- Whether a lexer error kind is the `UnexpectedCharacter` kind. -/
def isUnexpectedCharKind : LexErrorKind → Bool
  | .unexpectedCharacter _ => true
  | _ => false

mutual

/-- Does a directive, including every directive nested below it, carry a
non-empty name? -/
def dirNamesOk : Directive → Bool
  | .mk n _ _ none => decide (n ≠ [])
  | .mk n _ _ (some b) => decide (n ≠ []) && dirsNamesOk b

/-- `dirNamesOk` over every directive of a list. -/
def dirsNamesOk : Dirs → Bool
  | .nil => true
  | .cons d ds => dirNamesOk d && dirsNamesOk ds

end

/-- Does every directive anywhere in a document carry a non-empty name? -/
def namesOk (cf : Caddyfile) : Bool :=
  (match cf.global_options with
   | some g => dirsNamesOk g.directives
   | none => true)
  && cf.snippets.all (fun s => dirsNamesOk s.directives)
  && cf.named_routes.all (fun r => dirsNamesOk r.directives)
  && cf.sites.all (fun s => dirsNamesOk s.directives)

/-- `namesOk` of the document obtained by tokenizing and parsing an
input, taken to be `true` when either stage fails. -/
def parsedNamesOk (input : List Char) : Bool :=
  match tokenize input with
  | .error _ => true
  | .ok ts =>
    match parse ts with
    | .error _ => true
    | .ok cf => namesOk cf

/-! ## Well-formed documents and their token streams (for the
round-trip properties).  `eraseTok` forgets the span, which the parser
never consults on its success paths. -/

/-- A character on which `Lexer::read_word`'s scan is sure to continue:
everything except whitespace, carriage return, braces, a backslash and
the byte-order mark. -/
def wordChar (c : Char) : Bool :=
  ¬(c = ' ' ∨ c = '\t' ∨ c = '\n' ∨ c = '\r' ∨ c = braceL ∨ c = braceR
      ∨ c = '\\' ∨ c = bomChar)

/-- A character on which the scanning loop dispatches into the word
reader. -/
def wordHeadOk (c : Char) : Bool :=
  wordChar c && ¬(c = '#' ∨ c = '"' ∨ c = backquote)

/-- A word that the lexer reproduces verbatim as a single `Word` token:
non-empty, a head that dispatches to the word reader, word-safe
characters throughout, and not starting with `<<` (which would start a
heredoc). -/
def goodWord (w : List Char) : Bool :=
  match w with
  | [] => false
  | c :: ws =>
      wordHeadOk c && ws.all wordChar && ¬(c = '<' && ws.head? = some '<')

/-- A host character of a well-formed address: alphanumeric, dot, dash
or underscore (the character class of the repository's own generator). -/
def hostChar (c : Char) : Bool :=
  c.isAlphanum || c = '.' || c = '-' || c = '_'

/-- A path character of a well-formed address: word-safe and not a
comma (a trailing comma would be eaten by the parser's
`trim_end_matches(',')`). -/
def pathChar (c : Char) : Bool := wordChar c && ¬(c = ',')

/-- A well-formed address: non-empty host over the safe host alphabet,
port below 2^16, path starting with a slash over the safe path
alphabet, and — when no scheme is present — a rendering that does not
accidentally start with a scheme prefix. -/
def addrOk (a : Address) : Bool :=
  a.host ≠ [] && a.host.all hostChar
  && (match a.port with
      | some p => decide (p < 65536)
      | none => true)
  && (match a.path with
      | some p => p.head? = some '/' && p.all pathChar
      | none => true)
  && (match a.scheme with
      | none =>
          ¬(List.isPrefixOf ("http://".toList) (format_address a)
            || List.isPrefixOf ("https://".toList) (format_address a))
      | some _ => true)

/-- The token text an argument round-trips through. -/
def argText : Argument → List Char
  | .unquoted s => s
  | .quoted s => s
  | .backtick s => s
  | .heredoc _ c => c

/-- Token texts that `Parser::try_parse_matcher` would swallow as a
matcher. -/
def matcherLike (txt : List Char) : Bool :=
  txt = ['*'] || txt.head? = some '@' || txt.head? = some '/'

/-- A well-formed argument: a good word, a quoted string of ASCII
characters, or a backtick string of ASCII characters free of backticks;
heredocs are excluded (the repository's generator likewise excludes
them).  The ASCII restriction on quoted and backtick content is needed
because the Rust string readers rebuild the token text byte-wise via
`char::from(u8)`, which distorts any multi-byte character. -/
def argWF : Argument → Bool
  | .unquoted s => goodWord s
  | .quoted s => s.all asciiChar
  | .backtick s => s.all (fun c => asciiChar c && decide (c ≠ backquote))
  | .heredoc _ _ => false

/-- A well-formed matcher: rendered as a word the parser reads back. -/
def matcherWF : Option Matcher → Bool
  | none => true
  | some .all => true
  | some (.named n) => n.all wordChar
  | some (.path p) => p.head? = some '/' && p.all wordChar

mutual

/-- A well-formed directive: good-word name, well-formed matcher and
arguments, a first argument that cannot be mistaken for a matcher when
there is none, and a well-formed block. -/
def dirWF : Directive → Bool
  | .mk name m args block =>
      goodWord name && matcherWF m && args.all argWF
      && (match m with
          | none =>
            (match args.head? with
             | some a => ¬matcherLike (argText a)
             | none => true)
          | some _ => true)
      && (match block with
          | some b => dirsWF b
          | none => true)

/-- `dirWF` over a directive list. -/
def dirsWF : Dirs → Bool
  | .nil => true
  | .cons d ds => dirWF d && dirsWF ds

end

/-- A well-formed snippet: non-empty name over the safe alphabet,
well-formed body. -/
def snipWF (s : Snippet) : Bool :=
  s.name ≠ [] && s.name.all wordChar && dirsWF s.directives

/-- A well-formed named route. -/
def routeWF (r : NamedRoute) : Bool :=
  r.name ≠ [] && r.name.all wordChar && dirsWF r.directives

/-- A well-formed site block: at least one address, all well-formed,
and a well-formed body. -/
def siteWF (s : SiteBlock) : Bool :=
  s.addresses ≠ [] && s.addresses.all addrOk && dirsWF s.directives

/-- The well-formed document class of the amended round-trip claims.
It mirrors the restrictions of the repository's own property-test
generator (`proptest_ast.rs`): safe words, at least one address per
site, no heredoc arguments. -/
def docWF (cf : Caddyfile) : Bool :=
  (match cf.global_options with
   | some g => dirsWF g.directives
   | none => true)
  && cf.snippets.all snipWF
  && cf.named_routes.all routeWF
  && cf.sites.all siteWF

/-- A token without its span: kind and text, all the parser consults on
its success paths. -/
def eraseTok (t : Token) : TokenKind × List Char := (t.kind, t.text)

/-- The erased token an argument lexes to. -/
def argETok : Argument → TokenKind × List Char
  | .unquoted s => (.word, s)
  | .quoted s => (.quotedString, s)
  | .backtick s => (.backtickString, s)
  | .heredoc m c => (.heredoc m, c)

/-- The erased tokens a rendered matcher lexes to. -/
def matcherEToks : Option Matcher → List (TokenKind × List Char)
  | none => []
  | some .all => [(.word, ['*'])]
  | some (.named n) => [(.word, '@' :: n)]
  | some (.path p) => [(.word, p)]

/-- The erased newline token. -/
def nlETok : TokenKind × List Char := (.newline, ['\n'])

/-- The rendered matcher segment of a directive line (the matcher match
of `format_directive`). -/
def matchSeg : Option Matcher → List Char
  | none => []
  | some .all => [' ', '*']
  | some (.path p) => ' ' :: p
  | some (.named n) => ' ' :: '@' :: n

mutual

/-- Erased tokens of one rendered directive. -/
def dirEToks : Directive → List (TokenKind × List Char)
  | .mk name m args block =>
      (.word, name) :: (matcherEToks m ++ args.map argETok
        ++ (match block with
            | some b =>
                (.openBrace, [braceL]) :: nlETok ::
                  (dirsEToksSp b ++ [(.closeBrace, [braceR]), nlETok])
            | none => [nlETok]))

/-- Erased tokens of a directive list rendered without spacing. -/
def dirsEToks : Dirs → List (TokenKind × List Char)
  | .nil => []
  | .cons d ds => dirEToks d ++ dirsEToks ds

/-- Erased tokens of a directive list rendered with blank-line
spacing; each separating blank line contributes one newline token. -/
def dirsEToksSp : Dirs → List (TokenKind × List Char)
  | .nil => []
  | .cons d ds => dirEToks d ++ spEToksRest ds d.hasBlock

/-- Spacing-loop companion of `dirsEToksSp`. -/
def spEToksRest : Dirs → Bool → List (TokenKind × List Char)
  | .nil, _ => []
  | .cons d ds, prevHad =>
      (if d.hasBlock || prevHad then [nlETok] else [])
        ++ dirEToks d ++ spEToksRest ds d.hasBlock

end

/-- Erased tokens of a rendered address list: every address but the
last keeps the separating comma inside its word token. -/
def addrEToks : List Address → List (TokenKind × List Char)
  | [] => []
  | [a] => [(.word, format_address a)]
  | a :: rest => (.word, format_address a ++ [',']) :: addrEToks rest

/-- Erased tokens of a rendered global options block. -/
def gOptsEToks (g : GlobalOptions) : List (TokenKind × List Char) :=
  (.openBrace, [braceL]) :: nlETok ::
    (dirsEToks g.directives ++ [(.closeBrace, [braceR]), nlETok])

/-- Erased tokens of a rendered snippet. -/
def snipEToks (s : Snippet) : List (TokenKind × List Char) :=
  (.word, '(' :: (s.name ++ [')'])) :: (.openBrace, [braceL]) :: nlETok ::
    (dirsEToks s.directives ++ [(.closeBrace, [braceR]), nlETok])

/-- Erased tokens of a rendered named route. -/
def routeEToks (r : NamedRoute) : List (TokenKind × List Char) :=
  (.word, '&' :: '(' :: (r.name ++ [')'])) :: (.openBrace, [braceL]) ::
    nlETok ::
    (dirsEToks r.directives ++ [(.closeBrace, [braceR]), nlETok])

/-- Erased tokens of a rendered site block. -/
def siteEToks (s : SiteBlock) : List (TokenKind × List Char) :=
  addrEToks s.addresses ++ (.openBrace, [braceL]) :: nlETok ::
    (dirsEToksSp s.directives ++ [(.closeBrace, [braceR]), nlETok])

/-- Erased-token companion of `emit_blocks`: one separating newline
token before each block after the first. -/
def emitEToks {α : Type} (f : α → List (TokenKind × List Char)) :
    List α → Bool → List (TokenKind × List Char)
  | [], _ => []
  | x :: xs, first =>
      (if first then [] else [nlETok]) ++ f x ++ emitEToks f xs false

/-- Erased tokens of a whole rendered document. -/
def docEToks (cf : Caddyfile) : List (TokenKind × List Char) :=
  let s0 := match cf.global_options with
    | some g => gOptsEToks g
    | none => []
  let first0 := cf.global_options.isNone
  let s1 := emitEToks snipEToks cf.snippets first0
  let first1 := first0 && cf.snippets.isEmpty
  let s2 := emitEToks routeEToks cf.named_routes first1
  let first2 := first1 && cf.named_routes.isEmpty
  let s3 := emitEToks siteEToks cf.sites first2
  let out := s0 ++ s1 ++ s2 ++ s3
  if out = [] then [nlETok] else out

mutual

/-- Fuel sufficient for `parse_directive` on one rendered directive. -/
def dirFuel : Directive → Nat
  | .mk _ _ _ none => 1
  | .mk _ _ _ (some b) => dirsFuel b + 1

/-- Fuel sufficient for `parse_directives` on a rendered list. -/
def dirsFuel : Dirs → Nat
  | .nil => 1
  | .cons d ds => max (dirFuel d) (dirsFuel ds) + 1

end

/-- Fuel sufficient for `parseBlocks` over the remaining blocks of a
document: one step per block plus the deepest body. -/
def blocksFuel (cf : Caddyfile) : Nat :=
  cf.snippets.foldr (fun s a => max (dirsFuel s.directives) a + 1)
    (cf.named_routes.foldr (fun r a => max (dirsFuel r.directives) a + 1)
      (cf.sites.foldr (fun s a => max (dirsFuel s.directives) a + 1) 1))

/-- Fuel sufficient for `parseWithFuel` on a rendered document. -/
def docFuel (cf : Caddyfile) : Nat :=
  max (match cf.global_options with
       | some g => dirsFuel g.directives
       | none => 1)
    (blocksFuel cf)

/-- Prepend a token list to a pending lexer result. -/
def consToks (ts : List Token)
    (r : Option (Except LexError (List Token))) :
    Option (Except LexError (List Token)) :=
  r.map (Except.map (fun l => ts ++ l))

/-- A rendered segment that lexes to tokens with the given erasures, at
any position and before any continuation, consuming at most one fuel
unit per character. -/
def LexSeg (seg : List Char) (ets : List (TokenKind × List Char)) : Prop :=
  ∀ line col rest, ∃ n toks line' col',
    n ≤ seg.length ∧ toks.map eraseTok = ets ∧
    ∀ fuel, lexLoop (n + fuel) (seg ++ rest) line col
      = consToks toks (lexLoop fuel rest line' col')

/-- Continuations that stop a word scan. -/
def headSp (rest : List Char) : Prop :=
  rest.head? = some ' ' ∨ rest.head? = some '\n'

/-- As `LexSeg`, but only before a continuation that stops a word scan
(for segments ending in a bare word). -/
def LexSegW (seg : List Char) (ets : List (TokenKind × List Char)) : Prop :=
  ∀ line col rest, headSp rest → ∃ n toks line' col',
    n ≤ seg.length ∧ toks.map eraseTok = ets ∧
    ∀ fuel, lexLoop (n + fuel) (seg ++ rest) line col
      = consToks toks (lexLoop fuel rest line' col')

/-- A one-site, zero-address document: the counterexample to the
unrestricted round-trip claims. -/
def emptySiteDoc : Caddyfile :=
  { global_options := none, snippets := [], named_routes := []
    sites := [{ addresses := [], directives := .nil }] }

/-- Format, re-tokenize, re-parse, re-format; `none` when a stage
fails. -/
def reformat (cf : Caddyfile) : Option (List Char) :=
  match tokenize (format cf) with
  | .error _ => none
  | .ok ts =>
    match parse ts with
    | .error _ => none
    | .ok cf' => some (format cf')

/-- Format, re-tokenize, re-parse; `none` when a stage fails. -/
def reparse (cf : Caddyfile) : Option Caddyfile :=
  match tokenize (format cf) with
  | .error _ => none
  | .ok ts =>
    match parse ts with
    | .error _ => none
    | .ok cf' => some cf'

/-- Site, snippet and named-route counts and global-options presence. -/
def countsOf (cf : Caddyfile) : Nat × Nat × Nat × Bool :=
  (cf.sites.length, cf.snippets.length, cf.named_routes.length,
   cf.global_options.isSome)

/-- A small concrete well-formed document: one site `example.com`
holding a single `log` directive. -/
def exDoc : Caddyfile :=
  { global_options := none, snippets := [], named_routes := []
    sites := [{ addresses := [{ scheme := none
                                host := "example.com".toList
                                port := none, path := none }]
                directives := .cons (.mk ("log".toList) none [] none)
                  .nil }] }

/-! ## Theorems -/

theorem firstIdx?_eq_none_iff (p : Char → Bool) (l : List Char) :
    firstIdx? p l = none ↔ ∀ x ∈ l, p x = false := by
  induction l with
  | nil => simp [firstIdx?]
  | cons c rest ih =>
    simp only [firstIdx?, List.mem_cons]
    constructor
    · intro h x hx
      by_cases hc : p c
      · simp [hc] at h
      · rcases hx with rfl | hx
        · simpa using hc
        · cases hfi : firstIdx? p rest with
          | none => exact ih.mp hfi x hx
          | some j => simp [hc, hfi] at h
    · intro h
      have hc : p c = false := h c (Or.inl rfl)
      have hr : firstIdx? p rest = none := ih.mpr (fun x hx => h x (Or.inr hx))
      simp [hc, hr]

theorem firstIdx?_some_decomp (p : Char → Bool) (l : List Char) (i : Nat)
    (h : firstIdx? p l = some i) :
    ∃ T u U, l = T ++ u :: U ∧ p u = true ∧ (∀ x ∈ T, p x = false)
      ∧ i = T.length := by
  induction l generalizing i with
  | nil => simp [firstIdx?] at h
  | cons c rest ih =>
    by_cases hc : p c
    · refine ⟨[], c, rest, by simp, hc, by simp, ?_⟩
      have h0 : i = 0 := by
        simp [firstIdx?, hc] at h
        omega
      simp [h0]
    · simp only [firstIdx?, hc, if_false] at h
      cases hrest : firstIdx? p rest with
      | none => simp [hrest] at h
      | some j =>
        obtain ⟨T, u, U, hdec, hu, hT, hj⟩ := ih j hrest
        refine ⟨c :: T, u, U, by simp [hdec], hu, ?_, ?_⟩
        · intro x hx
          rcases List.mem_cons.mp hx with rfl | hx
          · simpa using hc
          · exact hT x hx
        · simp [hrest] at h
          simp [← h, hj]

theorem takeWhile_middle (q : Char → Bool) (T : List Char) (u : Char)
    (U : List Char) (hT : ∀ x ∈ T, q x = true) (hu : q u = false) :
    (T ++ u :: U).takeWhile q = T ∧ (T ++ u :: U).dropWhile q = u :: U := by
  induction T with
  | nil => simp [List.takeWhile_cons, List.dropWhile_cons, hu]
  | cons c rest ih =>
    have hc : q c := hT c (by simp)
    have hrest : ∀ x ∈ rest, q x := fun x hx => hT x (by simp [hx])
    obtain ⟨h1, h2⟩ := ih hrest
    simp [List.takeWhile_cons, List.dropWhile_cons, hc, h1, h2]

theorem firstIdxStep (p : Char → Bool) (rem : List Char) :
    (match firstIdx? p rem with
     | some pos => (rem.take pos, some (rem.drop pos))
     | none => (rem, none))
    = (rem.takeWhile (fun c => !(p c)),
       if rem.dropWhile (fun c => !(p c)) = [] then none
       else some (rem.dropWhile (fun c => !(p c)))) := by
  cases h : firstIdx? p rem with
  | none =>
    have hall := (firstIdx?_eq_none_iff _ rem).mp h
    have htake : rem.takeWhile (fun c => !(p c)) = rem := by
      apply List.takeWhile_eq_self_iff.mpr ?_
      intro x hx
      simp [hall x hx]
    have hdrop : rem.dropWhile (fun c => !(p c)) = [] := by
      apply List.dropWhile_eq_nil_iff.mpr
      intro x hx
      simp [hall x hx]
    rw [htake, hdrop]
    simp
  | some pos =>
    obtain ⟨T, u, U, hdec, hu, hT, hlen⟩ := firstIdx?_some_decomp _ rem pos h
    subst hdec hlen
    have hq : ∀ x ∈ T, (fun c => !(p c)) x = true := by
      intro x hx
      simp [hT x hx]
    obtain ⟨h1, h2⟩ := takeWhile_middle _ T u U hq (by simp [hu])
    have htake : (T ++ u :: U).take T.length = T := List.take_left' rfl
    have hdrop : (T ++ u :: U).drop T.length = u :: U := List.drop_left' rfl
    simp [h1, h2, htake, hdrop]

theorem lastColonStep (hp : List Char) :
    (match lastIdx? isColon hp with
     | none => (hp, none)
     | some pos =>
       match parseU16 (hp.drop (pos + 1)) with
       | none => (hp, none)
       | some p => (hp.take pos, some p))
    = (if ':' ∈ hp then
        match parseU16
            ((hp.reverse.takeWhile (fun c => !(isColon c))).reverse) with
        | some p =>
            (((hp.reverse.dropWhile (fun c => !(isColon c))).drop 1).reverse,
             some p)
        | none => (hp, none)
      else (hp, none)) := by
  cases h : firstIdx? isColon hp.reverse with
  | none =>
    have hall := (firstIdx?_eq_none_iff _ hp.reverse).mp h
    have hmem : ':' ∉ hp := by
      intro hmem
      have := hall ':' (List.mem_reverse.mpr hmem)
      simp [isColon] at this
    simp [lastIdx?, h, hmem]
  | some i =>
    obtain ⟨T, u, U, hdec, hu, hT, hlen⟩ := firstIdx?_some_decomp _ _ i h
    have hu' : u = ':' := by simpa [isColon] using hu
    subst hu' hlen
    have hp_eq : hp = U.reverse ++ ':' :: T.reverse := by
      have := congrArg List.reverse hdec
      simpa using this
    have hmem : ':' ∈ hp := by
      rw [hp_eq]
      simp
    have hq : ∀ x ∈ T, (fun c => !(isColon c)) x = true := by
      intro x hx
      simp [hT x hx]
    obtain ⟨h1, h2⟩ := takeWhile_middle _ T ':' U hq (by simp [isColon])
    have hlenhp : hp.length = U.length + 1 + T.length := by
      rw [hp_eq]
      simp only [List.length_append, List.length_reverse, List.length_cons]
      omega
    have hpos : hp.length - 1 - T.length = U.length := by omega
    have hafter : hp.drop (hp.length - 1 - T.length + 1) = T.reverse := by
      rw [hpos, hp_eq]
      have he : U.reverse ++ ':' :: T.reverse
          = (U.reverse ++ [':']) ++ T.reverse := by simp
      rw [he]
      have hl : U.length + 1 = (U.reverse ++ [':']).length := by simp
      rw [hl, List.drop_left]
    have hbefore : hp.take (hp.length - 1 - T.length) = U.reverse := by
      rw [hpos, hp_eq]
      have hl : U.length = U.reverse.length := by simp
      rw [hl, List.take_left]
    have hlast : lastIdx? isColon hp = some (hp.length - 1 - T.length) := by
      rw [lastIdx?, h]
    rw [hlast]
    simp only [hmem, if_true]
    rw [hafter, hbefore, hdec, h1, h2]
    simp only [List.drop_succ_cons, List.drop_zero]
    cases parseU16 T.reverse with
    | none => rfl
    | some p => rfl

theorem format_directives_plain_eq :
    ∀ (ds : Dirs) (ind : Nat),
      format_directives ds ind
        = (ds.toList.map (fun d => format_directive d ind)).flatten
  | .nil, _ => rfl
  | .cons d rest, ind => by
      rw [format_directives, Dirs.toList]
      simp [format_directives_plain_eq rest ind]

theorem spacing_rest_eq :
    ∀ (rest : Dirs) (p : Directive) (ind : Nat),
      spacing_rest rest p.hasBlock ind = spacedSpecRest p rest ind
  | .nil, _, _ => rfl
  | .cons d rest', p, ind => by
      rw [spacing_rest, spacedSpecRest, sepBetween,
        spacing_rest_eq rest' d ind]

/-- C2 (amended): the blank-line rule — exactly one blank line before each
block-owning directive and after each one, never before the first, shared
(not doubled) between two adjacent block-owners, here stated as the
pairwise-separator rendering `spacedSpec` — is applied by
`format_directives_with_spacing`, which `format` uses for site-block
directive lists and nested blocks only; the global-options block, snippet
bodies and named-route bodies are rendered by `format_directives`, a plain
concatenation that inserts no blank lines. -/
theorem c2_spacing_rule_site_and_nested_only :
    (∀ (ds : Dirs) (ind : Nat),
      format_directives_with_spacing ds ind = spacedSpec ds ind)
    ∧ (∀ (ds : Dirs) (ind : Nat),
      format_directives ds ind
        = (ds.toList.map (fun d => format_directive d ind)).flatten)
    ∧ (∀ sb : SiteBlock,
      format_site_block sb
        = format_addresses sb.addresses ++ ' ' :: braceL :: '\n' ::
            (format_directives_with_spacing sb.directives 1 ++ [braceR, '\n']))
    ∧ (∀ (d : Directive) (ind : Nat),
      (d.block.map (fun b =>
        format_directive d ind
          = List.replicate ind '\t' ++ d.name
            ++ (match d.matcher with
                | none => []
                | some .all => [' ', '*']
                | some (.path p) => ' ' :: p
                | some (.named n) => ' ' :: '@' :: n)
            ++ (d.arguments.map (fun a => ' ' :: format_argument a)).flatten
            ++ ' ' :: braceL :: '\n' ::
                (format_directives_with_spacing b (ind + 1)
                  ++ List.replicate ind '\t' ++ [braceR, '\n']))).getD True)
    ∧ (∀ g : GlobalOptions,
      format_global_options g
        = braceL :: '\n' :: (format_directives g.directives 1 ++ [braceR, '\n']))
    ∧ (∀ s : Snippet,
      format_snippet s
        = '(' :: (s.name ++ ')' :: ' ' :: braceL :: '\n' ::
            (format_directives s.directives 1 ++ [braceR, '\n'])))
    ∧ (∀ r : NamedRoute,
      format_named_route r
        = '&' :: '(' :: (r.name ++ ')' :: ' ' :: braceL :: '\n' ::
            (format_directives r.directives 1 ++ [braceR, '\n']))) := by
  refine ⟨?_, ?_, fun _ => rfl, ?_, fun _ => rfl, fun _ => rfl, fun _ => rfl⟩
  · intro ds ind
    cases ds with
    | nil => rfl
    | cons d rest =>
        rw [format_directives_with_spacing, spacedSpec, spacing_rest_eq]
  · exact format_directives_plain_eq
  · intro d ind
    cases d with
    | mk n m a b =>
      cases b with
      | none => simp [Directive.block]
      | some bb =>
          simp [Directive.block, format_directive, Directive.name,
            Directive.matcher, Directive.arguments]

/-- C2 (counterexample): the claim extends the blank-line rule to the
global-options block, but formatting a global-options block whose first
directive owns a block and whose second does not yields no blank line
between them (the claim predicts one). -/
theorem c2_counterexample :
    format gOptsDoc = "\x7b\n\ta \x7b\n\t\x7d\n\tb\n\x7d\n".toList
    ∧ format gOptsDoc ≠ "\x7b\n\ta \x7b\n\t\x7d\n\n\tb\n\x7d\n".toList := by
  constructor
  · rfl
  · decide

/-- C6: `parse_address` is total (it is a plain function with no failure
path), it agrees on every input with `parse_address_spec`, the direct
formalisation of the specified algorithm (scheme strip, first-slash split
keeping the leading slash, last-colon split guarded by a `u16` parse of
the suffix), and it decomposes `https://example.com:8443/api` into scheme
`Https`, host `example.com`, port 8443 and path `/api`. -/
theorem c6_parse_address_follows_spec :
    (∀ addr, parse_address addr = parse_address_spec addr)
    ∧ parse_address ("https://example.com:8443/api".toList)
      = { scheme := some .https, host := "example.com".toList,
          port := some 8443, path := some "/api".toList } := by
  constructor
  · intro addr
    unfold parse_address parse_address_spec
    cases hsr : stripScheme addr with
    | mk sch rem =>
      simp only
      have e1 := firstIdxStep isSlash rem
      have e1a := congrArg Prod.fst e1
      have e1b := congrArg Prod.snd e1
      simp only at e1a e1b
      rw [e1a, e1b, lastColonStep]
  · decide

/-- C3 (failing input): the specification says spans are 1-based with the
line counter starting at 1, but tokenizing a lone carriage return — a
carriage return not followed by a line feed — produces its Newline token
with `self.line - 1` although the line counter was never incremented, so
the token's span has line 0.  This evaluates the code at the failing
input. -/
theorem c3_lone_cr_token_line_zero :
    tokenize ['\r']
      = .ok [{ kind := .newline, text := ['\n'], span := ⟨0, 2⟩ }] := rfl

/-- C7: a missing expected closing brace always yields
`ExpectedCloseBrace`: with the offending token's text and span when a
non-close-brace token is present after skipped newlines/comments, and with
`found = none` and the last token's span (span (1,1) for an empty stream)
at end of input; concretely, parsing the tokens of
`"example.com {\n\tlog\n"` fails with `ExpectedCloseBrace` and no found
text, at the last token's span (2,5). -/
theorem c7_expected_close_brace_shape :
    (∀ full rem,
      (skipNC rem = [] →
        expect_close_brace full rem
          = .error { kind := .expectedCloseBrace none, span := eof_span full })
      ∧ (∀ t rest, skipNC rem = t :: rest → t.kind ≠ .closeBrace →
        expect_close_brace full rem
          = .error { kind := .expectedCloseBrace (some t.text),
                     span := t.span })
      ∧ (∀ t rest, skipNC rem = t :: rest → t.kind = .closeBrace →
        expect_close_brace full rem = .ok rest))
    ∧ (match tokenize "example.com \x7b\n\tlog\n".toList with
       | .ok ts =>
          parse ts
            = .error { kind := .expectedCloseBrace none, span := ⟨2, 5⟩ }
          ∧ eof_span ts = ⟨2, 5⟩
       | .error _ => False) := by
  constructor
  · intro full rem
    refine ⟨?_, ?_, ?_⟩
    · intro h
      rw [expect_close_brace, h]
    · intro t rest h hk
      rw [expect_close_brace, h]
      simp [hk]
    · intro t rest h hk
      rw [expect_close_brace, h]
      simp [hk]
  · exact ⟨rfl, rfl⟩

/-- C7 witness: the general part applied at the empty token stream. -/
theorem c7_witness :
    expect_close_brace [] []
      = .error { kind := .expectedCloseBrace none, span := ⟨1, 1⟩ } :=
  (c7_expected_close_brace_shape.1 [] []).1 rfl

theorem qstrLoop_error :
    ∀ (rem : List Char) (line col : Nat) (start : Span) (acc : List Char)
      (e : LexError), qstrLoop rem line col start acc = .error e →
      e = { kind := .unterminatedString, span := start }
  | [], line, col, start, acc, e => by
      intro h
      rw [qstrLoop] at h
      exact (Except.error.inj h).symm
  | c :: rest, line, col, start, acc, e => by
      intro h
      rw [qstrLoop.eq_def] at h
      dsimp only at h
      split_ifs at h with hc hq hn
      · -- escape branch: match on the character after the backslash
        split at h
        · exact (Except.error.inj h).symm
        · split_ifs at h <;> exact qstrLoop_error _ _ _ _ _ _ h
      all_goals first
        | exact qstrLoop_error _ _ _ _ _ _ h
        | exact absurd h (by simp)
termination_by rem _ _ _ _ _ => rem.length
decreasing_by all_goals simp_all_arith

theorem read_quoted_string_error (rest : List Char) (line col : Nat)
    (e : LexError) (h : read_quoted_string rest line col = .error e) :
    e = { kind := .unterminatedString, span := ⟨line, col⟩ } := by
  rw [read_quoted_string] at h
  cases hq : qstrLoop rest line (col + 1) ⟨line, col⟩ [] with
  | error e' =>
      rw [hq] at h
      have := qstrLoop_error rest line (col + 1) ⟨line, col⟩ [] e' hq
      simp only at h
      rw [← Except.error.inj h]
      exact this
  | ok v =>
      rw [hq] at h
      simp at h

/-- C9: every `UnterminatedString` error is anchored at the opening
double quote: `read_quoted_string`, called with the position of the
opening quote, reports exactly that span (and kind) on every error; and
tokenizing `"\"unclosed"` yields `UnterminatedString` at line 1,
column 1. -/
theorem c9_unterminated_string_anchored_at_quote :
    (∀ (rest : List Char) (line col : Nat) (e : LexError),
      read_quoted_string rest line col = .error e →
      e = { kind := .unterminatedString, span := ⟨line, col⟩ })
    ∧ tokenize "\"unclosed".toList
      = .error { kind := .unterminatedString, span := ⟨1, 1⟩ } :=
  ⟨read_quoted_string_error, rfl⟩

/-- C9 witness: the general part applied to the one-character remainder
`u` after an opening quote at line 1, column 1. -/
theorem c9_witness :
    ({ kind := .unterminatedString, span := ⟨1, 1⟩ } : LexError)
      = { kind := .unterminatedString, span := ⟨1, 1⟩ } :=
  c9_unterminated_string_anchored_at_quote.1 ['u'] 1 1
    { kind := .unterminatedString, span := ⟨1, 1⟩ } rfl

theorem btickLoop_error :
    ∀ (rem : List Char) (line col : Nat) (start : Span) (acc : List Char)
      (e : LexError), btickLoop rem line col start acc = .error e →
      e = { kind := .unterminatedBacktick, span := start }
  | [], line, col, start, acc, e => by
      intro h
      rw [btickLoop] at h
      exact (Except.error.inj h).symm
  | c :: rest, line, col, start, acc, e => by
      intro h
      rw [btickLoop.eq_def] at h
      dsimp only at h
      split_ifs at h
      all_goals first
        | exact btickLoop_error _ _ _ _ _ _ h
        | exact absurd h (by simp)

theorem read_backtick_string_error (rest : List Char) (line col : Nat)
    (e : LexError) (h : read_backtick_string rest line col = .error e) :
    e = { kind := .unterminatedBacktick, span := ⟨line, col⟩ } := by
  rw [read_backtick_string] at h
  cases hq : btickLoop rest line (col + 1) ⟨line, col⟩ [] with
  | error e' =>
      rw [hq] at h
      have := btickLoop_error rest line (col + 1) ⟨line, col⟩ [] e' hq
      simp only at h
      rw [← Except.error.inj h]
      exact this
  | ok v =>
      rw [hq] at h
      simp at h

theorem hdLoop_error :
    ∀ (fuel : Nat) (rem : List Char) (line col : Nat)
      (acc marker : List Char) (start : Span) (e : LexError),
      hdLoop fuel rem line col acc marker start = .error e →
      e = { kind := .unterminatedHeredoc marker, span := start }
  | fuel, [], _, _, _, marker, start, e => by
      intro h
      cases fuel <;>
        (rw [hdLoop.eq_def] at h
         dsimp only at h
         exact (Except.error.inj h).symm)
  | 0, _ :: _, _, _, _, marker, start, e => by
      intro h
      rw [hdLoop.eq_def] at h
      dsimp only at h
      exact (Except.error.inj h).symm
  | fuel + 1, c :: rest, line, col, acc, marker, start, e => by
      intro h
      rw [hdLoop.eq_def] at h
      dsimp only at h
      split_ifs at h
      · split at h
        · exact absurd h (by simp)
        · exact absurd h (by simp)
      · split at h
        · exact hdLoop_error _ _ _ _ _ _ _ _ h
        · exact hdLoop_error _ _ _ _ _ _ _ _ h

theorem read_heredoc_not_unexpected (rest2 : List Char) (line col : Nat)
    (e : LexError) (h : read_heredoc rest2 line col = .error e) :
    isUnexpectedCharKind e.kind = false := by
  rw [read_heredoc] at h
  split_ifs at h with hm
  · rw [← Except.error.inj h]
    rfl
  · have := hdLoop_error _ _ _ _ _ _ _ _ h
    rw [this]
    rfl

theorem wordScan_ne_nil (c : Char) (rest : List Char)
    (hws : ¬(c = ' ' ∨ c = '\t' ∨ c = '\n' ∨ c = '\r'))
    (hbr : ¬(c = braceL ∨ c = braceR)) :
    wordScan (c :: rest) true ≠ [] := by
  rw [wordScan.eq_def]
  dsimp only
  split_ifs <;> try simp_all
  cases rest <;> simp

theorem read_word_not_unexpected (c : Char) (rest : List Char)
    (line col : Nat) (e : LexError)
    (hws : ¬(c = ' ' ∨ c = '\t' ∨ c = '\n' ∨ c = '\r'))
    (hbr : ¬(c = braceL ∨ c = braceR))
    (h : read_word c rest line col = .error e) :
    isUnexpectedCharKind e.kind = false := by
  rw [read_word] at h
  split_ifs at h with hh
  · exact read_heredoc_not_unexpected _ _ _ _ h
  · have := wordScan_ne_nil c rest hws hbr
    simp [this] at h

theorem consTok_error (t : Token) (r : Option (Except LexError (List Token)))
    (e : LexError) (h : consTok t r = some (.error e)) :
    r = some (.error e) := by
  cases r with
  | none => simp [consTok] at h
  | some v =>
    cases v with
    | ok ts => simp [consTok, Except.map] at h
    | error e' =>
      simp [consTok, Except.map] at h
      rw [h]

theorem lexStep_fail_not_unexpected (c : Char) (rest : List Char)
    (line col : Nat) (e : LexError)
    (h : lexStep c rest line col = .fail e) :
    isUnexpectedCharKind e.kind = false := by
  rw [lexStep.eq_def] at h
  split_ifs at h with h1 h2 h3 h4 h5 h6 h7 h8 h9
  all_goals try exact LexStep.noConfusion h
  all_goals try (split at h)
  all_goals try exact LexStep.noConfusion h
  all_goals try (split at h)
  all_goals try exact LexStep.noConfusion h
  all_goals
    rename_i e' heq
  all_goals
    have he : e' = e := LexStep.fail.inj h
  all_goals
    rw [← he]
  · rw [read_quoted_string_error _ _ _ _ heq]
    rfl
  · rw [read_backtick_string_error _ _ _ _ heq]
    rfl
  · refine read_word_not_unexpected c rest line col e' ?_ ?_ heq
    · subst h9
      decide
    · subst h9
      decide
  · refine read_word_not_unexpected c rest line col e' ?_ ?_ heq
    · rintro (hx | hx | hx | hx)
      · exact h3 (Or.inl hx)
      · exact h3 (Or.inr hx)
      · exact h1 hx
      · exact h2 hx
    · rintro (hx | hx)
      · exact h5 hx
      · exact h6 hx

theorem lexLoop_not_unexpected :
    ∀ (fuel : Nat) (rem : List Char) (line col : Nat) (e : LexError),
      lexLoop fuel rem line col = some (.error e) →
      isUnexpectedCharKind e.kind = false
  | _, [], _, _, e => by
      intro h
      rw [lexLoop] at h
      simp at h
  | 0, _ :: _, _, _, e => by
      intro h
      rw [lexLoop] at h
      simp at h
  | fuel + 1, c :: rest, line, col, e => by
      intro h
      rw [lexLoop] at h
      cases hs : lexStep c rest line col with
      | emit t rem' line' col' =>
          rw [hs] at h
          dsimp only at h
          exact lexLoop_not_unexpected fuel _ _ _ _ (consTok_error _ _ _ h)
      | skip rem' line' col' =>
          rw [hs] at h
          dsimp only at h
          exact lexLoop_not_unexpected fuel _ _ _ _ h
      | fail e' =>
          rw [hs] at h
          dsimp only at h
          have he : e' = e := Except.error.inj (Option.some.inj h)
          rw [← he]
          exact lexStep_fail_not_unexpected _ _ _ _ _ hs

/-- C10: `tokenize` never reports `UnexpectedCharacter`: every character
dispatched to the word reader begins a non-empty word (or a heredoc), so
the empty-word branch that produces the error is unreachable, and all
other scanner errors have different kinds. -/
theorem c10_no_unexpected_character (input : List Char) (e : LexError)
    (h : tokenize input = .error e) :
    isUnexpectedCharKind e.kind = false := by
  rw [tokenize] at h
  cases hl : lexLoop ((stripBom input).length + 1) (stripBom input) 1 1 with
  | none => rw [hl] at h; simp [Option.getD] at h
  | some r =>
      rw [hl] at h
      cases r with
      | ok ts => simp [Option.getD] at h
      | error e' =>
          simp only [Option.getD] at h
          have he : e' = e := Except.error.inj h
          rw [← he]
          exact lexLoop_not_unexpected _ _ _ _ _ hl

/-- C10 witness: the theorem applied to the erroring input consisting of a
double quote and the letter x. -/
theorem c10_witness :
    isUnexpectedCharKind
      ({ kind := .unterminatedString, span := ⟨1, 1⟩ } : LexError).kind
      = false :=
  c10_no_unexpected_character "\"x".toList
    { kind := .unterminatedString, span := ⟨1, 1⟩ } rfl

theorem takeWhile_append_all (q : Char → Bool) (N M : List Char)
    (hN : ∀ x ∈ N, q x = true) :
    (N ++ M).takeWhile q = N ++ M.takeWhile q := by
  induction N with
  | nil => simp
  | cons c rest ih =>
      have hc : q c := hN c (by simp)
      have hrest : ∀ x ∈ rest, q x := fun x hx => hN x (by simp [hx])
      simp [List.takeWhile_cons, hc, ih hrest]

theorem mem_of_mem_takeWhileCh (p : Char → Bool) (l : List Char)
    (x : Char) (h : x ∈ l.takeWhile p) : x ∈ l :=
  (List.takeWhile_prefix p).subset h

theorem try_env_char (rest : List Char) (line col : Nat) :
    (braceR ∉ rest.takeWhile (fun c => c ≠ '\n')
      ∧ try_read_env_var (braceL :: '$' :: rest) line col = none)
    ∨ (braceR ∈ rest.takeWhile (fun c => c ≠ '\n')
      ∧ ∃ name dfl rem' col',
          try_read_env_var (braceL :: '$' :: rest) line col
            = some ({ kind := .envVar name dfl,
                      text := braceL :: '$' ::
                        (name ++ (match dfl with
                                  | some d => ':' :: d
                                  | none => []) ++ [braceR]),
                      span := ⟨line, col⟩ }, rem', col')) := by
  have hNmem : ∀ x ∈ rest.takeWhile envNameChar,
      x ≠ braceR ∧ x ≠ ':' ∧ x ≠ '\n' := by
    intro x hx
    simpa [envNameChar] using List.mem_takeWhile_imp hx
  have hsplit := List.takeWhile_append_dropWhile envNameChar rest
  have hq : ∀ x ∈ rest.takeWhile envNameChar,
      (fun c => (c ≠ '\n' : Bool)) x = true := by
    intro x hx
    simp [(hNmem x hx).2.2]
  cases hdw : rest.dropWhile envNameChar with
  | nil =>
      have hval : try_read_env_var (braceL :: '$' :: rest) line col = none := by
        rw [try_read_env_var, if_pos ⟨rfl, rfl⟩]
        dsimp only
        rw [hdw]
        simp
      left
      rw [hdw, List.append_nil] at hsplit
      refine ⟨?_, hval⟩
      intro hmem
      have hmem' : braceR ∈ rest := mem_of_mem_takeWhileCh _ _ _ hmem
      rw [← hsplit] at hmem'
      exact (hNmem _ hmem').1 rfl
  | cons u U =>
      have hu3 : u = braceR ∨ u = ':' ∨ u = '\n' := by
        have h0 := List.head?_dropWhile_not envNameChar rest
        rw [hdw] at h0
        simp [envNameChar] at h0
        by_cases h1 : u = braceR
        · exact Or.inl h1
        · by_cases h2 : u = ':'
          · exact Or.inr (Or.inl h2)
          · exact Or.inr (Or.inr (h0 h1 h2))
      rcases hu3 with hu | hu | hu
      · -- closing brace right after the name: success, no default
        subst hu
        have hval : try_read_env_var (braceL :: '$' :: rest) line col
            = some ({ kind := .envVar (rest.takeWhile envNameChar) none,
                      text := braceL :: '$' ::
                        (rest.takeWhile envNameChar ++ [] ++ [braceR]),
                      span := ⟨line, col⟩ }, U,
                     col + 2 + (rest.takeWhile envNameChar).length + 1) := by
          rw [try_read_env_var, if_pos ⟨rfl, rfl⟩]
          dsimp only
          rw [hdw]
          rw [if_neg (show ¬((braceR :: U).head? = some ':') from
            fun h => absurd (Option.some.inj h) (by decide))]
          rw [if_pos (show ((braceR :: U).head? = some braceR) from rfl)]
          rfl
        right
        refine ⟨?_, _, none, U, _, hval⟩
        conv_lhs => rw [← hsplit]
        rw [hdw, takeWhile_append_all _ _ _ hq]
        have h2 : (braceR :: U).takeWhile (fun c => (c ≠ '\n' : Bool))
            = braceR :: U.takeWhile (fun c => (c ≠ '\n' : Bool)) := by
          rw [List.takeWhile_cons, if_pos (by decide)]
        rw [h2]
        simp
      · -- a colon: scan the default
        subst hu
        have hsplit2 := List.takeWhile_append_dropWhile envDefaultChar U
        have hDmem : ∀ x ∈ U.takeWhile envDefaultChar,
            x ≠ braceR ∧ x ≠ '\n' := by
          intro x hx
          simpa [envDefaultChar] using List.mem_takeWhile_imp hx
        have hDq : ∀ x ∈ U.takeWhile envDefaultChar,
            (fun c => (c ≠ '\n' : Bool)) x = true := by
          intro x hx
          simp [(hDmem x hx).2]
        have hcolon : (':' :: U).takeWhile (fun c => (c ≠ '\n' : Bool))
            = ':' :: U.takeWhile (fun c => (c ≠ '\n' : Bool)) := by
          rw [List.takeWhile_cons, if_pos (by decide)]
        cases hdw2 : U.dropWhile envDefaultChar with
        | nil =>
            have hval : try_read_env_var (braceL :: '$' :: rest) line col
                = none := by
              rw [try_read_env_var, if_pos ⟨rfl, rfl⟩]
              dsimp only
              rw [hdw]
              rw [if_pos (show ((':' :: U).head? = some ':') from rfl)]
              dsimp only
              rw [List.tail_cons, hdw2]
              rw [if_neg (show ¬(([] : List Char).head? = some braceR)
                from by decide)]
            left
            refine ⟨?_, hval⟩
            intro hmem
            rw [hdw2, List.append_nil] at hsplit2
            conv_lhs at hmem => rw [← hsplit]
            rw [hdw, takeWhile_append_all _ _ _ hq, hcolon] at hmem
            rcases List.mem_append.mp hmem with hmem | hmem
            · exact (hNmem _ hmem).1 rfl
            · rcases List.mem_cons.mp hmem with hmem | hmem
              · exact absurd hmem.symm (by decide)
              · have hmem' : braceR ∈ U := mem_of_mem_takeWhileCh _ _ _ hmem
                rw [← hsplit2] at hmem'
                exact (hDmem _ hmem').1 rfl
        | cons v V =>
            have hv2 : v = braceR ∨ v = '\n' := by
              have h0 := List.head?_dropWhile_not envDefaultChar U
              rw [hdw2] at h0
              simp [envDefaultChar] at h0
              by_cases h1 : v = braceR
              · exact Or.inl h1
              · exact Or.inr (h0 h1)
            rcases hv2 with hv | hv
            · -- closing brace after the default: success
              subst hv
              have hval : try_read_env_var (braceL :: '$' :: rest) line col
                  = some ({ kind := .envVar (rest.takeWhile envNameChar)
                              (some (U.takeWhile envDefaultChar)),
                            text := braceL :: '$' ::
                              (rest.takeWhile envNameChar
                                ++ (':' :: U.takeWhile envDefaultChar)
                                ++ [braceR]),
                            span := ⟨line, col⟩ }, V,
                           col + 2 + (rest.takeWhile envNameChar).length
                             + 1 + (U.takeWhile envDefaultChar).length
                             + 1) := by
                rw [try_read_env_var, if_pos ⟨rfl, rfl⟩]
                dsimp only
                rw [hdw]
                rw [if_pos (show ((':' :: U).head? = some ':') from rfl)]
                dsimp only
                rw [List.tail_cons, hdw2]
                rw [if_pos (show ((braceR :: V).head? = some braceR)
                  from rfl)]
                rfl
              right
              refine ⟨?_, _, some _, V, _, hval⟩
              conv_lhs => rw [← hsplit]
              rw [hdw, takeWhile_append_all _ _ _ hq, hcolon]
              conv_lhs => rw [← hsplit2]
              rw [hdw2, takeWhile_append_all _ _ _ hDq]
              have h2 : (braceR :: V).takeWhile (fun c => (c ≠ '\n' : Bool))
                  = braceR :: V.takeWhile (fun c => (c ≠ '\n' : Bool)) := by
                rw [List.takeWhile_cons, if_pos (by decide)]
              rw [h2]
              simp
            · -- newline before any closing brace: failure
              subst hv
              have hval : try_read_env_var (braceL :: '$' :: rest) line col
                  = none := by
                rw [try_read_env_var, if_pos ⟨rfl, rfl⟩]
                dsimp only
                rw [hdw]
                rw [if_pos (show ((':' :: U).head? = some ':') from rfl)]
                dsimp only
                rw [List.tail_cons, hdw2]
                rw [if_neg (show ¬((('\n' :: V : List Char)).head?
                  = some braceR) from
                    fun h => absurd (Option.some.inj h) (by decide))]
              left
              refine ⟨?_, hval⟩
              intro hmem
              conv_lhs at hmem => rw [← hsplit]
              rw [hdw, takeWhile_append_all _ _ _ hq, hcolon] at hmem
              conv_lhs at hmem => rw [← hsplit2]
              rw [hdw2, takeWhile_append_all _ _ _ hDq] at hmem
              have h2 : ('\n' :: V).takeWhile (fun c => (c ≠ '\n' : Bool))
                  = [] := by
                rw [List.takeWhile_cons, if_neg (by decide)]
              rw [h2, List.append_nil] at hmem
              rcases List.mem_append.mp hmem with hmem | hmem
              · exact (hNmem _ hmem).1 rfl
              · rcases List.mem_cons.mp hmem with hmem | hmem
                · exact absurd hmem.symm (by decide)
                · exact (hDmem _ hmem).1 rfl
      · -- newline right after the name: failure
        subst hu
        have hval : try_read_env_var (braceL :: '$' :: rest) line col
            = none := by
          rw [try_read_env_var, if_pos ⟨rfl, rfl⟩]
          dsimp only
          rw [hdw]
          rw [if_neg (show ¬((('\n' :: U : List Char)).head? = some ':')
            from fun h => absurd (Option.some.inj h) (by decide))]
          rw [if_neg (show ¬((('\n' :: U : List Char)).head? = some braceR)
            from fun h => absurd (Option.some.inj h) (by decide))]
        left
        refine ⟨?_, hval⟩
        intro hmem
        conv_lhs at hmem => rw [← hsplit]
        rw [hdw, takeWhile_append_all _ _ _ hq] at hmem
        have h2 : ('\n' :: U).takeWhile (fun c => (c ≠ '\n' : Bool)) = [] := by
          rw [List.takeWhile_cons, if_neg (by decide)]
        rw [h2, List.append_nil] at hmem
        exact (hNmem _ hmem).1 rfl

/-- C8: on input starting with an opening brace immediately followed by a
dollar sign, the lexer's env-var attempt succeeds exactly when a closing
brace occurs before any newline or the end of input.  On failure the
attempt is rolled back with no error: a plain OpenBrace token is emitted
and scanning continues from the character after the brace.  On success a
single EnvVar token is emitted carrying the name and the optional
colon-separated default. -/
theorem c8_env_var_rollback (rest : List Char) (line col : Nat) :
    (braceR ∉ rest.takeWhile (fun c => c ≠ '\n') →
      try_read_env_var (braceL :: '$' :: rest) line col = none
      ∧ lexStep braceL ('$' :: rest) line col
          = .emit { kind := .openBrace, text := [braceL], span := ⟨line, col⟩ }
              ('$' :: rest) line (col + 1))
    ∧ (braceR ∈ rest.takeWhile (fun c => c ≠ '\n') →
      ∃ name dfl rem' col',
        try_read_env_var (braceL :: '$' :: rest) line col
          = some ({ kind := .envVar name dfl,
                    text := braceL :: '$' ::
                      (name ++ (match dfl with
                                | some d => ':' :: d
                                | none => []) ++ [braceR]),
                    span := ⟨line, col⟩ }, rem', col')
        ∧ lexStep braceL ('$' :: rest) line col
            = .emit { kind := .envVar name dfl,
                      text := braceL :: '$' ::
                        (name ++ (match dfl with
                                  | some d => ':' :: d
                                  | none => []) ++ [braceR]),
                      span := ⟨line, col⟩ } rem' line col') := by
  have hstep : lexStep braceL ('$' :: rest) line col
      = (match try_read_env_var (braceL :: '$' :: rest) line col with
         | some (t, rem', col') => .emit t rem' line col'
         | none => .emit { kind := .openBrace, text := [braceL],
                           span := ⟨line, col⟩ } ('$' :: rest) line (col + 1)) := by
    rw [lexStep.eq_def]
    rw [if_neg (by decide), if_neg (by decide), if_neg (by decide),
      if_neg (by decide), if_pos rfl]
  rcases try_env_char rest line col with ⟨hnm, hnone⟩ | ⟨hm, name, dfl, rem', col', hsome⟩
  · constructor
    · intro _
      refine ⟨hnone, ?_⟩
      rw [hstep, hnone]
    · intro hmem
      exact absurd hmem hnm
  · constructor
    · intro hnm
      exact absurd hm hnm
    · intro _
      refine ⟨name, dfl, rem', col', hsome, ?_⟩
      rw [hstep, hsome]

/-- C8 witness: both sides at concrete inputs — failure on `{$X` followed
by a newline (rollback to a plain open brace), success on `{$A:b}`. -/
theorem c8_witness :
    (try_read_env_var (braceL :: '$' :: ['X', '\n']) 1 1 = none
      ∧ lexStep braceL ('$' :: ['X', '\n']) 1 1
          = .emit { kind := .openBrace, text := [braceL], span := ⟨1, 1⟩ }
              ('$' :: ['X', '\n']) 1 2)
    ∧ ∃ name dfl rem' col',
        try_read_env_var (braceL :: '$' :: ['A', ':', 'b', braceR]) 1 1
          = some ({ kind := .envVar name dfl,
                    text := braceL :: '$' ::
                      (name ++ (match dfl with
                                | some d => ':' :: d
                                | none => []) ++ [braceR]),
                    span := ⟨1, 1⟩ }, rem', col') :=
  ⟨(c8_env_var_rollback ['X', '\n'] 1 1).1 (by decide),
   by
    obtain ⟨name, dfl, rem', col', h1, _⟩ :=
      (c8_env_var_rollback ['A', ':', 'b', braceR] 1 1).2 (by decide)
    exact ⟨name, dfl, rem', col', h1⟩⟩

theorem skipNC_suffix : ∀ rem : List Token, skipNC rem <:+ rem
  | [] => List.nil_suffix
  | t :: rest => by
      rw [skipNC]
      split
      · exact (skipNC_suffix rest).trans (List.suffix_cons t rest)
      · exact List.suffix_refl _

theorem skipNl_suffix : ∀ rem : List Token, skipNl rem <:+ rem
  | [] => List.nil_suffix
  | t :: rest => by
      rw [skipNl]
      split
      · exact (skipNl_suffix rest).trans (List.suffix_cons t rest)
      · exact List.suffix_refl _

theorem try_parse_matcher_suffix (rem : List Token) :
    (try_parse_matcher rem).2 <:+ rem := by
  match rem with
  | [] => exact List.suffix_refl _
  | t :: rest =>
    rw [try_parse_matcher]
    split
    any_goals exact List.suffix_refl _
    split
    · exact List.suffix_cons t rest
    · split
      any_goals exact List.suffix_cons t rest
      exact List.suffix_refl _

theorem argsLoop_suffix : ∀ rem : List Token, (argsLoop rem).2 <:+ rem
  | [] => List.suffix_refl _
  | t :: rest => by
      rw [argsLoop]
      split
      · exact List.suffix_cons t rest
      · exact List.suffix_refl _
      · exact List.suffix_refl _
      · exact (argsLoop_suffix rest).trans (List.suffix_cons t rest)
      · exact (argsLoop_suffix rest).trans (List.suffix_cons t rest)

theorem addrLoop_suffix : ∀ rem : List Token, (addrLoop rem).2 <:+ rem
  | [] => List.suffix_refl _
  | t :: rest => by
      rw [addrLoop]
      split
      · exact List.suffix_refl _
      · exact List.suffix_cons t rest
      · exact (addrLoop_suffix rest).trans (List.suffix_cons t rest)
      · exact (addrLoop_suffix rest).trans (List.suffix_cons t rest)

theorem expect_open_brace_suffix (full rem rem' : List Token)
    (h : expect_open_brace full rem = .ok rem') : rem' <:+ rem := by
  rw [expect_open_brace] at h
  cases hs : skipNC rem with
  | nil => rw [hs] at h; exact Except.noConfusion h
  | cons t rest =>
    rw [hs] at h
    dsimp only at h
    split_ifs at h
    injection h with h
    subst h
    have hsuf := skipNC_suffix rem
    rw [hs] at hsuf
    exact (List.suffix_cons t rest).trans hsuf

theorem expect_close_brace_suffix (full rem rem' : List Token)
    (h : expect_close_brace full rem = .ok rem') : rem' <:+ rem := by
  rw [expect_close_brace] at h
  cases hs : skipNC rem with
  | nil => rw [hs] at h; exact Except.noConfusion h
  | cons t rest =>
    rw [hs] at h
    dsimp only at h
    split_ifs at h
    injection h with h
    subst h
    have hsuf := skipNC_suffix rem
    rw [hs] at hsuf
    exact (List.suffix_cons t rest).trans hsuf

mutual

theorem parse_directive_names : ∀ (fuel : Nat) (full : List Token)
    (t : Token) (rem : List Token) (d : Directive) (rem' : List Token),
    parse_directive fuel full t rem = some (.ok (d, rem')) →
    t.text ≠ [] → (∀ tok ∈ rem, tok.text ≠ []) →
    dirNamesOk d = true ∧ rem' <:+ rem
  | 0, _, _, _, _, _ => fun h _ _ => Option.noConfusion h
  | fuel + 1, full, t, rem, d, rem' => by
      intro h ht hrem
      rw [parse_directive.eq_def] at h
      dsimp only at h
      split at h
      · rename_i t2 rest2 heq
        have hsuf0 : t2 :: rest2 <:+ rem := by
          rw [← heq]
          exact (argsLoop_suffix (try_parse_matcher rem).2).trans
            (try_parse_matcher_suffix rem)
        split_ifs at h with hob
        · cases hpd : parse_directives fuel full rest2 with
          | none => rw [hpd] at h; exact Option.noConfusion h
          | some r =>
            rw [hpd] at h
            cases r with
            | error e => simp at h
            | ok p =>
              obtain ⟨sub, rem3⟩ := p
              dsimp only at h
              have hrest2 : ∀ tok ∈ rest2, tok.text ≠ [] := fun tok hm =>
                hrem tok (hsuf0.subset (List.mem_cons_of_mem t2 hm))
              obtain ⟨hsub, hsuf3⟩ :=
                parse_directives_names fuel full rest2 sub rem3 hpd hrest2
              cases hcb : expect_close_brace full rem3 with
              | error e => rw [hcb] at h; simp at h
              | ok rem4 =>
                rw [hcb] at h
                dsimp only at h
                injection h with h
                injection h with h
                injection h with h1 h2
                subst h1
                subst h2
                refine ⟨?_, ?_⟩
                · simp [dirNamesOk, hsub, ht]
                · exact (expect_close_brace_suffix full rem3 rem4 hcb).trans
                    (hsuf3.trans ((List.suffix_cons t2 rest2).trans hsuf0))
        · injection h with h
          injection h with h
          injection h with h1 h2
          subst h1
          subst h2
          exact ⟨by simp [dirNamesOk, ht], hsuf0⟩
      · injection h with h
        injection h with h
        injection h with h1 h2
        subst h1
        subst h2
        exact ⟨by simp [dirNamesOk, ht], List.nil_suffix⟩

theorem parse_directives_names : ∀ (fuel : Nat) (full rem : List Token)
    (ds : Dirs) (rem' : List Token),
    parse_directives fuel full rem = some (.ok (ds, rem')) →
    (∀ tok ∈ rem, tok.text ≠ []) →
    dirsNamesOk ds = true ∧ rem' <:+ rem
  | 0, _, _, _, _ => fun h _ => Option.noConfusion h
  | fuel + 1, full, rem, ds, rem' => by
      intro h hrem
      rw [parse_directives.eq_def] at h
      dsimp only at h
      split at h
      · injection h with h
        injection h with h
        injection h with h1 h2
        subst h1
        subst h2
        exact ⟨rfl, List.nil_suffix⟩
      · rename_i t rest heq
        have hsuf0 : t :: rest <:+ rem := by
          rw [← heq]; exact skipNC_suffix rem
        split_ifs at h with hcb
        · injection h with h
          injection h with h
          injection h with h1 h2
          subst h1
          subst h2
          exact ⟨rfl, hsuf0⟩
        · cases hpd : parse_directive fuel full t rest with
          | none => rw [hpd] at h; exact Option.noConfusion h
          | some r =>
            rw [hpd] at h
            cases r with
            | error e => simp at h
            | ok p =>
              obtain ⟨d, rem2⟩ := p
              dsimp only at h
              have htt : t.text ≠ [] :=
                hrem t (hsuf0.subset (List.mem_cons_self t rest))
              have hrest : ∀ tok ∈ rest, tok.text ≠ [] := fun tok hm =>
                hrem tok (hsuf0.subset (List.mem_cons_of_mem t hm))
              obtain ⟨hd, hsuf2⟩ :=
                parse_directive_names fuel full t rest d rem2 hpd htt hrest
              cases hpds : parse_directives fuel full rem2 with
              | none => rw [hpds] at h; exact Option.noConfusion h
              | some r2 =>
                rw [hpds] at h
                cases r2 with
                | error e => simp at h
                | ok p2 =>
                  obtain ⟨ds2, rem3⟩ := p2
                  dsimp only at h
                  injection h with h
                  injection h with h
                  injection h with h1 h2
                  subst h1
                  subst h2
                  have hrem2 : ∀ tok ∈ rem2, tok.text ≠ [] := fun tok hm =>
                    hrest tok (hsuf2.subset hm)
                  obtain ⟨hds2, hsuf3⟩ :=
                    parse_directives_names fuel full rem2 ds2 rem3 hpds hrem2
                  refine ⟨?_, ?_⟩
                  · simp [dirsNamesOk, hd, hds2]
                  · exact hsuf3.trans (hsuf2.trans
                      ((List.suffix_cons t rest).trans hsuf0))

end

theorem parse_global_options_names (fuel : Nat) (full rem : List Token)
    (g : GlobalOptions) (rem' : List Token)
    (h : parse_global_options fuel full rem = some (.ok (g, rem')))
    (hrem : ∀ tok ∈ rem, tok.text ≠ []) :
    dirsNamesOk g.directives = true ∧ rem' <:+ rem := by
  rw [parse_global_options] at h
  cases hob : expect_open_brace full rem with
  | error e => rw [hob] at h; simp at h
  | ok rem1 =>
    rw [hob] at h
    dsimp only at h
    have hs1 : rem1 <:+ rem := expect_open_brace_suffix full rem rem1 hob
    cases hpd : parse_directives fuel full rem1 with
    | none => rw [hpd] at h; exact Option.noConfusion h
    | some r =>
      rw [hpd] at h
      cases r with
      | error e => simp at h
      | ok p =>
        obtain ⟨ds, rem2⟩ := p
        dsimp only at h
        obtain ⟨hds, hs2⟩ := parse_directives_names fuel full rem1 ds rem2 hpd
          (fun tok hm => hrem tok (hs1.subset hm))
        cases hcb : expect_close_brace full rem2 with
        | error e => rw [hcb] at h; simp at h
        | ok rem3 =>
          rw [hcb] at h
          dsimp only at h
          injection h with h
          injection h with h
          injection h with h1 h2
          subst h1
          subst h2
          exact ⟨hds, ((expect_close_brace_suffix full rem2 rem3 hcb).trans
            (hs2.trans hs1))⟩

theorem parse_snippet_names (fuel : Nat) (full : List Token) (t : Token)
    (rem : List Token) (s : Snippet) (rem' : List Token)
    (h : parse_snippet fuel full t rem = some (.ok (s, rem')))
    (hrem : ∀ tok ∈ rem, tok.text ≠ []) :
    dirsNamesOk s.directives = true ∧ rem' <:+ rem := by
  rw [parse_snippet] at h
  cases hob : expect_open_brace full (skipNl rem) with
  | error e => rw [hob] at h; simp at h
  | ok rem1 =>
    rw [hob] at h
    dsimp only at h
    have hs1 : rem1 <:+ rem :=
      (expect_open_brace_suffix full (skipNl rem) rem1 hob).trans
        (skipNl_suffix rem)
    cases hpd : parse_directives fuel full rem1 with
    | none => rw [hpd] at h; exact Option.noConfusion h
    | some r =>
      rw [hpd] at h
      cases r with
      | error e => simp at h
      | ok p =>
        obtain ⟨ds, rem2⟩ := p
        dsimp only at h
        obtain ⟨hds, hs2⟩ := parse_directives_names fuel full rem1 ds rem2 hpd
          (fun tok hm => hrem tok (hs1.subset hm))
        cases hcb : expect_close_brace full rem2 with
        | error e => rw [hcb] at h; simp at h
        | ok rem3 =>
          rw [hcb] at h
          dsimp only at h
          injection h with h
          injection h with h
          injection h with h1 h2
          subst h1
          subst h2
          exact ⟨hds, ((expect_close_brace_suffix full rem2 rem3 hcb).trans
            (hs2.trans hs1))⟩

theorem parse_named_route_names (fuel : Nat) (full : List Token) (t : Token)
    (rem : List Token) (r : NamedRoute) (rem' : List Token)
    (h : parse_named_route fuel full t rem = some (.ok (r, rem')))
    (hrem : ∀ tok ∈ rem, tok.text ≠ []) :
    dirsNamesOk r.directives = true ∧ rem' <:+ rem := by
  rw [parse_named_route] at h
  cases hob : expect_open_brace full (skipNl rem) with
  | error e => rw [hob] at h; simp at h
  | ok rem1 =>
    rw [hob] at h
    dsimp only at h
    have hs1 : rem1 <:+ rem :=
      (expect_open_brace_suffix full (skipNl rem) rem1 hob).trans
        (skipNl_suffix rem)
    cases hpd : parse_directives fuel full rem1 with
    | none => rw [hpd] at h; exact Option.noConfusion h
    | some rr =>
      rw [hpd] at h
      cases rr with
      | error e => simp at h
      | ok p =>
        obtain ⟨ds, rem2⟩ := p
        dsimp only at h
        obtain ⟨hds, hs2⟩ := parse_directives_names fuel full rem1 ds rem2 hpd
          (fun tok hm => hrem tok (hs1.subset hm))
        cases hcb : expect_close_brace full rem2 with
        | error e => rw [hcb] at h; simp at h
        | ok rem3 =>
          rw [hcb] at h
          dsimp only at h
          injection h with h
          injection h with h
          injection h with h1 h2
          subst h1
          subst h2
          exact ⟨hds, ((expect_close_brace_suffix full rem2 rem3 hcb).trans
            (hs2.trans hs1))⟩

theorem parse_site_block_names (fuel : Nat) (full rem : List Token)
    (s : SiteBlock) (rem' : List Token)
    (h : parse_site_block fuel full rem = some (.ok (s, rem')))
    (hrem : ∀ tok ∈ rem, tok.text ≠ []) :
    dirsNamesOk s.directives = true ∧ rem' <:+ rem := by
  rw [parse_site_block] at h
  have hsw : skipNC (addrLoop rem).2 <:+ rem :=
    (skipNC_suffix (addrLoop rem).2).trans (addrLoop_suffix rem)
  split at h
  · rename_i heq
    injection h with h
    injection h with h
    injection h with h1 h2
    subst h1
    subst h2
    exact ⟨rfl, List.nil_suffix⟩
  · rename_i t rest heq
    have hsuf0 : t :: rest <:+ rem := by rw [← heq]; exact hsw
    split_ifs at h with hnb
    · injection h with h
      injection h with h
      injection h with h1 h2
      subst h1
      subst h2
      exact ⟨rfl, hsuf0⟩
    · cases hob : expect_open_brace full (t :: rest) with
      | error e => rw [hob] at h; simp at h
      | ok rem3 =>
        rw [hob] at h
        dsimp only at h
        have hs3 : rem3 <:+ rem :=
          (expect_open_brace_suffix full (t :: rest) rem3 hob).trans hsuf0
        cases hpd : parse_directives fuel full rem3 with
        | none => rw [hpd] at h; exact Option.noConfusion h
        | some r =>
          rw [hpd] at h
          cases r with
          | error e => simp at h
          | ok p =>
            obtain ⟨ds, rem4⟩ := p
            dsimp only at h
            obtain ⟨hds, hs4⟩ := parse_directives_names fuel full rem3 ds rem4
              hpd (fun tok hm => hrem tok (hs3.subset hm))
            cases hcb : expect_close_brace full rem4 with
            | error e => rw [hcb] at h; simp at h
            | ok rem5 =>
              rw [hcb] at h
              dsimp only at h
              injection h with h
              injection h with h
              injection h with h1 h2
              subst h1
              subst h2
              exact ⟨hds, ((expect_close_brace_suffix full rem4 rem5 hcb).trans
                (hs4.trans hs3))⟩

theorem namesOk_addSnippet (acc : Caddyfile) (s : Snippet)
    (h : namesOk acc = true) (hs : dirsNamesOk s.directives = true) :
    namesOk { acc with snippets := acc.snippets ++ [s] } = true := by
  simp only [namesOk, List.all_append, List.all_cons, List.all_nil,
    Bool.and_true, Bool.and_eq_true] at h ⊢
  tauto

theorem namesOk_addRoute (acc : Caddyfile) (r : NamedRoute)
    (h : namesOk acc = true) (hr : dirsNamesOk r.directives = true) :
    namesOk { acc with named_routes := acc.named_routes ++ [r] } = true := by
  simp only [namesOk, List.all_append, List.all_cons, List.all_nil,
    Bool.and_true, Bool.and_eq_true] at h ⊢
  tauto

theorem namesOk_addSite (acc : Caddyfile) (s : SiteBlock)
    (h : namesOk acc = true) (hs : dirsNamesOk s.directives = true) :
    namesOk { acc with sites := acc.sites ++ [s] } = true := by
  simp only [namesOk, List.all_append, List.all_cons, List.all_nil,
    Bool.and_true, Bool.and_eq_true] at h ⊢
  tauto

theorem parseBlocks_names : ∀ (fuel : Nat) (full rem : List Token)
    (acc cf : Caddyfile),
    parseBlocks fuel full rem acc = some (.ok cf) →
    (∀ tok ∈ rem, tok.text ≠ []) → namesOk acc = true →
    namesOk cf = true
  | 0, full, rem, acc, cf => by
      intro h hrem hacc
      rw [parseBlocks.eq_def] at h
      split at h
      · injection h with h
        injection h with h
        subst h
        exact hacc
      · dsimp only at h
        exact Option.noConfusion h
  | fuel + 1, full, rem, acc, cf => by
      intro h hrem hacc
      cases rem with
      | nil =>
        rw [parseBlocks.eq_def] at h
        dsimp only at h
        injection h with h
        injection h with h
        subst h
        exact hacc
      | cons a as =>
        rw [parseBlocks.eq_def] at h
        dsimp only at h
        split at h
        · injection h with h
          injection h with h
          subst h
          exact hacc
        · rename_i t rest heq
          have hsuf0 : t :: rest <:+ a :: as := by
            rw [← heq]; exact skipNC_suffix (a :: as)
          split_ifs at h with hsn hrt
          · cases hps : parse_snippet fuel full t rest with
            | none => rw [hps] at h; exact Option.noConfusion h
            | some r =>
              rw [hps] at h
              cases r with
              | error e => simp at h
              | ok p =>
                obtain ⟨s, rem2⟩ := p
                dsimp only at h
                obtain ⟨hds, hs2⟩ := parse_snippet_names fuel full t rest s
                  rem2 hps (fun tok hm =>
                    hrem tok (hsuf0.subset (List.mem_cons_of_mem t hm)))
                exact parseBlocks_names fuel full rem2 _ cf h
                  (fun tok hm => hrem tok (hsuf0.subset
                    (List.mem_cons_of_mem t (hs2.subset hm))))
                  (namesOk_addSnippet acc s hacc hds)
          · cases hpr : parse_named_route fuel full t rest with
            | none => rw [hpr] at h; exact Option.noConfusion h
            | some r =>
              rw [hpr] at h
              cases r with
              | error e => simp at h
              | ok p =>
                obtain ⟨nr, rem2⟩ := p
                dsimp only at h
                obtain ⟨hds, hs2⟩ := parse_named_route_names fuel full t rest
                  nr rem2 hpr (fun tok hm =>
                    hrem tok (hsuf0.subset (List.mem_cons_of_mem t hm)))
                exact parseBlocks_names fuel full rem2 _ cf h
                  (fun tok hm => hrem tok (hsuf0.subset
                    (List.mem_cons_of_mem t (hs2.subset hm))))
                  (namesOk_addRoute acc nr hacc hds)
          · cases hpb : parse_site_block fuel full (t :: rest) with
            | none => rw [hpb] at h; exact Option.noConfusion h
            | some r =>
              rw [hpb] at h
              cases r with
              | error e => simp at h
              | ok p =>
                obtain ⟨s, rem2⟩ := p
                dsimp only at h
                obtain ⟨hds, hs2⟩ := parse_site_block_names fuel full
                  (t :: rest) s rem2 hpb
                  (fun tok hm => hrem tok (hsuf0.subset hm))
                exact parseBlocks_names fuel full rem2 _ cf h
                  (fun tok hm => hrem tok (hsuf0.subset (hs2.subset hm)))
                  (namesOk_addSite acc s hacc hds)

theorem parseWithFuel_names (fuel : Nat) (tokens : List Token)
    (cf : Caddyfile)
    (h : parseWithFuel fuel tokens = some (.ok cf))
    (htok : ∀ tok ∈ tokens, tok.text ≠ []) : namesOk cf = true := by
  rw [parseWithFuel] at h
  split at h
  · rename_i t rest heq
    have hsuf0 : t :: rest <:+ tokens := by
      rw [← heq]; exact skipNC_suffix tokens
    split_ifs at h with hob
    · cases hg : parse_global_options fuel tokens (t :: rest) with
      | none => rw [hg] at h; exact Option.noConfusion h
      | some r =>
        rw [hg] at h
        cases r with
        | error e => simp at h
        | ok p =>
          obtain ⟨g, rem1⟩ := p
          dsimp only at h
          obtain ⟨hgd, hs1⟩ := parse_global_options_names fuel tokens
            (t :: rest) g rem1 hg (fun tok hm => htok tok (hsuf0.subset hm))
          exact parseBlocks_names fuel tokens (skipNC rem1) _ cf h
            (fun tok hm => htok tok (hsuf0.subset
              (hs1.subset ((skipNC_suffix rem1).subset hm))))
            (by simp [namesOk, emptyCaddyfile, hgd])
    · rw [heq] at h
      exact parseBlocks_names fuel tokens (t :: rest) emptyCaddyfile cf h
        (fun tok hm => htok tok (hsuf0.subset hm)) rfl
  · rename_i heq
    rw [heq] at h
    exact parseBlocks_names fuel tokens [] emptyCaddyfile cf h
      (fun tok hm => absurd hm (List.not_mem_nil tok)) rfl

/-- C4 (amended): every directive name in a parsed document is the text of
some token of the stream, so whenever every token has non-empty text — the
lexer only ever emits an empty text for the empty quoted string and the
empty backtick string — every directive of any document returned by
`parse` has a non-empty name.  The unconditional claim fails, see
`c4_counterexample`. -/
theorem c4_nonempty_names_for_nonempty_token_texts (ts : List Token)
    (cf : Caddyfile) (htok : ∀ t ∈ ts, t.text ≠ [])
    (h : parse ts = .ok cf) : namesOk cf = true := by
  rw [parse] at h
  cases hp : parseWithFuel (2 * ts.length + 8) ts with
  | none => rw [hp] at h; simp [Option.getD] at h
  | some r =>
    rw [hp] at h
    cases r with
    | error e => simp [Option.getD] at h
    | ok cf' =>
      simp only [Option.getD] at h
      injection h with h
      subst h
      exact parseWithFuel_names _ ts cf' hp htok

/-- C4 witness: the single word token `a` parses to a one-site document
whose every directive name (vacuously, and via the theorem) is
non-empty. -/
theorem c4_witness :
    namesOk { global_options := none, snippets := [], named_routes := []
              sites := [{ addresses := [{ scheme := none
                                          host := ['a']
                                          port := none
                                          path := none }]
                          directives := .nil }] } = true :=
  c4_nonempty_names_for_nonempty_token_texts
    [{ kind := .word, text := ['a'], span := ⟨1, 1⟩ }] _
    (by decide) (by rfl)

/-- C4 counterexample: the six-character input `\x7b`, newline, `""`,
newline, `\x7d` tokenizes successfully (the empty quoted string is a
valid token), parses successfully, and the resulting document's
global-options block holds a directive whose name is empty. -/
theorem c4_counterexample :
    parsedNamesOk "\x7b\n\"\"\n\x7d".toList = false := by
  rfl

theorem lexLoop_succ (fuel : Nat) (c : Char) (rest : List Char)
    (line col : Nat) :
    lexLoop (fuel + 1) (c :: rest) line col
      = match lexStep c rest line col with
        | .emit t rem' line' col' => consTok t (lexLoop fuel rem' line' col')
        | .skip rem' line' col' => lexLoop fuel rem' line' col'
        | .fail e => some (.error e) := rfl

theorem consToks_nil (r : Option (Except LexError (List Token))) :
    consToks [] r = r := by
  cases r with
  | none => rfl
  | some v => cases v <;> rfl

theorem consToks_cons (t : Token) (ts : List Token)
    (r : Option (Except LexError (List Token))) :
    consToks (t :: ts) r = consTok t (consToks ts r) := by
  cases r with
  | none => rfl
  | some v => cases v <;> rfl

theorem consToks_append (a b : List Token)
    (r : Option (Except LexError (List Token))) :
    consToks a (consToks b r) = consToks (a ++ b) r := by
  cases r with
  | none => rfl
  | some v => cases v <;> simp [consToks, Except.map]

theorem headSp_append (s rest : List Char) (h : headSp s) :
    headSp (s ++ rest) := by
  cases s with
  | nil => simp [headSp] at h
  | cons c s' => simpa [headSp, List.head?] using h

theorem LexSeg.toW (s : List Char) (e : List (TokenKind × List Char))
    (h : LexSeg s e) : LexSegW s e :=
  fun line col rest _ => h line col rest

theorem LexSeg.comp (s1 s2 : List Char)
    (e1 e2 : List (TokenKind × List Char))
    (h1 : LexSeg s1 e1) (h2 : LexSeg s2 e2) :
    LexSeg (s1 ++ s2) (e1 ++ e2) := by
  intro line col rest
  obtain ⟨n1, t1, l1, c1, hn1, he1, hr1⟩ := h1 line col (s2 ++ rest)
  obtain ⟨n2, t2, l2, c2, hn2, he2, hr2⟩ := h2 l1 c1 rest
  refine ⟨n1 + n2, t1 ++ t2, l2, c2, ?_, ?_, ?_⟩
  · simp only [List.length_append]; omega
  · simp [he1, he2]
  · intro fuel
    rw [Nat.add_assoc, List.append_assoc, hr1 (n2 + fuel), hr2 fuel,
      consToks_append]

theorem LexSeg.compW (s1 s2 : List Char)
    (e1 e2 : List (TokenKind × List Char))
    (h1 : LexSeg s1 e1) (h2 : LexSegW s2 e2) :
    LexSegW (s1 ++ s2) (e1 ++ e2) := by
  intro line col rest hsp
  obtain ⟨n1, t1, l1, c1, hn1, he1, hr1⟩ := h1 line col (s2 ++ rest)
  obtain ⟨n2, t2, l2, c2, hn2, he2, hr2⟩ := h2 l1 c1 rest hsp
  refine ⟨n1 + n2, t1 ++ t2, l2, c2, ?_, ?_, ?_⟩
  · simp only [List.length_append]; omega
  · simp [he1, he2]
  · intro fuel
    rw [Nat.add_assoc, List.append_assoc, hr1 (n2 + fuel), hr2 fuel,
      consToks_append]

theorem LexSegW.compSp (s1 s2 : List Char)
    (e1 e2 : List (TokenKind × List Char))
    (h1 : LexSegW s1 e1) (h2 : LexSeg s2 e2) (hs : headSp s2) :
    LexSeg (s1 ++ s2) (e1 ++ e2) := by
  intro line col rest
  obtain ⟨n1, t1, l1, c1, hn1, he1, hr1⟩ :=
    h1 line col (s2 ++ rest) (headSp_append s2 rest hs)
  obtain ⟨n2, t2, l2, c2, hn2, he2, hr2⟩ := h2 l1 c1 rest
  refine ⟨n1 + n2, t1 ++ t2, l2, c2, ?_, ?_, ?_⟩
  · simp only [List.length_append]; omega
  · simp [he1, he2]
  · intro fuel
    rw [Nat.add_assoc, List.append_assoc, hr1 (n2 + fuel), hr2 fuel,
      consToks_append]

theorem LexSegW.compWSp (s1 s2 : List Char)
    (e1 e2 : List (TokenKind × List Char))
    (h1 : LexSegW s1 e1) (h2 : LexSegW s2 e2) (hs : headSp s2) :
    LexSegW (s1 ++ s2) (e1 ++ e2) := by
  intro line col rest hsp
  obtain ⟨n1, t1, l1, c1, hn1, he1, hr1⟩ :=
    h1 line col (s2 ++ rest) (headSp_append s2 rest hs)
  obtain ⟨n2, t2, l2, c2, hn2, he2, hr2⟩ := h2 l1 c1 rest hsp
  refine ⟨n1 + n2, t1 ++ t2, l2, c2, ?_, ?_, ?_⟩
  · simp only [List.length_append]; omega
  · simp [he1, he2]
  · intro fuel
    rw [Nat.add_assoc, List.append_assoc, hr1 (n2 + fuel), hr2 fuel,
      consToks_append]

theorem lexSeg_empty : LexSeg [] [] := by
  intro line col rest
  exact ⟨0, [], line, col, Nat.le_refl 0, rfl, fun fuel => by
    rw [Nat.zero_add, List.nil_append, consToks_nil]⟩

theorem lexSeg_nl : LexSeg ['\n'] [nlETok] := by
  intro line col rest
  refine ⟨1, [{ kind := .newline, text := ['\n'], span := ⟨line, col⟩ }],
    line + 1, 1, Nat.le_refl 1, rfl, ?_⟩
  intro fuel
  rw [Nat.add_comm 1 fuel]
  show lexLoop (fuel + 1) ('\n' :: rest) line col = _
  rw [lexLoop_succ]
  have hstep : lexStep '\n' rest line col
      = .emit { kind := .newline, text := ['\n'], span := ⟨line, col⟩ }
          rest (line + 1) 1 := rfl
  rw [hstep, consToks_cons, consToks_nil]

theorem lexSeg_space : LexSeg [' '] [] := by
  intro line col rest
  refine ⟨1, [], line, col + 1, Nat.le_refl 1, rfl, ?_⟩
  intro fuel
  rw [Nat.add_comm 1 fuel]
  show lexLoop (fuel + 1) (' ' :: rest) line col = _
  rw [lexLoop_succ]
  have hstep : lexStep ' ' rest line col = .skip rest line (col + 1) := rfl
  rw [hstep, consToks_nil]

theorem lexSeg_tab : LexSeg ['\t'] [] := by
  intro line col rest
  refine ⟨1, [], line, col + 1, Nat.le_refl 1, rfl, ?_⟩
  intro fuel
  rw [Nat.add_comm 1 fuel]
  show lexLoop (fuel + 1) ('\t' :: rest) line col = _
  rw [lexLoop_succ]
  have hstep : lexStep '\t' rest line col = .skip rest line (col + 1) := rfl
  rw [hstep, consToks_nil]

theorem lexSeg_tabs (n : Nat) : LexSeg (List.replicate n '\t') [] := by
  induction n with
  | zero => exact lexSeg_empty
  | succ k ih =>
    have := LexSeg.comp ['\t'] (List.replicate k '\t') [] [] lexSeg_tab ih
    simpa using this

theorem lexSeg_openBrace_nl :
    LexSeg [braceL, '\n'] [(.openBrace, [braceL]), nlETok] := by
  have h1 : LexSeg [braceL, '\n']
      ([(.openBrace, [braceL])] ++ [nlETok]) := by
    intro line col rest
    obtain ⟨n2, t2, l2, c2, hn2, he2, hr2⟩ := lexSeg_nl line (col + 1) rest
    have hn2b : n2 ≤ 1 := by simpa using hn2
    refine ⟨1 + n2,
      { kind := .openBrace, text := [braceL], span := ⟨line, col⟩ } :: t2,
      l2, c2, by simp only [List.length_cons, List.length_nil]; omega,
      by simp [he2]; rfl, ?_⟩
    intro fuel
    rw [Nat.add_assoc, Nat.add_comm 1 (n2 + fuel)]
    show lexLoop ((n2 + fuel) + 1) (braceL :: '\n' :: rest) line col = _
    rw [lexLoop_succ]
    have hstep : lexStep braceL ('\n' :: rest) line col
        = .emit { kind := .openBrace, text := [braceL], span := ⟨line, col⟩ }
            ('\n' :: rest) line (col + 1) := by
      rw [lexStep]
      have hne : try_read_env_var (braceL :: '\n' :: rest) line col
          = none := by
        rw [try_read_env_var]
        simp
      rw [if_neg (by decide), if_neg (by decide), if_neg (by decide),
        if_neg (by decide), if_pos rfl, hne]
    rw [hstep]
    dsimp only
    have := hr2 fuel
    rw [show ['\n'] ++ rest = '\n' :: rest from rfl] at this
    rw [this, consToks_cons]
  simpa using h1

theorem lexSeg_closeBrace_nl :
    LexSeg [braceR, '\n'] [(.closeBrace, [braceR]), nlETok] := by
  have h1 : LexSeg [braceR, '\n']
      ([(.closeBrace, [braceR])] ++ [nlETok]) := by
    intro line col rest
    obtain ⟨n2, t2, l2, c2, hn2, he2, hr2⟩ := lexSeg_nl line (col + 1) rest
    have hn2b : n2 ≤ 1 := by simpa using hn2
    refine ⟨1 + n2,
      { kind := .closeBrace, text := [braceR], span := ⟨line, col⟩ } :: t2,
      l2, c2, by simp only [List.length_cons, List.length_nil]; omega,
      by simp [he2]; rfl, ?_⟩
    intro fuel
    rw [Nat.add_assoc, Nat.add_comm 1 (n2 + fuel)]
    show lexLoop ((n2 + fuel) + 1) (braceR :: '\n' :: rest) line col = _
    rw [lexLoop_succ]
    have hstep : lexStep braceR ('\n' :: rest) line col
        = .emit { kind := .closeBrace, text := [braceR], span := ⟨line, col⟩ }
            ('\n' :: rest) line (col + 1) := by
      rw [lexStep]
      rw [if_neg (by decide), if_neg (by decide), if_neg (by decide),
        if_neg (by decide), if_neg (by decide), if_pos rfl]
    rw [hstep]
    dsimp only
    have := hr2 fuel
    rw [show ['\n'] ++ rest = '\n' :: rest from rfl] at this
    rw [this, consToks_cons]
  simpa using h1

theorem wordChar_spec (c : Char) (h : wordChar c = true) :
    c ≠ ' ' ∧ c ≠ '\t' ∧ c ≠ '\n' ∧ c ≠ '\r' ∧ c ≠ braceL ∧ c ≠ braceR
      ∧ c ≠ '\\' ∧ c ≠ bomChar := by
  simp only [wordChar, decide_eq_true_eq] at h
  push_neg at h
  exact h

theorem wordScan_all : ∀ (w : List Char), w.all wordChar = true →
    ∀ rest, headSp rest → ∀ b, wordScan (w ++ rest) b = w
  | [], _, rest, hr, b => by
      cases rest with
      | nil => simp [headSp] at hr
      | cons c r =>
        rw [List.nil_append, wordScan.eq_def]
        dsimp only
        rcases hr with h | h <;>
          (simp only [List.head?_cons, Option.some.injEq] at h; subst h; simp)
  | c :: w', hall, rest, hr, b => by
      have hc : wordChar c = true ∧ w'.all wordChar = true := by
        simpa [List.all_cons] using hall
      obtain ⟨hc1, hw'⟩ := hc
      obtain ⟨h1, h2, h3, h4, h5, h6, h7, h8⟩ := wordChar_spec c hc1
      rw [List.cons_append, wordScan.eq_def]
      dsimp only
      rw [if_neg (by simp [h1, h2, h3, h4]), if_neg (by simp [h5, h6]),
        if_neg h7]
      rw [wordScan_all w' hw' rest hr false]

theorem read_word_good (c : Char) (w' rest : List Char) (line col : Nat)
    (h : goodWord (c :: w') = true) (hr : headSp rest) :
    read_word c (w' ++ rest) line col
      = .ok ({ kind := .word, text := c :: w', span := ⟨line, col⟩ },
             rest, line, col + (c :: w').length) := by
  have hg := h
  simp only [goodWord, Bool.and_eq_true] at hg
  obtain ⟨⟨hheadok, hall⟩, hlt⟩ := hg
  have hcw : wordChar c = true ∧ ¬(c = '#' ∨ c = '"' ∨ c = backquote) := by
    simpa [wordHeadOk, Bool.and_eq_true, decide_eq_true_eq] using hheadok
  rw [read_word]
  have hnotHd : ¬(c = '<' ∧ (w' ++ rest).head? = some '<') := by
    rintro ⟨rfl, hh⟩
    cases w' with
    | nil =>
      rw [List.nil_append] at hh
      rcases hr with h' | h' <;>
        (rw [h'] at hh; exact absurd (Option.some.inj hh) (by decide))
    | cons d w'' =>
      rw [List.cons_append] at hh
      simp only [List.head?_cons, Option.some.injEq] at hh
      subst hh
      simp at hlt
  rw [if_neg hnotHd]
  have hscan : wordScan (c :: (w' ++ rest)) true = c :: w' := by
    rw [show c :: (w' ++ rest) = (c :: w') ++ rest from rfl]
    exact wordScan_all (c :: w') (by simp [List.all_cons, hcw.1, hall])
      rest hr true
  dsimp only
  rw [hscan]
  rw [if_neg (by simp)]
  rw [show c :: (w' ++ rest) = (c :: w') ++ rest from rfl, List.drop_left]

theorem lexSegW_word (w : List Char) (h : goodWord w = true) :
    LexSegW w [(.word, w)] := by
  intro line col rest hsp
  cases w with
  | nil => exact absurd h (by simp [goodWord])
  | cons c w' =>
    have hg := h
    simp only [goodWord, Bool.and_eq_true] at hg
    obtain ⟨⟨hheadok, hall⟩, hlt⟩ := hg
    have hcw : wordChar c = true ∧ ¬(c = '#' ∨ c = '"' ∨ c = backquote) := by
      simpa [wordHeadOk, Bool.and_eq_true, decide_eq_true_eq] using hheadok
    obtain ⟨h1, h2, h3, h4, h5, h6, h7, h8⟩ := wordChar_spec c hcw.1
    have hno := hcw.2
    push_neg at hno
    refine ⟨1, [{ kind := .word, text := c :: w', span := ⟨line, col⟩ }],
      line, col + (c :: w').length,
      by simp only [List.length_cons]; omega, rfl, ?_⟩
    intro fuel
    rw [Nat.add_comm 1 fuel]
    show lexLoop (fuel + 1) ((c :: w') ++ rest) line col = _
    rw [List.cons_append, lexLoop_succ]
    have hstep : lexStep c (w' ++ rest) line col
        = .emit { kind := .word, text := c :: w', span := ⟨line, col⟩ }
            rest line (col + (c :: w').length) := by
      rw [lexStep.eq_def]
      rw [if_neg h3, if_neg h4, if_neg (by simp [h1, h2]), if_neg hno.1,
        if_neg h5, if_neg h6, if_neg hno.2.1, if_neg hno.2.2, if_neg h7]
      rw [read_word_good c w' rest line col h hsp]
    rw [hstep]
    dsimp only
    rw [consToks_cons, consToks_nil]

theorem lexSeg_word_sp (w : List Char) (h : goodWord w = true) :
    LexSeg (w ++ [' ']) [(.word, w)] := by
  have := LexSegW.compSp w [' '] [(.word, w)] [] (lexSegW_word w h)
    lexSeg_space (Or.inl rfl)
  simpa using this

theorem lexSeg_word_nl (w : List Char) (h : goodWord w = true) :
    LexSeg (w ++ ['\n']) [(.word, w), nlETok] := by
  have := LexSegW.compSp w ['\n'] [(.word, w)] [nlETok] (lexSegW_word w h)
    lexSeg_nl (Or.inr rfl)
  simpa using this

theorem mojibake_ascii (c : Char) (h : asciiChar c = true) :
    mojibake c = [c] := by
  simp only [asciiChar, decide_eq_true_eq] at h
  rw [mojibake, utf8Bytes]
  rw [if_pos (by omega : c.toNat < 0x80)]
  rw [List.map_cons, List.map_nil, Char.ofNat_toNat]

theorem qstrLoop_escaped : ∀ (s rest : List Char) (line col : Nat)
    (start : Span) (acc : List Char), s.all asciiChar = true → ∃ col',
    qstrLoop ((s.map escQuotedChar).flatten ++ '"' :: rest) line col start acc
      = .ok (acc ++ s, rest, line, col')
  | [], rest, line, col, start, acc, _ => by
      refine ⟨col + 1, ?_⟩
      simp only [List.map_nil, List.flatten_nil, List.nil_append]
      rw [qstrLoop.eq_def]
      dsimp only
      rw [if_neg (by decide), if_pos rfl]
      simp
  | c :: s', rest, line, col, start, acc, hall => by
      have hardec : asciiChar c = true ∧ s'.all asciiChar = true := by
        simpa [List.all_cons] using hall
      simp only [List.map_cons, List.flatten_cons, List.append_assoc]
      by_cases h1 : c = '"'
      · subst h1
        obtain ⟨col', hIH⟩ :=
          qstrLoop_escaped s' rest line (col + 2) start (acc ++ ['"']) hardec.2
        refine ⟨col', ?_⟩
        rw [show escQuotedChar '"' = ['\\', '"'] from rfl]
        rw [List.cons_append, List.cons_append, List.nil_append,
          qstrLoop.eq_def]
        dsimp only
        rw [if_pos rfl]
        rw [if_neg (by decide), if_neg (by decide), if_neg (by decide),
          if_pos rfl]
        rw [hIH]
        simp
      · by_cases h2 : c = '\\'
        · subst h2
          obtain ⟨col', hIH⟩ :=
            qstrLoop_escaped s' rest line (col + 2) start (acc ++ ['\\']) hardec.2
          refine ⟨col', ?_⟩
          rw [show escQuotedChar '\\' = ['\\', '\\'] from rfl]
          rw [List.cons_append, List.cons_append, List.nil_append,
            qstrLoop.eq_def]
          dsimp only
          rw [if_pos rfl]
          rw [if_neg (by decide), if_neg (by decide), if_neg (by decide),
            if_neg (by decide), if_pos rfl]
          rw [hIH]
          simp
        · by_cases h3 : c = '\n'
          · subst h3
            obtain ⟨col', hIH⟩ :=
              qstrLoop_escaped s' rest line (col + 2) start (acc ++ ['\n']) hardec.2
            refine ⟨col', ?_⟩
            rw [show escQuotedChar '\n' = ['\\', 'n'] from rfl]
            rw [List.cons_append, List.cons_append, List.nil_append,
              qstrLoop.eq_def]
            dsimp only
            rw [if_pos rfl]
            rw [if_pos rfl]
            rw [hIH]
            simp
          · by_cases h4 : c = '\t'
            · subst h4
              obtain ⟨col', hIH⟩ :=
                qstrLoop_escaped s' rest line (col + 2) start (acc ++ ['\t']) hardec.2
              refine ⟨col', ?_⟩
              rw [show escQuotedChar '\t' = ['\\', 't'] from rfl]
              rw [List.cons_append, List.cons_append, List.nil_append,
                qstrLoop.eq_def]
              dsimp only
              rw [if_pos rfl]
              rw [if_neg (by decide), if_pos rfl]
              rw [hIH]
              simp
            · by_cases h5 : c = '\r'
              · subst h5
                obtain ⟨col', hIH⟩ :=
                  qstrLoop_escaped s' rest line (col + 2) start (acc ++ ['\r']) hardec.2
                refine ⟨col', ?_⟩
                rw [show escQuotedChar '\r' = ['\\', 'r'] from rfl]
                rw [List.cons_append, List.cons_append, List.nil_append,
                  qstrLoop.eq_def]
                dsimp only
                rw [if_pos rfl]
                rw [if_neg (by decide), if_neg (by decide), if_pos rfl]
                rw [hIH]
                simp
              · obtain ⟨col', hIH⟩ :=
                  qstrLoop_escaped s' rest line (col + 1) start (acc ++ [c]) hardec.2
                refine ⟨col', ?_⟩
                have hesc : escQuotedChar c = [c] := by
                  rw [escQuotedChar, if_neg h1, if_neg h2, if_neg h3,
                    if_neg h4, if_neg h5]
                rw [hesc, List.cons_append, List.nil_append,
                  qstrLoop.eq_def]
                dsimp only
                rw [if_neg h2, if_neg h1, if_neg h3,
                  mojibake_ascii c hardec.1]
                rw [hIH]
                simp

theorem read_quoted_string_escaped (s rest : List Char) (line col : Nat)
    (hall : s.all asciiChar = true) :
    ∃ col',
    read_quoted_string ((s.map escQuotedChar).flatten ++ '"' :: rest) line col
      = .ok ({ kind := .quotedString, text := s, span := ⟨line, col⟩ },
             rest, line, col') := by
  obtain ⟨col', hq⟩ :=
    qstrLoop_escaped s rest line (col + 1) ⟨line, col⟩ [] hall
  simp only [List.nil_append] at hq
  refine ⟨col', ?_⟩
  rw [read_quoted_string, hq]

theorem lexSeg_quoted (s : List Char)
    (hall : s.all asciiChar = true) :
    LexSeg ('"' :: ((s.map escQuotedChar).flatten ++ ['"']))
      [(.quotedString, s)] := by
  intro line col rest
  obtain ⟨col', hq⟩ := read_quoted_string_escaped s rest line col hall
  refine ⟨1, [{ kind := .quotedString, text := s, span := ⟨line, col⟩ }],
    line, col', by simp [List.length_cons], rfl, ?_⟩
  intro fuel
  rw [Nat.add_comm 1 fuel]
  show lexLoop (fuel + 1)
      (('"' :: ((s.map escQuotedChar).flatten ++ ['"'])) ++ rest) line col
    = _
  rw [List.cons_append, lexLoop_succ]
  have hstep : lexStep '"' (((s.map escQuotedChar).flatten ++ ['"']) ++ rest)
      line col
      = .emit { kind := .quotedString, text := s, span := ⟨line, col⟩ }
          rest line col' := by
    rw [lexStep.eq_def]
    rw [if_neg (by decide), if_neg (by decide), if_neg (by decide),
      if_neg (by decide), if_neg (by decide), if_neg (by decide),
      if_pos rfl]
    rw [List.append_assoc, List.singleton_append, hq]
  rw [hstep]
  dsimp only
  rw [consToks_cons, consToks_nil]

theorem btickLoop_content : ∀ (s rest : List Char) (line col : Nat)
    (start : Span) (acc : List Char),
    s.all (fun c => asciiChar c && decide (c ≠ backquote)) = true →
    ∃ line' col',
    btickLoop (s ++ backquote :: rest) line col start acc
      = .ok (acc ++ s, rest, line', col')
  | [], rest, line, col, start, acc, _ => by
      refine ⟨line, col + 1, ?_⟩
      rw [List.nil_append, btickLoop.eq_def]
      dsimp only
      rw [if_pos rfl]
      simp
  | c :: s', rest, line, col, start, acc, hall => by
      have hc : (asciiChar c = true ∧ c ≠ backquote)
          ∧ s'.all (fun c => asciiChar c && decide (c ≠ backquote))
              = true := by
        simpa [List.all_cons, Bool.and_eq_true] using hall
      by_cases hnl : c = '\n'
      · subst hnl
        obtain ⟨line', col', hIH⟩ :=
          btickLoop_content s' rest (line + 1) 1 start (acc ++ ['\n']) hc.2
        refine ⟨line', col', ?_⟩
        rw [List.cons_append, btickLoop.eq_def]
        dsimp only
        rw [if_neg hc.1.2, if_pos rfl, hIH]
        simp
      · obtain ⟨line', col', hIH⟩ :=
          btickLoop_content s' rest line (col + 1) start (acc ++ [c]) hc.2
        refine ⟨line', col', ?_⟩
        rw [List.cons_append, btickLoop.eq_def]
        dsimp only
        rw [if_neg hc.1.2, if_neg hnl, mojibake_ascii c hc.1.1, hIH]
        simp

theorem lexSeg_backtick (s : List Char)
    (h : s.all (fun c => asciiChar c && decide (c ≠ backquote)) = true) :
    LexSeg (backquote :: (s ++ [backquote])) [(.backtickString, s)] := by
  intro line col rest
  obtain ⟨line', col', hb⟩ :=
    btickLoop_content s rest line (col + 1) ⟨line, col⟩ [] h
  simp only [List.nil_append] at hb
  refine ⟨1, [{ kind := .backtickString, text := s, span := ⟨line, col⟩ }],
    line', col', by simp only [List.length_cons]; omega, rfl, ?_⟩
  intro fuel
  rw [Nat.add_comm 1 fuel]
  show lexLoop (fuel + 1) ((backquote :: (s ++ [backquote])) ++ rest) line col
    = _
  rw [List.cons_append, lexLoop_succ]
  have hstep : lexStep backquote ((s ++ [backquote]) ++ rest) line col
      = .emit { kind := .backtickString, text := s, span := ⟨line, col⟩ }
          rest line' col' := by
    rw [lexStep.eq_def]
    rw [if_neg (by decide), if_neg (by decide), if_neg (by decide),
      if_neg (by decide), if_neg (by decide), if_neg (by decide),
      if_neg (by decide), if_pos rfl]
    rw [read_backtick_string, List.append_assoc, List.singleton_append, hb]
  rw [hstep]
  dsimp only
  rw [consToks_cons, consToks_nil]

theorem goodWord_mk (c : Char) (cs : List Char) (h1 : wordHeadOk c = true)
    (h2 : cs.all wordChar = true) (h3 : c ≠ '<') :
    goodWord (c :: cs) = true := by
  simp [goodWord, h1, h2, h3]

theorem argSegW (a : Argument) (h : argWF a = true) :
    LexSegW (format_argument a) [argETok a] := by
  cases a with
  | unquoted s => exact lexSegW_word s (by simpa [argWF] using h)
  | quoted s =>
      exact LexSeg.toW _ _ (lexSeg_quoted s (by simpa [argWF] using h))
  | backtick s =>
      exact LexSeg.toW _ _ (lexSeg_backtick s (by simpa [argWF] using h))
  | heredoc m c => exact absurd h (by simp [argWF])

theorem lexSeg_args : ∀ (args : List Argument), args.all argWF = true →
    ∀ s e, LexSeg s e → headSp s →
    LexSeg ((args.map (fun a => ' ' :: format_argument a)).flatten ++ s)
        (args.map argETok ++ e)
      ∧ headSp ((args.map (fun a => ' ' :: format_argument a)).flatten ++ s)
  | [], _, s, e, hs, hsp => by simpa using ⟨hs, hsp⟩
  | a :: args', hall, s, e, hs, hsp => by
      have h2 : argWF a = true ∧ args'.all argWF = true := by
        simpa [List.all_cons] using hall
      obtain ⟨hT, hspT⟩ := lexSeg_args args' h2.2 s e hs hsp
      have hfa := LexSegW.compSp _ _ _ _ (argSegW a h2.1) hT hspT
      have hunit := LexSeg.comp [' '] _ [] _ lexSeg_space hfa
      constructor
      · simpa [List.append_assoc] using hunit
      · simp [headSp, List.head?]

theorem lexSeg_matcher (m : Option Matcher) (h : matcherWF m = true)
    (s : List Char) (e : List (TokenKind × List Char))
    (hs : LexSeg s e) (hsp : headSp s) :
    LexSeg (matchSeg m ++ s) (matcherEToks m ++ e)
      ∧ headSp (matchSeg m ++ s) := by
  cases m with
  | none => exact ⟨by simpa [matchSeg] using hs, by simpa [matchSeg] using hsp⟩
  | some mm =>
    cases mm with
    | all =>
      have hw := LexSegW.compSp _ _ _ _ (lexSegW_word ['*'] (by decide))
        hs hsp
      have hunit := LexSeg.comp [' '] _ [] _ lexSeg_space hw
      exact ⟨by simpa [matcherEToks, matchSeg] using hunit,
        by simp [headSp, matchSeg]⟩
    | named n =>
      have hgw : goodWord ('@' :: n) = true :=
        goodWord_mk '@' n (by decide) (by simpa [matcherWF] using h)
          (by decide)
      have hw := LexSegW.compSp _ _ _ _ (lexSegW_word ('@' :: n) hgw) hs hsp
      have hunit := LexSeg.comp [' '] _ [] _ lexSeg_space hw
      exact ⟨by simpa [matcherEToks, matchSeg] using hunit,
        by simp [headSp, matchSeg]⟩
    | path p =>
      have hp : p.head? = some '/' ∧ p.all wordChar = true := by
        simpa [matcherWF] using h
      have hgw : goodWord p = true := by
        cases p with
        | nil => simp [List.head?] at hp
        | cons c p' =>
          have hc : c = '/' := by
            simpa [List.head?] using hp.1
          subst hc
          have hall : p'.all wordChar = true := by
            have h2 := hp.2
            simp only [List.all_cons, Bool.and_eq_true] at h2
            exact h2.2
          exact goodWord_mk '/' p' (by decide) hall (by decide)
      have hw := LexSegW.compSp _ _ _ _ (lexSegW_word p hgw) hs hsp
      have hunit := LexSeg.comp [' '] _ [] _ lexSeg_space hw
      exact ⟨by simpa [matcherEToks, matchSeg] using hunit,
        by simp [headSp, matchSeg]⟩

mutual

theorem dirLexSeg : ∀ (d : Directive), dirWF d = true → ∀ ind,
    LexSeg (format_directive d ind) (dirEToks d)
  | .mk name m args none, h, ind => by
      have hw := h
      simp only [dirWF, Bool.and_eq_true] at hw
      obtain ⟨⟨⟨⟨hname, hm⟩, hargs⟩, _⟩, _⟩ := hw
      have hAE := lexSeg_args args hargs ['\n'] [nlETok] lexSeg_nl
        (Or.inr rfl)
      have hME := lexSeg_matcher m hm _ _ hAE.1 hAE.2
      have hN := LexSegW.compSp _ _ _ _ (lexSegW_word name hname)
        hME.1 hME.2
      have hP := LexSeg.comp (List.replicate ind '\t') _ [] _
        (lexSeg_tabs ind) hN
      rw [format_directive.eq_def]
      dsimp only
      rw [dirEToks.eq_def]
      dsimp only
      cases m with
      | none =>
          simpa [List.append_assoc, matchSeg, matcherEToks] using hP
      | some mm =>
          cases mm <;>
            simpa [List.append_assoc, matchSeg, matcherEToks] using hP
  | .mk name m args (some b), h, ind => by
      have hw := h
      simp only [dirWF, Bool.and_eq_true] at hw
      obtain ⟨⟨⟨⟨hname, hm⟩, hargs⟩, _⟩, hblock⟩ := hw
      have hb := dirsLexSegSp b (by simpa using hblock) (ind + 1)
      have hTail1 := LexSeg.comp (List.replicate ind '\t') _ [] _
        (lexSeg_tabs ind) lexSeg_closeBrace_nl
      have hTail2 := LexSeg.comp _ _ _ _ hb hTail1
      have hTail3 := LexSeg.comp [braceL, '\n'] _ _ _
        lexSeg_openBrace_nl hTail2
      have hTail4 := LexSeg.comp [' '] _ [] _ lexSeg_space hTail3
      have hspT : headSp ([' ']
          ++ ([braceL, '\n']
            ++ (format_directives_with_spacing b (ind + 1)
              ++ (List.replicate ind '\t' ++ [braceR, '\n'])))) := by
        simp [headSp, List.head?]
      have hAE := lexSeg_args args hargs _ _ hTail4 hspT
      have hME := lexSeg_matcher m hm _ _ hAE.1 hAE.2
      have hN := LexSegW.compSp _ _ _ _ (lexSegW_word name hname)
        hME.1 hME.2
      have hP := LexSeg.comp (List.replicate ind '\t') _ [] _
        (lexSeg_tabs ind) hN
      rw [format_directive.eq_def]
      dsimp only
      rw [dirEToks.eq_def]
      dsimp only
      cases m with
      | none =>
          simpa [List.append_assoc, matchSeg, matcherEToks] using hP
      | some mm =>
          cases mm <;>
            simpa [List.append_assoc, matchSeg, matcherEToks] using hP

theorem dirsLexSeg : ∀ (ds : Dirs), dirsWF ds = true → ∀ ind,
    LexSeg (format_directives ds ind) (dirsEToks ds)
  | .nil, _, ind => by
      rw [format_directives, dirsEToks]
      exact lexSeg_empty
  | .cons d rest, h, ind => by
      have hw : dirWF d = true ∧ dirsWF rest = true := by
        simpa [dirsWF] using h
      rw [format_directives, dirsEToks]
      exact LexSeg.comp _ _ _ _ (dirLexSeg d hw.1 ind)
        (dirsLexSeg rest hw.2 ind)

theorem dirsLexSegSp : ∀ (ds : Dirs), dirsWF ds = true → ∀ ind,
    LexSeg (format_directives_with_spacing ds ind) (dirsEToksSp ds)
  | .nil, _, ind => by
      rw [format_directives_with_spacing, dirsEToksSp]
      exact lexSeg_empty
  | .cons d rest, h, ind => by
      have hw : dirWF d = true ∧ dirsWF rest = true := by
        simpa [dirsWF] using h
      rw [format_directives_with_spacing, dirsEToksSp]
      exact LexSeg.comp _ _ _ _ (dirLexSeg d hw.1 ind)
        (spLexSeg rest d.hasBlock hw.2 ind)

theorem spLexSeg : ∀ (ds : Dirs) (prevHad : Bool), dirsWF ds = true →
    ∀ ind, LexSeg (spacing_rest ds prevHad ind) (spEToksRest ds prevHad)
  | .nil, _, _, ind => by
      rw [spacing_rest, spEToksRest]
      exact lexSeg_empty
  | .cons d rest, prevHad, h, ind => by
      have hw : dirWF d = true ∧ dirsWF rest = true := by
        simpa [dirsWF] using h
      rw [spacing_rest, spEToksRest]
      have hsep : LexSeg (if d.hasBlock || prevHad then ['\n'] else [])
          (if d.hasBlock || prevHad then [nlETok] else []) := by
        by_cases hc : d.hasBlock || prevHad
        · rw [if_pos hc, if_pos hc]; exact lexSeg_nl
        · rw [if_neg hc, if_neg hc]; exact lexSeg_empty
      have := LexSeg.comp _ _ _ _ hsep
        (LexSeg.comp _ _ _ _ (dirLexSeg d hw.1 ind)
          (spLexSeg rest d.hasBlock hw.2 ind))
      simpa [List.append_assoc] using this

end

theorem digitChar_isDigit (n : Nat) :
    (Char.ofNat (48 + n % 10)).isDigit = true := by
  have h : n % 10 < 10 := Nat.mod_lt _ (by omega)
  set k := n % 10 with hk
  interval_cases k <;> decide

theorem natToDecAux_digits : ∀ (fuel n : Nat) (acc : List Char),
    acc.all Char.isDigit = true →
    (natToDecAux fuel n acc).all Char.isDigit = true
  | 0, _, _, h => h
  | fuel + 1, n, acc, h => by
      rw [natToDecAux]
      by_cases hn : n < 10
      · rw [if_pos hn]
        simp [List.all_cons, digitChar_isDigit n, h]
      · rw [if_neg hn]
        exact natToDecAux_digits fuel (n / 10) _
          (by simp [List.all_cons, digitChar_isDigit n, h])

theorem natToDecAux_ne_nil_acc : ∀ (fuel n : Nat) (acc : List Char),
    acc ≠ [] → natToDecAux fuel n acc ≠ []
  | 0, _, _, h => h
  | fuel + 1, n, acc, _ => by
      rw [natToDecAux]
      by_cases hn : n < 10
      · rw [if_pos hn]
        simp
      · rw [if_neg hn]
        exact natToDecAux_ne_nil_acc fuel (n / 10) _ (by simp)

theorem natToDec_digits (n : Nat) :
    (natToDec n).all Char.isDigit = true :=
  natToDecAux_digits (n + 1) n [] rfl

theorem natToDec_ne_nil (n : Nat) : natToDec n ≠ [] := by
  rw [natToDec, natToDecAux]
  by_cases hn : n < 10
  · rw [if_pos hn]
    simp
  · rw [if_neg hn]
    exact natToDecAux_ne_nil_acc n (n / 10) _ (by simp)

theorem isDigit_ne (c x : Char) (h : c.isDigit = true)
    (hx : x.isDigit = false) : c ≠ x := fun he => by
  rw [he] at h
  rw [h] at hx
  exact Bool.noConfusion hx

theorem isDigit_wordChar (c : Char) (h : c.isDigit = true) :
    wordChar c = true := by
  simp only [wordChar, decide_eq_true_eq]
  push_neg
  exact ⟨isDigit_ne c ' ' h (by decide), isDigit_ne c '\t' h (by decide),
    isDigit_ne c '\n' h (by decide), isDigit_ne c '\r' h (by decide),
    isDigit_ne c braceL h (by decide), isDigit_ne c braceR h (by decide),
    isDigit_ne c '\\' h (by decide), isDigit_ne c bomChar h (by decide)⟩

theorem hostChar_facts (c : Char) (h : hostChar c = true) :
    wordChar c = true ∧ wordHeadOk c = true ∧ c ≠ '<' ∧ c ≠ ','
      ∧ c ≠ ':' ∧ c ≠ '/' ∧ c ≠ '(' ∧ c ≠ '&' := by
  simp only [hostChar, Bool.or_eq_true, decide_eq_true_eq] at h
  have hne : ∀ x : Char, x.isAlphanum = false → x ≠ '.' → x ≠ '-'
      → x ≠ '_' → c ≠ x := by
    intro x hx hx2 hx3 hx4 he
    subst he
    rcases h with ((ha | ha) | ha) | ha
    · rw [ha] at hx; exact Bool.noConfusion hx
    · exact hx2 ha
    · exact hx3 ha
    · exact hx4 ha
  have hw : wordChar c = true := by
    simp only [wordChar, decide_eq_true_eq]
    push_neg
    exact ⟨hne ' ' (by decide) (by decide) (by decide) (by decide),
      hne '\t' (by decide) (by decide) (by decide) (by decide),
      hne '\n' (by decide) (by decide) (by decide) (by decide),
      hne '\r' (by decide) (by decide) (by decide) (by decide),
      hne braceL (by decide) (by decide) (by decide) (by decide),
      hne braceR (by decide) (by decide) (by decide) (by decide),
      hne '\\' (by decide) (by decide) (by decide) (by decide),
      hne bomChar (by decide) (by decide) (by decide) (by decide)⟩
  refine ⟨hw, ?_, hne '<' (by decide) (by decide) (by decide) (by decide),
    hne ',' (by decide) (by decide) (by decide) (by decide),
    hne ':' (by decide) (by decide) (by decide) (by decide),
    hne '/' (by decide) (by decide) (by decide) (by decide),
    hne '(' (by decide) (by decide) (by decide) (by decide),
    hne '&' (by decide) (by decide) (by decide) (by decide)⟩
  simp only [wordHeadOk, Bool.and_eq_true, decide_eq_true_eq]
  refine ⟨hw, ?_⟩
  push_neg
  exact ⟨hne '#' (by decide) (by decide) (by decide) (by decide),
    hne '"' (by decide) (by decide) (by decide) (by decide),
    hne backquote (by decide) (by decide) (by decide) (by decide)⟩

theorem all_mono {p q : Char → Bool} (hpq : ∀ c, p c = true → q c = true)
    (l : List Char) (h : l.all p = true) : l.all q = true := by
  simp only [List.all_eq_true] at h ⊢
  exact fun c hc => hpq c (h c hc)

theorem pathChar_wordChar (c : Char) (h : pathChar c = true) :
    wordChar c = true := by
  simp only [pathChar, Bool.and_eq_true] at h
  exact h.1

theorem format_address_all (a : Address) (h : addrOk a = true) :
    (format_address a).all wordChar = true := by
  obtain ⟨sc, host, port, pth⟩ := a
  simp only [addrOk, Bool.and_eq_true, decide_eq_true_eq] at h
  obtain ⟨⟨⟨⟨hne, hhost⟩, hport⟩, hpath⟩, hscheme⟩ := h
  rw [format_address]
  simp only [List.all_append, Bool.and_eq_true]
  refine ⟨⟨⟨?_, all_mono (fun c hc => (hostChar_facts c hc).1) _ hhost⟩,
    ?_⟩, ?_⟩
  · cases sc with
    | none => rfl
    | some sch => cases sch <;> decide
  · cases port with
    | none => rfl
    | some p =>
      simp only [List.all_cons, Bool.and_eq_true]
      exact ⟨by decide, all_mono (fun c hc => isDigit_wordChar c hc) _
        (natToDec_digits p)⟩
  · cases pth with
    | none => rfl
    | some p =>
      simp only [Bool.and_eq_true] at hpath
      exact all_mono pathChar_wordChar _ hpath.2

theorem format_address_goodWord (a : Address) (h : addrOk a = true) :
    goodWord (format_address a) = true := by
  have hall := format_address_all a h
  obtain ⟨sc, host, port, pth⟩ := a
  simp only [addrOk, Bool.and_eq_true, decide_eq_true_eq] at h
  obtain ⟨⟨⟨⟨hne, hhost⟩, hport⟩, hpath⟩, hscheme⟩ := h
  have hcons : ∃ c T,
      format_address ⟨sc, host, port, pth⟩ = c :: T
        ∧ wordHeadOk c = true ∧ c ≠ '<' := by
    rw [format_address]
    cases sc with
    | some sch =>
      cases sch <;> exact ⟨'h', _, rfl, by decide, by decide⟩
    | none =>
      cases host with
      | nil => exact absurd rfl hne
      | cons hc host' =>
        simp only [List.all_cons, Bool.and_eq_true] at hhost
        obtain ⟨hf1, hf2, hf3, _⟩ := hostChar_facts hc hhost.1
        exact ⟨hc, _, rfl, hf2, hf3⟩
  obtain ⟨c, T, hform, hhead, hlt⟩ := hcons
  rw [hform]
  rw [hform, List.all_cons, Bool.and_eq_true] at hall
  exact goodWord_mk c T hhead hall.2 hlt

theorem goodWord_append_comma (w : List Char) (hg : goodWord w = true)
    (hall : w.all wordChar = true) : goodWord (w ++ [',']) = true := by
  cases w with
  | nil => exact absurd hg (by simp [goodWord])
  | cons c ws =>
    rw [List.all_cons, Bool.and_eq_true] at hall
    rw [List.cons_append]
    simp only [goodWord, Bool.and_eq_true] at hg ⊢
    refine ⟨⟨hg.1.1, ?_⟩, ?_⟩
    · simp [List.all_append, hall.2, show wordChar ',' = true from by decide]
    · cases ws with
      | nil => simp
      | cons d ws' => simpa using hg.2

theorem format_addresses_cons2 (b : Address) (rest' : List Address) :
    format_addresses_rest (b :: rest')
      = ',' :: ' ' :: format_addresses (b :: rest') := by
  rw [format_addresses_rest, format_addresses]

theorem lexSegW_addrs : ∀ (as : List Address), as.all addrOk = true →
    as ≠ [] → LexSegW (format_addresses as) (addrEToks as)
  | [], _, hne => absurd rfl hne
  | [a], hall, _ => by
      have ha : addrOk a = true := by simpa using hall
      have hg := format_address_goodWord a ha
      rw [format_addresses, format_addresses_rest, List.append_nil,
        addrEToks]
      exact lexSegW_word _ hg
  | a :: b :: rest', hall, _ => by
      have h2 : addrOk a = true ∧ (b :: rest').all addrOk = true := by
        simpa [List.all_cons] using hall
      have hg := format_address_goodWord a h2.1
      have hgc := goodWord_append_comma _ hg (format_address_all a h2.1)
      have hIH := lexSegW_addrs (b :: rest') h2.2 (by simp)
      have hsp := LexSeg.compW [' '] _ [] _ lexSeg_space hIH
      have hw := LexSegW.compWSp _ _ _ _ (lexSegW_word _ hgc) hsp
        (Or.inl rfl)
      rw [format_addresses, format_addresses_cons2, addrEToks]
      · simpa [List.append_assoc] using hw
      · exact fun h => List.noConfusion h

theorem lexSeg_gopts (g : GlobalOptions) (h : dirsWF g.directives = true) :
    LexSeg (format_global_options g) (gOptsEToks g) := by
  have hb := dirsLexSeg g.directives h 1
  have h1 := LexSeg.comp _ _ _ _ hb lexSeg_closeBrace_nl
  have h2 := LexSeg.comp _ _ _ _ lexSeg_openBrace_nl h1
  rw [format_global_options, gOptsEToks]
  simpa [List.append_assoc] using h2

theorem lexSeg_snippet (s : Snippet) (h : snipWF s = true) :
    LexSeg (format_snippet s) (snipEToks s) := by
  simp only [snipWF, Bool.and_eq_true, decide_eq_true_eq] at h
  obtain ⟨⟨hne, hchars⟩, hds⟩ := h
  have hword : goodWord ('(' :: (s.name ++ [')'])) = true := by
    refine goodWord_mk '(' _ (by decide) ?_ (by decide)
    simp [List.all_append, hchars, show wordChar ')' = true from by decide]
  have hb := dirsLexSeg s.directives hds 1
  have h1 := LexSeg.comp _ _ _ _ hb lexSeg_closeBrace_nl
  have h2 := LexSeg.comp _ _ _ _ lexSeg_openBrace_nl h1
  have h3 := LexSeg.comp [' '] _ [] _ lexSeg_space h2
  have h4 := LexSegW.compSp _ _ _ _ (lexSegW_word _ hword) h3 (Or.inl rfl)
  rw [format_snippet, snipEToks]
  simpa [List.append_assoc] using h4

theorem lexSeg_route (r : NamedRoute) (h : routeWF r = true) :
    LexSeg (format_named_route r) (routeEToks r) := by
  simp only [routeWF, Bool.and_eq_true, decide_eq_true_eq] at h
  obtain ⟨⟨hne, hchars⟩, hds⟩ := h
  have hword : goodWord ('&' :: '(' :: (r.name ++ [')'])) = true := by
    refine goodWord_mk '&' _ (by decide) ?_ (by decide)
    simp [List.all_cons, List.all_append, hchars,
      show wordChar '(' = true from by decide,
      show wordChar ')' = true from by decide]
  have hb := dirsLexSeg r.directives hds 1
  have h1 := LexSeg.comp _ _ _ _ hb lexSeg_closeBrace_nl
  have h2 := LexSeg.comp _ _ _ _ lexSeg_openBrace_nl h1
  have h3 := LexSeg.comp [' '] _ [] _ lexSeg_space h2
  have h4 := LexSegW.compSp _ _ _ _ (lexSegW_word _ hword) h3 (Or.inl rfl)
  rw [format_named_route, routeEToks]
  simpa [List.append_assoc] using h4

theorem lexSeg_site (s : SiteBlock) (h : siteWF s = true) :
    LexSeg (format_site_block s) (siteEToks s) := by
  simp only [siteWF, Bool.and_eq_true, decide_eq_true_eq] at h
  obtain ⟨⟨hne, hall⟩, hds⟩ := h
  have hb := dirsLexSegSp s.directives hds 1
  have h1 := LexSeg.comp _ _ _ _ hb lexSeg_closeBrace_nl
  have h2 := LexSeg.comp _ _ _ _ lexSeg_openBrace_nl h1
  have h3 := LexSeg.comp [' '] _ [] _ lexSeg_space h2
  have h4 := LexSegW.compSp _ _ _ _ (lexSegW_addrs s.addresses hall hne)
    h3 (Or.inl rfl)
  rw [format_site_block, siteEToks]
  simpa [List.append_assoc] using h4

theorem lexSeg_emit {α : Type} (f : α → List Char)
    (g : α → List (TokenKind × List Char)) :
    ∀ (xs : List α), (∀ x ∈ xs, LexSeg (f x) (g x)) → ∀ first,
    LexSeg (emit_blocks f xs first) (emitEToks g xs first)
  | [], _, first => by
      rw [emit_blocks, emitEToks]
      exact lexSeg_empty
  | x :: xs', hall, first => by
      have hx := hall x (List.mem_cons_self x xs')
      have hIH := lexSeg_emit f g xs'
        (fun y hy => hall y (List.mem_cons_of_mem x hy)) false
      have hsep : LexSeg (if first then [] else ['\n'])
          (if first then [] else [nlETok]) := by
        cases first
        · exact lexSeg_nl
        · exact lexSeg_empty
      have := LexSeg.comp _ _ _ _ hsep (LexSeg.comp _ _ _ _ hx hIH)
      rw [emit_blocks, emitEToks]
      simpa [List.append_assoc] using this

theorem goodWord_head_facts (w : List Char) (h : goodWord w = true) :
    w ≠ [] ∧ w.head? ≠ some bomChar := by
  cases w with
  | nil => exact absurd h (by simp [goodWord])
  | cons c ws =>
    simp only [goodWord, Bool.and_eq_true] at h
    have hcw : wordChar c = true := by
      have := h.1.1
      simp only [wordHeadOk, Bool.and_eq_true] at this
      exact this.1
    refine ⟨by simp, ?_⟩
    intro he
    simp only [List.head?_cons, Option.some.injEq] at he
    exact (wordChar_spec c hcw).2.2.2.2.2.2.2 he

theorem nl_last_append (A B : List Char)
    (hA : A = [] ∨ A.getLast? = some '\n')
    (hB : B = [] ∨ B.getLast? = some '\n') :
    A ++ B = [] ∨ (A ++ B).getLast? = some '\n' := by
  rcases hB with hB | hB
  · subst hB
    simpa using hA
  · right
    rw [List.getLast?_append_of_ne_nil A
      (fun hn => by rw [hn] at hB; exact Option.noConfusion hB)]
    exact hB

theorem notBom_append (A B : List Char)
    (hA : A = [] ∨ A.head? ≠ some bomChar)
    (hB : B = [] ∨ B.head? ≠ some bomChar) :
    A ++ B = [] ∨ (A ++ B).head? ≠ some bomChar := by
  cases A with
  | nil => simpa using hB
  | cons c A' =>
    rcases hA with hA | hA
    · exact absurd hA (by simp)
    · right
      simpa using hA

theorem emit_ne_nil {α : Type} (f : α → List Char) :
    ∀ (xs : List α), (∀ x ∈ xs, f x ≠ []) → ∀ first,
      (emit_blocks f xs first = [] ↔ xs = [])
  | [], _, first => by
      rw [emit_blocks]
      simp
  | x :: xs', hall, first => by
      rw [emit_blocks]
      simp only [List.append_eq_nil, List.cons_ne_nil, iff_false]
      intro hcon
      exact hall x (List.mem_cons_self x xs') hcon.1.2

theorem emitE_ne_nil {α : Type} (g : α → List (TokenKind × List Char)) :
    ∀ (xs : List α), (∀ x ∈ xs, g x ≠ []) → ∀ first,
      (emitEToks g xs first = [] ↔ xs = [])
  | [], _, first => by
      rw [emitEToks]
      simp
  | x :: xs', hall, first => by
      rw [emitEToks]
      simp only [List.append_eq_nil, List.cons_ne_nil, iff_false]
      intro hcon
      exact hall x (List.mem_cons_self x xs') hcon.1.2

theorem emit_last_nl {α : Type} (f : α → List Char) :
    ∀ (xs : List α), (∀ x ∈ xs, (f x).getLast? = some '\n') → ∀ first,
      emit_blocks f xs first = []
        ∨ (emit_blocks f xs first).getLast? = some '\n'
  | [], _, first => Or.inl rfl
  | x :: xs', hall, first => by
      have hx := hall x (List.mem_cons_self x xs')
      have hIH := emit_last_nl f xs'
        (fun y hy => hall y (List.mem_cons_of_mem x hy)) false
      rw [emit_blocks]
      refine nl_last_append _ _ (nl_last_append _ _ ?_ (Or.inr hx)) hIH
      cases first
      · exact Or.inr rfl
      · exact Or.inl rfl

theorem emit_head_notBom {α : Type} (f : α → List Char) :
    ∀ (xs : List α), (∀ x ∈ xs, (f x).head? ≠ some bomChar) → ∀ first,
      emit_blocks f xs first = []
        ∨ (emit_blocks f xs first).head? ≠ some bomChar
  | [], _, first => Or.inl rfl
  | x :: xs', hall, first => by
      have hx := hall x (List.mem_cons_self x xs')
      have hIH := emit_head_notBom f xs'
        (fun y hy => hall y (List.mem_cons_of_mem x hy)) false
      rw [emit_blocks]
      refine notBom_append _ _ (notBom_append _ _ ?_ (Or.inr hx)) hIH
      cases first
      · exact Or.inr (by decide)
      · exact Or.inl rfl

theorem gopts_shape (g : GlobalOptions) :
    format_global_options g ≠ []
      ∧ (format_global_options g).getLast? = some '\n'
      ∧ (format_global_options g).head? ≠ some bomChar := by
  rw [format_global_options]
  refine ⟨by simp, ?_, by simp; decide⟩
  rw [show braceL :: '\n' :: (format_directives g.directives 1
        ++ [braceR, '\n'])
      = [braceL, '\n'] ++ (format_directives g.directives 1
        ++ [braceR, '\n']) from rfl]
  rw [List.getLast?_append_of_ne_nil _ (by simp),
    List.getLast?_append_of_ne_nil _ (by simp)]
  rfl

theorem snippet_shape (s : Snippet) :
    format_snippet s ≠ []
      ∧ (format_snippet s).getLast? = some '\n'
      ∧ (format_snippet s).head? ≠ some bomChar := by
  rw [format_snippet]
  refine ⟨by simp, ?_, by simp; decide⟩
  rw [show '(' :: (s.name ++ ')' :: ' ' :: braceL :: '\n' ::
        (format_directives s.directives 1 ++ [braceR, '\n']))
      = ('(' :: s.name ++ [')', ' ', braceL, '\n'])
        ++ (format_directives s.directives 1 ++ [braceR, '\n']) by
      simp]
  rw [List.getLast?_append_of_ne_nil _ (by simp),
    List.getLast?_append_of_ne_nil _ (by simp)]
  rfl

theorem route_shape (r : NamedRoute) :
    format_named_route r ≠ []
      ∧ (format_named_route r).getLast? = some '\n'
      ∧ (format_named_route r).head? ≠ some bomChar := by
  rw [format_named_route]
  refine ⟨by simp, ?_, by simp; decide⟩
  rw [show '&' :: '(' :: (r.name ++ ')' :: ' ' :: braceL :: '\n' ::
        (format_directives r.directives 1 ++ [braceR, '\n']))
      = ('&' :: '(' :: r.name ++ [')', ' ', braceL, '\n'])
        ++ (format_directives r.directives 1 ++ [braceR, '\n']) by
      simp]
  rw [List.getLast?_append_of_ne_nil _ (by simp),
    List.getLast?_append_of_ne_nil _ (by simp)]
  rfl

theorem site_shape (s : SiteBlock) (h : siteWF s = true) :
    format_site_block s ≠ []
      ∧ (format_site_block s).getLast? = some '\n'
      ∧ (format_site_block s).head? ≠ some bomChar := by
  simp only [siteWF, Bool.and_eq_true, decide_eq_true_eq] at h
  obtain ⟨⟨hne, hall⟩, _⟩ := h
  rw [format_site_block]
  refine ⟨by simp, ?_, ?_⟩
  · rw [List.getLast?_append_of_ne_nil _ (by simp)]
    rw [show ' ' :: braceL :: '\n' ::
          (format_directives_with_spacing s.directives 1 ++ [braceR, '\n'])
        = [' ', braceL, '\n']
          ++ (format_directives_with_spacing s.directives 1
            ++ [braceR, '\n']) from rfl]
    rw [List.getLast?_append_of_ne_nil _ (by simp),
      List.getLast?_append_of_ne_nil _ (by simp)]
    rfl
  · cases has : s.addresses with
    | nil => exact absurd has hne
    | cons a rest =>
      have ha : addrOk a = true := by
        rw [has] at hall
        simp only [List.all_cons, Bool.and_eq_true] at hall
        exact hall.1
      obtain ⟨hane, habom⟩ :=
        goodWord_head_facts _ (format_address_goodWord a ha)
      cases hfa : format_address a with
      | nil => exact absurd hfa hane
      | cons c T =>
        rw [hfa] at habom
        rw [format_addresses, hfa]
        simpa using habom

theorem doc_assemble (s0 : List Char) (e0 : List (TokenKind × List Char))
    (sns : List Snippet) (rts : List NamedRoute) (sts : List SiteBlock)
    (first0 first1 first2 : Bool)
    (hS0 : LexSeg s0 e0)
    (h0nil : s0 = [] ↔ e0 = [])
    (h0last : s0 = [] ∨ s0.getLast? = some '\n')
    (h0head : s0 = [] ∨ s0.head? ≠ some bomChar)
    (hsn : ∀ x ∈ sns, snipWF x = true)
    (hrt : ∀ x ∈ rts, routeWF x = true)
    (hst : ∀ x ∈ sts, siteWF x = true) :
    LexSeg (s0 ++ emit_blocks format_snippet sns first0
        ++ emit_blocks format_named_route rts first1
        ++ emit_blocks format_site_block sts first2)
      (e0 ++ emitEToks snipEToks sns first0
        ++ emitEToks routeEToks rts first1
        ++ emitEToks siteEToks sts first2)
    ∧ ((s0 ++ emit_blocks format_snippet sns first0
        ++ emit_blocks format_named_route rts first1
        ++ emit_blocks format_site_block sts first2) = []
      ↔ (e0 ++ emitEToks snipEToks sns first0
        ++ emitEToks routeEToks rts first1
        ++ emitEToks siteEToks sts first2) = [])
    ∧ ((s0 ++ emit_blocks format_snippet sns first0
        ++ emit_blocks format_named_route rts first1
        ++ emit_blocks format_site_block sts first2) = []
      ∨ (s0 ++ emit_blocks format_snippet sns first0
        ++ emit_blocks format_named_route rts first1
        ++ emit_blocks format_site_block sts first2).getLast? = some '\n')
    ∧ ((s0 ++ emit_blocks format_snippet sns first0
        ++ emit_blocks format_named_route rts first1
        ++ emit_blocks format_site_block sts first2) = []
      ∨ (s0 ++ emit_blocks format_snippet sns first0
        ++ emit_blocks format_named_route rts first1
        ++ emit_blocks format_site_block sts first2).head?
          ≠ some bomChar) := by
  have hS1 := lexSeg_emit format_snippet snipEToks sns
    (fun x hx => lexSeg_snippet x (hsn x hx)) first0
  have hS2 := lexSeg_emit format_named_route routeEToks rts
    (fun x hx => lexSeg_route x (hrt x hx)) first1
  have hS3 := lexSeg_emit format_site_block siteEToks sts
    (fun x hx => lexSeg_site x (hst x hx)) first2
  refine ⟨?_, ?_, ?_, ?_⟩
  · exact LexSeg.comp _ _ _ _ (LexSeg.comp _ _ _ _
      (LexSeg.comp _ _ _ _ hS0 hS1) hS2) hS3
  · have i1 := emit_ne_nil format_snippet sns
      (fun x hx => (snippet_shape x).1) first0
    have i2 := emit_ne_nil format_named_route rts
      (fun x hx => (route_shape x).1) first1
    have i3 := emit_ne_nil format_site_block sts
      (fun x hx => (site_shape x (hst x hx)).1) first2
    have j1 := emitE_ne_nil snipEToks sns
      (fun x hx => by simp [snipEToks]) first0
    have j2 := emitE_ne_nil routeEToks rts
      (fun x hx => by simp [routeEToks]) first1
    have j3 := emitE_ne_nil siteEToks sts
      (fun x hx => by simp [siteEToks]) first2
    simp only [List.append_eq_nil, i1, i2, i3, j1, j2, j3, h0nil]
  · refine nl_last_append _ _ (nl_last_append _ _
      (nl_last_append _ _ h0last ?_) ?_) ?_
    · exact emit_last_nl format_snippet sns
        (fun x hx => (snippet_shape x).2.1) first0
    · exact emit_last_nl format_named_route rts
        (fun x hx => (route_shape x).2.1) first1
    · exact emit_last_nl format_site_block sts
        (fun x hx => (site_shape x (hst x hx)).2.1) first2
  · refine notBom_append _ _ (notBom_append _ _
      (notBom_append _ _ h0head ?_) ?_) ?_
    · exact emit_head_notBom format_snippet sns
        (fun x hx => (snippet_shape x).2.2) first0
    · exact emit_head_notBom format_named_route rts
        (fun x hx => (route_shape x).2.2) first1
    · exact emit_head_notBom format_site_block sts
        (fun x hx => (site_shape x (hst x hx)).2.2) first2

theorem lexSeg_doc (cf : Caddyfile) (h : docWF cf = true) :
    LexSeg (format cf) (docEToks cf)
      ∧ (format cf).head? ≠ some bomChar := by
  obtain ⟨go, sns, rts, sts⟩ := cf
  simp only [docWF, Bool.and_eq_true] at h
  obtain ⟨⟨⟨hg, hsn⟩, hrt⟩, hst⟩ := h
  rw [List.all_eq_true] at hsn hrt hst
  have hmain : ∀ (s0 : List Char) (e0 : List (TokenKind × List Char)),
      LexSeg s0 e0 → (s0 = [] ↔ e0 = []) →
      (s0 = [] ∨ s0.getLast? = some '\n') →
      (s0 = [] ∨ s0.head? ≠ some bomChar) →
      ∀ first0 first1 first2,
      LexSeg
        (match (s0 ++ emit_blocks format_snippet sns first0
            ++ emit_blocks format_named_route rts first1
            ++ emit_blocks format_site_block sts first2).getLast? with
         | some c => if c = '\n'
             then s0 ++ emit_blocks format_snippet sns first0
               ++ emit_blocks format_named_route rts first1
               ++ emit_blocks format_site_block sts first2
             else (s0 ++ emit_blocks format_snippet sns first0
               ++ emit_blocks format_named_route rts first1
               ++ emit_blocks format_site_block sts first2) ++ ['\n']
         | none => (s0 ++ emit_blocks format_snippet sns first0
             ++ emit_blocks format_named_route rts first1
             ++ emit_blocks format_site_block sts first2) ++ ['\n'])
        (if (e0 ++ emitEToks snipEToks sns first0
            ++ emitEToks routeEToks rts first1
            ++ emitEToks siteEToks sts first2) = []
         then [nlETok]
         else e0 ++ emitEToks snipEToks sns first0
            ++ emitEToks routeEToks rts first1
            ++ emitEToks siteEToks sts first2)
      ∧ (match (s0 ++ emit_blocks format_snippet sns first0
            ++ emit_blocks format_named_route rts first1
            ++ emit_blocks format_site_block sts first2).getLast? with
         | some c => if c = '\n'
             then s0 ++ emit_blocks format_snippet sns first0
               ++ emit_blocks format_named_route rts first1
               ++ emit_blocks format_site_block sts first2
             else (s0 ++ emit_blocks format_snippet sns first0
               ++ emit_blocks format_named_route rts first1
               ++ emit_blocks format_site_block sts first2) ++ ['\n']
         | none => (s0 ++ emit_blocks format_snippet sns first0
             ++ emit_blocks format_named_route rts first1
             ++ emit_blocks format_site_block sts first2)
               ++ ['\n']).head? ≠ some bomChar := by
    intro s0 e0 hS0 h0nil h0last h0head first0 first1 first2
    obtain ⟨hseg, hnil, hlast, hhead⟩ :=
      doc_assemble s0 e0 sns rts sts first0 first1 first2 hS0 h0nil
        h0last h0head hsn hrt hst
    by_cases hout : (s0 ++ emit_blocks format_snippet sns first0
        ++ emit_blocks format_named_route rts first1
        ++ emit_blocks format_site_block sts first2) = []
    · rw [hout]
      rw [if_pos (hnil.mp hout)]
      constructor
      · simpa using lexSeg_nl
      · decide
    · rcases hlast with hlast | hlast
      · exact absurd hlast hout
      · rw [hlast]
        dsimp only
        rw [if_pos rfl, if_neg (fun he => hout (hnil.mpr he))]
        refine ⟨hseg, ?_⟩
        rcases hhead with hhead | hhead
        · exact absurd hhead hout
        · exact hhead
  cases go with
  | none =>
    rw [format, docEToks]
    dsimp only
    exact hmain [] [] lexSeg_empty (by simp) (Or.inl rfl) (Or.inl rfl) _ _ _
  | some g =>
    rw [format, docEToks]
    dsimp only
    refine hmain (format_global_options g) (gOptsEToks g)
      (lexSeg_gopts g hg) ?_ (Or.inr (gopts_shape g).2.1)
      (Or.inr (gopts_shape g).2.2) _ _ _
    simp [(gopts_shape g).1, gOptsEToks]

theorem stripBom_id (l : List Char) (h : l.head? ≠ some bomChar) :
    stripBom l = l := by
  cases l with
  | nil => rfl
  | cons c r =>
    rw [stripBom]
    rw [if_neg (fun he => h (by simp [he]))]

theorem lexLoop_nil (fuel : Nat) (line col : Nat) :
    lexLoop fuel [] line col = some (.ok []) := by
  cases fuel <;> rfl

theorem tokenize_format (cf : Caddyfile) (h : docWF cf = true) :
    ∃ ts : List Token, tokenize (format cf) = .ok ts
      ∧ ts.map eraseTok = docEToks cf := by
  obtain ⟨hseg, hbom⟩ := lexSeg_doc cf h
  obtain ⟨n, toks, l', c', hn, he, hr⟩ := hseg 1 1 []
  refine ⟨toks, ?_, he⟩
  rw [tokenize, stripBom_id _ hbom]
  have hfuel := hr ((format cf).length + 1 - n)
  rw [List.append_nil] at hfuel
  rw [show n + ((format cf).length + 1 - n) = (format cf).length + 1
    by omega] at hfuel
  rw [hfuel, lexLoop_nil]
  simp [consToks, Except.map]

theorem erase_nil (ts : List Token) (h : ts.map eraseTok = []) :
    ts = [] := by
  cases ts with
  | nil => rfl
  | cons t ts' => simp at h

theorem erase_cons (ts : List Token) (k : TokenKind) (txt : List Char)
    (es : List (TokenKind × List Char))
    (h : ts.map eraseTok = (k, txt) :: es) :
    ∃ t ts', ts = t :: ts' ∧ t.kind = k ∧ t.text = txt
      ∧ ts'.map eraseTok = es := by
  cases ts with
  | nil => simp at h
  | cons t ts' =>
    simp only [List.map_cons, eraseTok, List.cons.injEq,
      Prod.mk.injEq] at h
    exact ⟨t, ts', rfl, h.1.1, h.1.2, h.2⟩

theorem erase_append (ts : List Token) (A B : List (TokenKind × List Char))
    (h : ts.map eraseTok = A ++ B) :
    ∃ u v, ts = u ++ v ∧ u.map eraseTok = A ∧ v.map eraseTok = B := by
  obtain ⟨u, v, h1, h2, h3⟩ := List.append_eq_map_iff.mp h.symm
  exact ⟨u, v, h1, h2, h3⟩

theorem skipNC_cons_of_not (t : Token) (ts : List Token)
    (h : isNlOrComment t = false) : skipNC (t :: ts) = t :: ts := by
  rw [skipNC, if_neg (by simp [h])]

theorem skipNC_cons_nl (t : Token) (ts : List Token)
    (h : isNlOrComment t = true) : skipNC (t :: ts) = skipNC ts := by
  rw [skipNC, if_pos h]

theorem skipNl_cons_of_not (t : Token) (ts : List Token)
    (h : ¬t.kind = .newline) : skipNl (t :: ts) = t :: ts := by
  rw [skipNl, if_neg (by simpa using h)]

theorem isNlOrComment_of_kind (t : Token) (h : t.kind = .newline) :
    isNlOrComment t = true := by
  rw [isNlOrComment, h]

theorem word_not_nc (t : Token)
    (h : t.kind = .word ∨ t.kind = .quotedString ∨ t.kind = .backtickString
      ∨ (∃ m, t.kind = .heredoc m) ∨ t.kind = .openBrace
      ∨ t.kind = .closeBrace ∨ (∃ n d, t.kind = .envVar n d)) :
    isNlOrComment t = false := by
  rw [isNlOrComment]
  rcases h with h | h | h | ⟨m, h⟩ | h | h | ⟨n, d, h⟩ <;> rw [h]

theorem parse_directives_nl (fuel : Nat) (full : List Token) (t : Token)
    (rem : List Token) (h : isNlOrComment t = true) :
    parse_directives (fuel + 1) full (t :: rem)
      = parse_directives (fuel + 1) full rem := by
  conv_lhs => rw [parse_directives.eq_def]
  conv_rhs => rw [parse_directives.eq_def]
  dsimp only
  rw [skipNC_cons_nl t rem h]

theorem parse_directives_nlList (fuel : Nat) (full : List Token) :
    ∀ (pre : List Token), (∀ t ∈ pre, isNlOrComment t = true) →
    ∀ rem, parse_directives (fuel + 1) full (pre ++ rem)
      = parse_directives (fuel + 1) full rem
  | [], _, rem => by rw [List.nil_append]
  | t :: pre', hall, rem => by
      rw [List.cons_append,
        parse_directives_nl fuel full t _ (hall t (by simp))]
      exact parse_directives_nlList fuel full pre'
        (fun x hx => hall x (List.mem_cons_of_mem t hx)) rem

theorem argsLoop_append : ∀ (args : List Argument) (ts rest : List Token),
    ts.map eraseTok = args.map argETok →
    argsLoop (ts ++ rest) = (args ++ (argsLoop rest).1, (argsLoop rest).2)
  | [], ts, rest, h => by
      rw [erase_nil ts (by simpa using h), List.nil_append]
      simp
  | a :: args', ts, rest, h => by
      rw [List.map_cons] at h
      obtain ⟨t, ts', rfl, hk, htxt, hrest⟩ :=
        erase_cons ts (argETok a).1 (argETok a).2 _ (by simpa using h)
      obtain ⟨k, txt, sp⟩ := t
      dsimp only at hk htxt
      subst hk
      subst htxt
      rw [List.cons_append, argsLoop.eq_def]
      dsimp only
      have hrec := argsLoop_append args' ts' rest hrest
      cases a with
      | unquoted s =>
        dsimp only [argETok]
        rw [hrec]
        simp [token_to_argument, argETok]
      | quoted s =>
        dsimp only [argETok]
        rw [hrec]
        simp [token_to_argument, argETok]
      | backtick s =>
        dsimp only [argETok]
        rw [hrec]
        simp [token_to_argument, argETok]
      | heredoc m c =>
        dsimp only [argETok]
        rw [hrec]
        simp [token_to_argument, argETok]

theorem tpm_default (k : TokenKind) (txt : List Char) (sp : Span)
    (rest : List Token)
    (hk : k ≠ .newline ∧ k ≠ .openBrace ∧ k ≠ .closeBrace ∧ k ≠ .comment)
    (hml : matcherLike txt = false) :
    try_parse_matcher (⟨k, txt, sp⟩ :: rest)
      = (none, ⟨k, txt, sp⟩ :: rest) := by
  simp only [matcherLike, Bool.or_eq_false_iff,
    decide_eq_false_iff_not] at hml
  have hstar : ¬(Token.text ⟨k, txt, sp⟩ = ['*']) := hml.1.1
  have hat : txt.head? ≠ some '@' := hml.1.2
  have hsl : txt.head? ≠ some '/' := hml.2
  have hmain : ∀ rest', try_parse_matcher (⟨k, txt, sp⟩ :: rest')
      = (none, ⟨k, txt, sp⟩ :: rest')
      ∨ (k = .newline ∨ k = .openBrace ∨ k = .closeBrace
          ∨ k = .comment) := by
    intro rest'
    rw [try_parse_matcher]
    cases k with
    | newline => exact Or.inr (Or.inl rfl)
    | openBrace => exact Or.inr (Or.inr (Or.inl rfl))
    | closeBrace => exact Or.inr (Or.inr (Or.inr (Or.inl rfl)))
    | comment => exact Or.inr (Or.inr (Or.inr (Or.inr rfl)))
    | word =>
      left
      dsimp only
      rw [if_neg hstar]
      cases txt with
      | nil => rfl
      | cons c txt' =>
        split
        · rename_i n heq
          rw [List.cons.injEq] at heq
          exact absurd (by simp [heq.1]) hat
        · rename_i p heq
          rw [List.cons.injEq] at heq
          exact absurd (by simp [heq.1]) hsl
        · rfl
    | quotedString =>
      left
      dsimp only
      rw [if_neg hstar]
      cases txt with
      | nil => rfl
      | cons c txt' =>
        split
        · rename_i n heq
          rw [List.cons.injEq] at heq
          exact absurd (by simp [heq.1]) hat
        · rename_i p heq
          rw [List.cons.injEq] at heq
          exact absurd (by simp [heq.1]) hsl
        · rfl
    | backtickString =>
      left
      dsimp only
      rw [if_neg hstar]
      cases txt with
      | nil => rfl
      | cons c txt' =>
        split
        · rename_i n heq
          rw [List.cons.injEq] at heq
          exact absurd (by simp [heq.1]) hat
        · rename_i p heq
          rw [List.cons.injEq] at heq
          exact absurd (by simp [heq.1]) hsl
        · rfl
    | heredoc m =>
      left
      dsimp only
      rw [if_neg hstar]
      cases txt with
      | nil => rfl
      | cons c txt' =>
        split
        · rename_i n heq
          rw [List.cons.injEq] at heq
          exact absurd (by simp [heq.1]) hat
        · rename_i p heq
          rw [List.cons.injEq] at heq
          exact absurd (by simp [heq.1]) hsl
        · rfl
    | envVar n d =>
      left
      dsimp only
      rw [if_neg hstar]
      cases txt with
      | nil => rfl
      | cons c txt' =>
        split
        · rename_i nn heq
          rw [List.cons.injEq] at heq
          exact absurd (by simp [heq.1]) hat
        · rename_i p heq
          rw [List.cons.injEq] at heq
          exact absurd (by simp [heq.1]) hsl
        · rfl
  rcases hmain rest with hm | hm
  · exact hm
  · rcases hm with hm | hm | hm | hm
    · exact absurd hm hk.1
    · exact absurd hm hk.2.1
    · exact absurd hm hk.2.2.1
    · exact absurd hm hk.2.2.2

theorem argsLoop_nl_head (txt : List Char) (sp : Span) (rest : List Token) :
    argsLoop ({ kind := .newline, text := txt, span := sp } :: rest)
      = ([], rest) := rfl

theorem argsLoop_ob_head (txt : List Char) (sp : Span) (rest : List Token) :
    argsLoop ({ kind := .openBrace, text := txt, span := sp } :: rest)
      = ([], { kind := .openBrace, text := txt, span := sp } :: rest) := rfl

theorem ma_phase (m : Option Matcher) (args : List Argument)
    (hm : matcherWF m = true)
    (hguard : m = none →
      ∀ a, args.head? = some a → matcherLike (argText a) = false)
    (ts tail : List Token)
    (hts : ts.map eraseTok = matcherEToks m ++ args.map argETok)
    (htail : ∃ t tl, tail = t :: tl
      ∧ (t.kind = .newline ∨ t.kind = .openBrace)) :
    (try_parse_matcher (ts ++ tail)).1 = m
    ∧ argsLoop ((try_parse_matcher (ts ++ tail)).2)
        = (args ++ (argsLoop tail).1, (argsLoop tail).2) := by
  obtain ⟨u, v, rfl, hu, hv⟩ := erase_append ts _ _ hts
  cases m with
  | none =>
    have hu0 : u = [] := erase_nil u (by simpa [matcherEToks] using hu)
    subst hu0
    rw [List.nil_append]
    have htpm : try_parse_matcher (v ++ tail) = (none, v ++ tail) := by
      cases args with
      | nil =>
        rw [erase_nil v (by simpa using hv), List.nil_append]
        obtain ⟨t, tl, rfl, hk⟩ := htail
        obtain ⟨k, txt, sp⟩ := t
        dsimp only at hk
        rcases hk with rfl | rfl
        · rfl
        · rfl
      | cons a args' =>
        have hml : matcherLike (argText a) = false :=
          hguard rfl a rfl
        cases a with
        | unquoted s =>
          rw [List.map_cons] at hv
          obtain ⟨t, v', rfl, hk, htxt, _⟩ := erase_cons v _ _ _ hv
          obtain ⟨k, txt, sp⟩ := t
          dsimp only at hk htxt
          subst hk
          subst htxt
          rw [List.cons_append]
          exact tpm_default _ _ _ _
            ⟨by simp, by simp, by simp, by simp⟩ hml
        | quoted s =>
          rw [List.map_cons] at hv
          obtain ⟨t, v', rfl, hk, htxt, _⟩ := erase_cons v _ _ _ hv
          obtain ⟨k, txt, sp⟩ := t
          dsimp only at hk htxt
          subst hk
          subst htxt
          rw [List.cons_append]
          exact tpm_default _ _ _ _
            ⟨by simp, by simp, by simp, by simp⟩ hml
        | backtick s =>
          rw [List.map_cons] at hv
          obtain ⟨t, v', rfl, hk, htxt, _⟩ := erase_cons v _ _ _ hv
          obtain ⟨k, txt, sp⟩ := t
          dsimp only at hk htxt
          subst hk
          subst htxt
          rw [List.cons_append]
          exact tpm_default _ _ _ _
            ⟨by simp, by simp, by simp, by simp⟩ hml
        | heredoc mk c =>
          rw [List.map_cons] at hv
          obtain ⟨t, v', rfl, hk, htxt, _⟩ := erase_cons v _ _ _ hv
          obtain ⟨k, txt, sp⟩ := t
          dsimp only at hk htxt
          subst hk
          subst htxt
          rw [List.cons_append]
          exact tpm_default _ _ _ _
            ⟨by simp, by simp, by simp, by simp⟩ hml
    rw [htpm]
    exact ⟨rfl, argsLoop_append args v tail hv⟩
  | some mm =>
    cases mm with
    | all =>
      obtain ⟨t, u', rfl, hk, htxt, hu'⟩ :=
        erase_cons u .word ['*'] [] (by simpa [matcherEToks] using hu)
      obtain ⟨k, txt, sp⟩ := t
      dsimp only at hk htxt
      subst hk
      subst htxt
      rw [erase_nil u' hu']
      simp only [List.cons_append, List.nil_append, List.append_assoc]
      have htpm2 : try_parse_matcher
          (({ kind := .word, text := ['*'], span := sp } : Token)
            :: (v ++ tail))
          = (some .all, v ++ tail) := rfl
      rw [htpm2]
      exact ⟨rfl, argsLoop_append args v tail hv⟩
    | named n =>
      obtain ⟨t, u', rfl, hk, htxt, hu'⟩ :=
        erase_cons u .word ('@' :: n) [] (by simpa [matcherEToks] using hu)
      obtain ⟨k, txt, sp⟩ := t
      dsimp only at hk htxt
      subst hk
      subst htxt
      rw [erase_nil u' hu']
      simp only [List.cons_append, List.nil_append, List.append_assoc]
      have htpm2 : try_parse_matcher
          (({ kind := .word, text := '@' :: n, span := sp } : Token)
            :: (v ++ tail))
          = (some (.named n), v ++ tail) := rfl
      rw [htpm2]
      exact ⟨rfl, argsLoop_append args v tail hv⟩
    | path p =>
      have hp : p.head? = some '/' ∧ p.all wordChar = true := by
        simpa [matcherWF] using hm
      cases p with
      | nil => simp [List.head?] at hp
      | cons c p' =>
        have hc : c = '/' := by simpa [List.head?] using hp.1
        subst hc
        obtain ⟨t, u', rfl, hk, htxt, hu'⟩ :=
          erase_cons u .word ('/' :: p') []
            (by simpa [matcherEToks] using hu)
        obtain ⟨k, txt, sp⟩ := t
        dsimp only at hk htxt
        subst hk
        subst htxt
        rw [erase_nil u' hu']
        simp only [List.cons_append, List.nil_append, List.append_assoc]
        have htpm2 : try_parse_matcher
            (({ kind := .word, text := '/' :: p', span := sp } : Token)
              :: (v ++ tail))
            = (some (.path ('/' :: p')), v ++ tail) := rfl
        rw [htpm2]
        exact ⟨rfl, argsLoop_append args v tail hv⟩

theorem expect_open_brace_round (full : List Token) (txt : List Char)
    (sp : Span) (rest : List Token) :
    expect_open_brace full
      ({ kind := .openBrace, text := txt, span := sp } :: rest)
      = .ok rest := rfl

theorem expect_close_brace_round (full : List Token) (txt : List Char)
    (sp : Span) (rest : List Token) :
    expect_close_brace full
      ({ kind := .closeBrace, text := txt, span := sp } :: rest)
      = .ok rest := rfl

theorem rest_not_ob (v rest : List Token)
    (E : List (TokenKind × List Char)) (hv : v.map eraseTok = E)
    (hE : E = [] ∨ ∃ k txt es, E = (k, txt) :: es ∧ k ≠ TokenKind.openBrace)
    (hrest : rest = [] ∨ ∃ t tl, rest = t :: tl ∧ t.kind = .closeBrace) :
    v ++ rest = [] ∨ ∃ t tl, v ++ rest = t :: tl ∧ t.kind ≠ .openBrace := by
  rcases hE with hE | ⟨k, txt, es, hE, hk⟩
  · subst hE
    rw [erase_nil v hv, List.nil_append]
    rcases hrest with hrest | ⟨t, tl, rfl, ht⟩
    · exact Or.inl hrest
    · refine Or.inr ⟨t, tl, rfl, ?_⟩
      simp [ht]
  · subst hE
    obtain ⟨t, v', rfl, hkind, _, _⟩ := erase_cons v k txt es hv
    refine Or.inr ⟨t, v' ++ rest, by simp, ?_⟩
    rw [hkind]
    exact hk

theorem parse_directive_round_nb (name : List Char) (m : Option Matcher)
    (args : List Argument)
    (hwf : dirWF (.mk name m args none) = true)
    (fuel : Nat) (full : List Token) (tname : Token)
    (ts rest : List Token) (htname : tname.text = name)
    (hts : ts.map eraseTok
      = matcherEToks m ++ args.map argETok ++ [nlETok])
    (hrest : rest = [] ∨ ∃ t tl, rest = t :: tl ∧ t.kind ≠ .openBrace) :
    parse_directive (fuel + 1) full tname (ts ++ rest)
      = some (.ok (.mk name m args none, rest)) := by
  subst htname
  simp only [dirWF, Bool.and_eq_true] at hwf
  obtain ⟨⟨⟨⟨hname, hm⟩, hargs⟩, hguard⟩, _⟩ := hwf
  obtain ⟨mav, nlts, rfl, hmav, hnl⟩ := erase_append ts _ [nlETok] hts
  obtain ⟨tn, nlnil, rfl, hknl, _, hnil⟩ :=
    erase_cons nlts .newline ['\n'] [] (by simpa using hnl)
  rw [erase_nil _ hnil]
  obtain ⟨kn, txtn, spn⟩ := tn
  dsimp only at hknl
  subst hknl
  simp only [List.append_assoc, List.cons_append, List.nil_append]
  have hguard' : m = none →
      ∀ a, args.head? = some a → matcherLike (argText a) = false := by
    intro hm0 a ha
    subst hm0
    rw [ha] at hguard
    simpa using hguard
  obtain ⟨ma1, ma2⟩ := ma_phase m args hm hguard' mav
    ({ kind := .newline, text := txtn, span := spn } :: rest) hmav
    ⟨_, rest, rfl, Or.inl rfl⟩
  rw [argsLoop_nl_head] at ma2
  rw [parse_directive.eq_def]
  dsimp only
  rw [ma2, ma1]
  dsimp only
  rcases hrest with rfl | ⟨t2, tl2, rfl, ht2⟩
  · simp
  · dsimp only
    rw [if_neg (by simpa using ht2)]
    simp

theorem argsLoop_nl_head2 (t : Token) (rest : List Token)
    (h : t.kind = .newline) : argsLoop (t :: rest) = ([], rest) := by
  obtain ⟨k, txt, sp⟩ := t
  dsimp only at h
  subst h
  rfl

theorem argsLoop_ob_head2 (t : Token) (rest : List Token)
    (h : t.kind = .openBrace) :
    argsLoop (t :: rest) = ([], t :: rest) := by
  obtain ⟨k, txt, sp⟩ := t
  dsimp only at h
  subst h
  rfl

theorem expect_open_brace_round2 (full : List Token) (t : Token)
    (rest : List Token) (h : t.kind = .openBrace) :
    expect_open_brace full (t :: rest) = .ok rest := by
  obtain ⟨k, txt, sp⟩ := t
  dsimp only at h
  subst h
  rfl

theorem expect_close_brace_round2 (full : List Token) (t : Token)
    (rest : List Token) (h : t.kind = .closeBrace) :
    expect_close_brace full (t :: rest) = .ok rest := by
  obtain ⟨k, txt, sp⟩ := t
  dsimp only at h
  subst h
  rfl

theorem dirEToks_head : ∀ d : Directive,
    ∃ es, dirEToks d = (.word, d.name) :: es
  | .mk n m a none =>
      ⟨matcherEToks m ++ a.map argETok ++ [nlETok], rfl⟩
  | .mk n m a (some bb) =>
      ⟨matcherEToks m ++ a.map argETok
        ++ ((TokenKind.openBrace, [braceL]) :: nlETok ::
            (dirsEToksSp bb ++ [(TokenKind.closeBrace, [braceR]), nlETok])),
       rfl⟩

theorem dirsEToks_shape : ∀ ds : Dirs,
    ds = .nil ∨ ∃ txt es, dirsEToks ds = (.word, txt) :: es
  | .nil => Or.inl rfl
  | .cons d ds' => by
      obtain ⟨es, he⟩ := dirEToks_head d
      refine Or.inr ⟨d.name, es ++ dirsEToks ds', ?_⟩
      rw [show dirsEToks (.cons d ds') = dirEToks d ++ dirsEToks ds'
        from rfl, he]
      simp

theorem spEToksRest_shape : ∀ (ds : Dirs) (ph : Bool),
    ds = .nil ∨ ∃ k txt es, spEToksRest ds ph = (k, txt) :: es
      ∧ (k = TokenKind.newline ∨ k = TokenKind.word)
  | .nil, _ => Or.inl rfl
  | .cons d ds', ph => by
      obtain ⟨es, he⟩ := dirEToks_head d
      by_cases hc : (d.hasBlock || ph) = true
      · refine Or.inr ⟨.newline, ['\n'],
          dirEToks d ++ spEToksRest ds' d.hasBlock, ?_, Or.inl rfl⟩
        rw [show spEToksRest (.cons d ds') ph
            = (if d.hasBlock || ph then [nlETok] else [])
              ++ dirEToks d ++ spEToksRest ds' d.hasBlock from rfl,
          if_pos hc]
        simp [nlETok]
      · refine Or.inr ⟨.word, d.name,
          es ++ spEToksRest ds' d.hasBlock, ?_, Or.inr rfl⟩
        rw [show spEToksRest (.cons d ds') ph
            = (if d.hasBlock || ph then [nlETok] else [])
              ++ dirEToks d ++ spEToksRest ds' d.hasBlock from rfl,
          if_neg hc, he]
        simp

mutual

theorem parse_directive_round_b :
    ∀ (name : List Char) (m : Option Matcher) (args : List Argument)
      (b : Dirs),
    dirWF (.mk name m args (some b)) = true →
    ∀ fuel : Nat, dirsFuel b + 1 ≤ fuel →
    ∀ (full : List Token) (tname : Token) (ts rest : List Token),
    tname.text = name →
    ts.map eraseTok = matcherEToks m ++ args.map argETok
      ++ ((TokenKind.openBrace, [braceL]) :: nlETok ::
          (dirsEToksSp b ++ [(TokenKind.closeBrace, [braceR]), nlETok])) →
    ∃ lt : Token, lt.kind = .newline ∧
      parse_directive fuel full tname (ts ++ rest)
        = some (.ok (.mk name m args (some b), lt :: rest))
  | name, m, args, b, hwf, fuel, hfuel, full, tname, ts, rest, htname,
      hts => by
      obtain ⟨f, rfl⟩ : ∃ f, fuel = f + 1 := ⟨fuel - 1, by omega⟩
      obtain ⟨f2, rfl⟩ : ∃ f2, f = f2 + 1 := by
        refine ⟨f - 1, ?_⟩
        have : 1 ≤ dirsFuel b := by
          cases b with
          | nil => exact le_refl 1
          | cons d ds =>
            rw [show dirsFuel (.cons d ds)
              = max (dirFuel d) (dirsFuel ds) + 1 from rfl]
            omega
        omega
      subst htname
      simp only [dirWF, Bool.and_eq_true] at hwf
      obtain ⟨⟨⟨⟨hname, hm⟩, hargs⟩, hguard⟩, hb⟩ := hwf
      obtain ⟨mav, brest, rfl, hmav, hbrest⟩ := erase_append ts _ _ hts
      obtain ⟨tob, brest1, rfl, hkob, _, hbrest1⟩ :=
        erase_cons brest .openBrace [braceL] _ hbrest
      obtain ⟨tn1, brest2, rfl, hkn1, _, hbrest2⟩ :=
        erase_cons brest1 .newline ['\n'] _ (by simpa [nlETok] using hbrest1)
      obtain ⟨bodyts, tailts, rfl, hbody, htail⟩ :=
        erase_append brest2 _ _ hbrest2
      obtain ⟨tcb, tail1, rfl, hkcb, _, htail1⟩ :=
        erase_cons tailts .closeBrace [braceR] _ htail
      obtain ⟨tn2, tail2, rfl, hkn2, _, htail2⟩ :=
        erase_cons tail1 .newline ['\n'] _ (by simpa [nlETok] using htail1)
      rw [erase_nil _ htail2]
      have hguard' : m = none →
          ∀ a, args.head? = some a → matcherLike (argText a) = false := by
        intro hm0 a ha
        subst hm0
        rw [ha] at hguard
        simpa using hguard
      simp only [List.append_assoc, List.cons_append, List.nil_append,
        List.append_nil]
      obtain ⟨ma1, ma2⟩ := ma_phase m args hm hguard' mav
        (tob :: (tn1 :: (bodyts ++ (tcb :: (tn2 :: rest))))) hmav
        ⟨tob, _, rfl, Or.inr hkob⟩
      rw [argsLoop_ob_head2 tob _ hkob] at ma2
      simp only [List.append_nil] at ma2
      refine ⟨tn2, hkn2, ?_⟩
      rw [parse_directive.eq_def]
      dsimp only
      rw [ma2, ma1]
      dsimp only
      rw [if_pos hkob]
      rw [parse_directives_nl f2 full tn1 _ (isNlOrComment_of_kind tn1 hkn1)]
      rw [parse_directives_round_sp b hb (f2 + 1) (by omega) full bodyts
        (tcb :: (tn2 :: rest)) hbody (Or.inr ⟨tcb, _, rfl, hkcb⟩)]
      dsimp only
      rw [expect_close_brace_round2 full tcb _ hkcb]
  termination_by nm mm aa b _ _ _ _ _ _ _ _ _ => (sizeOf b, 1)

theorem parse_directives_round :
    ∀ (ds : Dirs), dirsWF ds = true →
    ∀ fuel : Nat, dirsFuel ds ≤ fuel →
    ∀ (full ts rest : List Token),
    ts.map eraseTok = dirsEToks ds →
    (rest = [] ∨ ∃ t tl, rest = t :: tl ∧ t.kind = .closeBrace) →
    parse_directives fuel full (ts ++ rest) = some (.ok (ds, rest))
  | .nil, _, fuel, hfuel, full, ts, rest, hts, hrest => by
      obtain ⟨f, rfl⟩ : ∃ f, fuel = f + 1 := ⟨fuel - 1, by
        rw [show dirsFuel .nil = 1 from rfl] at hfuel
        omega⟩
      rw [erase_nil ts (by simpa [show dirsEToks .nil = [] from rfl]
        using hts), List.nil_append]
      rw [parse_directives.eq_def]
      dsimp only
      rcases hrest with rfl | ⟨t, tl, rfl, ht⟩
      · rfl
      · rw [skipNC_cons_of_not t tl (word_not_nc t
          (Or.inr (Or.inr (Or.inr (Or.inr (Or.inr (Or.inl ht)))))))]
        dsimp only
        rw [if_pos ht]
  | .cons (.mk nm mm aa none) ds', hwf, fuel, hfuel, full, ts, rest,
      hts, hrest => by
      have hfw : dirWF (.mk nm mm aa none) = true ∧ dirsWF ds' = true := by
        simpa [dirsWF] using hwf
      rw [show dirsFuel (.cons (.mk nm mm aa none) ds')
        = max (dirFuel (.mk nm mm aa none)) (dirsFuel ds') + 1 from rfl,
        show dirFuel (.mk nm mm aa none) = 1 from rfl] at hfuel
      obtain ⟨f, rfl⟩ : ∃ f, fuel = f + 1 := ⟨fuel - 1, by omega⟩
      obtain ⟨f', rfl⟩ : ∃ f', f = f' + 1 := ⟨f - 1, by omega⟩
      rw [show dirsEToks (.cons (.mk nm mm aa none) ds')
        = dirEToks (.mk nm mm aa none) ++ dirsEToks ds' from rfl,
        show dirEToks (.mk nm mm aa none)
        = (TokenKind.word, nm) :: (matcherEToks mm ++ aa.map argETok
            ++ [nlETok]) from rfl] at hts
      obtain ⟨dts, rts, rfl, hdts, hrts⟩ := erase_append ts _ _ hts
      obtain ⟨tname, dts', rfl, hknm, htnm, hdts'⟩ :=
        erase_cons dts .word nm _ hdts
      simp only [List.cons_append, List.append_assoc]
      rw [parse_directives.eq_def]
      dsimp only
      rw [skipNC_cons_of_not tname _ (word_not_nc tname (Or.inl hknm))]
      dsimp only
      rw [if_neg (by simp [hknm])]
      have hrob : rts ++ rest = []
          ∨ ∃ t tl, rts ++ rest = t :: tl ∧ t.kind ≠ .openBrace := by
        refine rest_not_ob rts rest _ hrts ?_ hrest
        rcases dirsEToks_shape ds' with hnil | ⟨txt, es, he⟩
        · subst hnil
          exact Or.inl rfl
        · exact Or.inr ⟨.word, txt, es, he, by simp⟩
      rw [parse_directive_round_nb nm mm aa hfw.1 f' full tname dts'
        (rts ++ rest) htnm hdts' hrob]
      dsimp only
      rw [parse_directives_round ds' hfw.2 (f' + 1) (by omega) full rts
        rest hrts hrest]
  | .cons (.mk nm mm aa (some bb)) ds', hwf, fuel, hfuel, full, ts, rest,
      hts, hrest => by
      have hfw : dirWF (.mk nm mm aa (some bb)) = true
          ∧ dirsWF ds' = true := by
        simpa [dirsWF] using hwf
      rw [show dirsFuel (.cons (.mk nm mm aa (some bb)) ds')
        = max (dirFuel (.mk nm mm aa (some bb))) (dirsFuel ds') + 1
        from rfl,
        show dirFuel (.mk nm mm aa (some bb)) = dirsFuel bb + 1
        from rfl] at hfuel
      obtain ⟨f, rfl⟩ : ∃ f, fuel = f + 1 := ⟨fuel - 1, by omega⟩
      have hf1 : 1 ≤ dirsFuel ds' := by
        cases ds' with
        | nil => exact le_refl 1
        | cons d2 ds2 =>
          rw [show dirsFuel (.cons d2 ds2)
            = max (dirFuel d2) (dirsFuel ds2) + 1 from rfl]
          omega
      obtain ⟨f2, rfl⟩ : ∃ f2, f = f2 + 1 := ⟨f - 1, by omega⟩
      rw [show dirsEToks (.cons (.mk nm mm aa (some bb)) ds')
        = dirEToks (.mk nm mm aa (some bb)) ++ dirsEToks ds' from rfl,
        show dirEToks (.mk nm mm aa (some bb))
        = (TokenKind.word, nm) :: (matcherEToks mm ++ aa.map argETok
            ++ ((TokenKind.openBrace, [braceL]) :: nlETok ::
              (dirsEToksSp bb
                ++ [(TokenKind.closeBrace, [braceR]), nlETok])))
        from rfl] at hts
      obtain ⟨dts, rts, rfl, hdts, hrts⟩ := erase_append ts _ _ hts
      obtain ⟨tname, dts', rfl, hknm, htnm, hdts'⟩ :=
        erase_cons dts .word nm _ hdts
      simp only [List.cons_append, List.append_assoc]
      rw [parse_directives.eq_def]
      dsimp only
      rw [skipNC_cons_of_not tname _ (word_not_nc tname (Or.inl hknm))]
      dsimp only
      rw [if_neg (by simp [hknm])]
      obtain ⟨lt, hlt, heq⟩ := parse_directive_round_b nm mm aa bb hfw.1
        (f2 + 1) (by omega) full tname dts' (rts ++ rest) htnm hdts'
      rw [heq]
      dsimp only
      rw [parse_directives_nl f2 full lt _ (isNlOrComment_of_kind lt hlt)]
      rw [parse_directives_round ds' hfw.2 (f2 + 1) (by omega) full rts
        rest hrts hrest]
  termination_by ds _ _ _ _ _ _ _ _ => (sizeOf ds, 0)

theorem parse_directives_round_sp :
    ∀ (ds : Dirs), dirsWF ds = true →
    ∀ fuel : Nat, dirsFuel ds ≤ fuel →
    ∀ (full ts rest : List Token),
    ts.map eraseTok = dirsEToksSp ds →
    (rest = [] ∨ ∃ t tl, rest = t :: tl ∧ t.kind = .closeBrace) →
    parse_directives fuel full (ts ++ rest) = some (.ok (ds, rest))
  | .nil, _, fuel, hfuel, full, ts, rest, hts, hrest => by
      obtain ⟨f, rfl⟩ : ∃ f, fuel = f + 1 := ⟨fuel - 1, by
        rw [show dirsFuel .nil = 1 from rfl] at hfuel
        omega⟩
      rw [erase_nil ts (by simpa [show dirsEToksSp .nil = [] from rfl]
        using hts), List.nil_append]
      rw [parse_directives.eq_def]
      dsimp only
      rcases hrest with rfl | ⟨t, tl, rfl, ht⟩
      · rfl
      · rw [skipNC_cons_of_not t tl (word_not_nc t
          (Or.inr (Or.inr (Or.inr (Or.inr (Or.inr (Or.inl ht)))))))]
        dsimp only
        rw [if_pos ht]
  | .cons (.mk nm mm aa none) ds', hwf, fuel, hfuel, full, ts, rest,
      hts, hrest => by
      have hfw : dirWF (.mk nm mm aa none) = true ∧ dirsWF ds' = true := by
        simpa [dirsWF] using hwf
      rw [show dirsFuel (.cons (.mk nm mm aa none) ds')
        = max (dirFuel (.mk nm mm aa none)) (dirsFuel ds') + 1 from rfl,
        show dirFuel (.mk nm mm aa none) = 1 from rfl] at hfuel
      obtain ⟨f, rfl⟩ : ∃ f, fuel = f + 1 := ⟨fuel - 1, by omega⟩
      obtain ⟨f', rfl⟩ : ∃ f', f = f' + 1 := ⟨f - 1, by omega⟩
      rw [show dirsEToksSp (.cons (.mk nm mm aa none) ds')
        = dirEToks (.mk nm mm aa none)
          ++ spEToksRest ds' (Directive.mk nm mm aa none).hasBlock
        from rfl,
        show dirEToks (.mk nm mm aa none)
        = (TokenKind.word, nm) :: (matcherEToks mm ++ aa.map argETok
            ++ [nlETok]) from rfl] at hts
      obtain ⟨dts, rts, rfl, hdts, hrts⟩ := erase_append ts _ _ hts
      obtain ⟨tname, dts', rfl, hknm, htnm, hdts'⟩ :=
        erase_cons dts .word nm _ hdts
      simp only [List.cons_append, List.append_assoc]
      rw [parse_directives.eq_def]
      dsimp only
      rw [skipNC_cons_of_not tname _ (word_not_nc tname (Or.inl hknm))]
      dsimp only
      rw [if_neg (by simp [hknm])]
      have hrob : rts ++ rest = []
          ∨ ∃ t tl, rts ++ rest = t :: tl ∧ t.kind ≠ .openBrace := by
        refine rest_not_ob rts rest _ hrts ?_ hrest
        rcases spEToksRest_shape ds' (Directive.mk nm mm aa none).hasBlock
          with hnil | ⟨k, txt, es, he, hk⟩
        · subst hnil
          exact Or.inl rfl
        · refine Or.inr ⟨k, txt, es, he, ?_⟩
          rcases hk with rfl | rfl <;> simp
      rw [parse_directive_round_nb nm mm aa hfw.1 f' full tname dts'
        (rts ++ rest) htnm hdts' hrob]
      dsimp only
      rw [parse_directives_round_spr ds'
        (Directive.mk nm mm aa none).hasBlock hfw.2 (f' + 1) (by omega)
        full rts rest hrts hrest]
  | .cons (.mk nm mm aa (some bb)) ds', hwf, fuel, hfuel, full, ts, rest,
      hts, hrest => by
      have hfw : dirWF (.mk nm mm aa (some bb)) = true
          ∧ dirsWF ds' = true := by
        simpa [dirsWF] using hwf
      rw [show dirsFuel (.cons (.mk nm mm aa (some bb)) ds')
        = max (dirFuel (.mk nm mm aa (some bb))) (dirsFuel ds') + 1
        from rfl,
        show dirFuel (.mk nm mm aa (some bb)) = dirsFuel bb + 1
        from rfl] at hfuel
      obtain ⟨f, rfl⟩ : ∃ f, fuel = f + 1 := ⟨fuel - 1, by omega⟩
      have hf1 : 1 ≤ dirsFuel ds' := by
        cases ds' with
        | nil => exact le_refl 1
        | cons d2 ds2 =>
          rw [show dirsFuel (.cons d2 ds2)
            = max (dirFuel d2) (dirsFuel ds2) + 1 from rfl]
          omega
      obtain ⟨f2, rfl⟩ : ∃ f2, f = f2 + 1 := ⟨f - 1, by omega⟩
      rw [show dirsEToksSp (.cons (.mk nm mm aa (some bb)) ds')
        = dirEToks (.mk nm mm aa (some bb))
          ++ spEToksRest ds' (Directive.mk nm mm aa (some bb)).hasBlock
        from rfl,
        show dirEToks (.mk nm mm aa (some bb))
        = (TokenKind.word, nm) :: (matcherEToks mm ++ aa.map argETok
            ++ ((TokenKind.openBrace, [braceL]) :: nlETok ::
              (dirsEToksSp bb
                ++ [(TokenKind.closeBrace, [braceR]), nlETok])))
        from rfl] at hts
      obtain ⟨dts, rts, rfl, hdts, hrts⟩ := erase_append ts _ _ hts
      obtain ⟨tname, dts', rfl, hknm, htnm, hdts'⟩ :=
        erase_cons dts .word nm _ hdts
      simp only [List.cons_append, List.append_assoc]
      rw [parse_directives.eq_def]
      dsimp only
      rw [skipNC_cons_of_not tname _ (word_not_nc tname (Or.inl hknm))]
      dsimp only
      rw [if_neg (by simp [hknm])]
      obtain ⟨lt, hlt, heq⟩ := parse_directive_round_b nm mm aa bb hfw.1
        (f2 + 1) (by omega) full tname dts' (rts ++ rest) htnm hdts'
      rw [heq]
      dsimp only
      rw [parse_directives_nl f2 full lt _ (isNlOrComment_of_kind lt hlt)]
      rw [parse_directives_round_spr ds'
        (Directive.mk nm mm aa (some bb)).hasBlock hfw.2 (f2 + 1)
        (by omega) full rts rest hrts hrest]
  termination_by ds _ _ _ _ _ _ _ _ => (sizeOf ds, 0)

theorem parse_directives_round_spr :
    ∀ (ds : Dirs) (prevHad : Bool), dirsWF ds = true →
    ∀ fuel : Nat, dirsFuel ds ≤ fuel →
    ∀ (full ts rest : List Token),
    ts.map eraseTok = spEToksRest ds prevHad →
    (rest = [] ∨ ∃ t tl, rest = t :: tl ∧ t.kind = .closeBrace) →
    parse_directives fuel full (ts ++ rest) = some (.ok (ds, rest))
  | .nil, _, _, fuel, hfuel, full, ts, rest, hts, hrest => by
      obtain ⟨f, rfl⟩ : ∃ f, fuel = f + 1 := ⟨fuel - 1, by
        rw [show dirsFuel .nil = 1 from rfl] at hfuel
        omega⟩
      rw [erase_nil ts (by simpa [show ∀ ph, spEToksRest .nil ph = []
        from fun _ => rfl] using hts), List.nil_append]
      rw [parse_directives.eq_def]
      dsimp only
      rcases hrest with rfl | ⟨t, tl, rfl, ht⟩
      · rfl
      · rw [skipNC_cons_of_not t tl (word_not_nc t
          (Or.inr (Or.inr (Or.inr (Or.inr (Or.inr (Or.inl ht)))))))]
        dsimp only
        rw [if_pos ht]
  | .cons (.mk nm mm aa none) ds', prevHad, hwf, fuel, hfuel, full, ts,
      rest, hts, hrest => by
      have hfw : dirWF (.mk nm mm aa none) = true ∧ dirsWF ds' = true := by
        simpa [dirsWF] using hwf
      rw [show dirsFuel (.cons (.mk nm mm aa none) ds')
        = max (dirFuel (.mk nm mm aa none)) (dirsFuel ds') + 1 from rfl,
        show dirFuel (.mk nm mm aa none) = 1 from rfl] at hfuel
      obtain ⟨f, rfl⟩ : ∃ f, fuel = f + 1 := ⟨fuel - 1, by omega⟩
      obtain ⟨f', rfl⟩ : ∃ f', f = f' + 1 := ⟨f - 1, by omega⟩
      rw [show spEToksRest (.cons (.mk nm mm aa none) ds') prevHad
        = (if (Directive.mk nm mm aa none).hasBlock || prevHad
            then [nlETok] else [])
          ++ dirEToks (.mk nm mm aa none)
          ++ spEToksRest ds' (Directive.mk nm mm aa none).hasBlock
        from rfl, List.append_assoc] at hts
      obtain ⟨septs, ts2, rfl, hsep, hts2⟩ := erase_append ts _ _ hts
      have habs : parse_directives (f' + 1 + 1) full
          ((septs ++ ts2) ++ rest)
          = parse_directives (f' + 1 + 1) full (ts2 ++ rest) := by
        rw [List.append_assoc]
        refine parse_directives_nlList (f' + 1) full septs ?_ (ts2 ++ rest)
        intro t ht
        by_cases hc : ((Directive.mk nm mm aa none).hasBlock || prevHad)
            = true
        · rw [if_pos hc] at hsep
          obtain ⟨tn, tnil, heq2, hk, _, hnil⟩ :=
            erase_cons septs .newline ['\n'] []
              (by simpa [nlETok] using hsep)
          rw [heq2] at ht
          rw [erase_nil _ hnil] at ht
          simp only [List.mem_singleton] at ht
          rw [ht]
          exact isNlOrComment_of_kind tn hk
        · rw [if_neg hc] at hsep
          rw [erase_nil septs (by simpa using hsep)] at ht
          simp at ht
      rw [habs]
      rw [show dirEToks (.mk nm mm aa none)
        = (TokenKind.word, nm) :: (matcherEToks mm ++ aa.map argETok
            ++ [nlETok]) from rfl] at hts2
      obtain ⟨dts, rts, rfl, hdts, hrts⟩ := erase_append ts2 _ _ hts2
      obtain ⟨tname, dts', rfl, hknm, htnm, hdts'⟩ :=
        erase_cons dts .word nm _ hdts
      simp only [List.cons_append, List.append_assoc]
      rw [parse_directives.eq_def]
      dsimp only
      rw [skipNC_cons_of_not tname _ (word_not_nc tname (Or.inl hknm))]
      dsimp only
      rw [if_neg (by simp [hknm])]
      have hrob : rts ++ rest = []
          ∨ ∃ t tl, rts ++ rest = t :: tl ∧ t.kind ≠ .openBrace := by
        refine rest_not_ob rts rest _ hrts ?_ hrest
        rcases spEToksRest_shape ds' (Directive.mk nm mm aa none).hasBlock
          with hnil | ⟨k, txt, es, he, hk⟩
        · subst hnil
          exact Or.inl rfl
        · refine Or.inr ⟨k, txt, es, he, ?_⟩
          rcases hk with rfl | rfl <;> simp
      rw [parse_directive_round_nb nm mm aa hfw.1 f' full tname dts'
        (rts ++ rest) htnm hdts' hrob]
      dsimp only
      rw [parse_directives_round_spr ds'
        (Directive.mk nm mm aa none).hasBlock hfw.2 (f' + 1) (by omega)
        full rts rest hrts hrest]
  | .cons (.mk nm mm aa (some bb)) ds', prevHad, hwf, fuel, hfuel, full,
      ts, rest, hts, hrest => by
      have hfw : dirWF (.mk nm mm aa (some bb)) = true
          ∧ dirsWF ds' = true := by
        simpa [dirsWF] using hwf
      rw [show dirsFuel (.cons (.mk nm mm aa (some bb)) ds')
        = max (dirFuel (.mk nm mm aa (some bb))) (dirsFuel ds') + 1
        from rfl,
        show dirFuel (.mk nm mm aa (some bb)) = dirsFuel bb + 1
        from rfl] at hfuel
      obtain ⟨f, rfl⟩ : ∃ f, fuel = f + 1 := ⟨fuel - 1, by omega⟩
      have hf1 : 1 ≤ dirsFuel ds' := by
        cases ds' with
        | nil => exact le_refl 1
        | cons d2 ds2 =>
          rw [show dirsFuel (.cons d2 ds2)
            = max (dirFuel d2) (dirsFuel ds2) + 1 from rfl]
          omega
      obtain ⟨f2, rfl⟩ : ∃ f2, f = f2 + 1 := ⟨f - 1, by omega⟩
      rw [show spEToksRest (.cons (.mk nm mm aa (some bb)) ds') prevHad
        = (if (Directive.mk nm mm aa (some bb)).hasBlock || prevHad
            then [nlETok] else [])
          ++ dirEToks (.mk nm mm aa (some bb))
          ++ spEToksRest ds' (Directive.mk nm mm aa (some bb)).hasBlock
        from rfl, List.append_assoc] at hts
      obtain ⟨septs, ts2, rfl, hsep, hts2⟩ := erase_append ts _ _ hts
      have habs : parse_directives (f2 + 1 + 1) full
          ((septs ++ ts2) ++ rest)
          = parse_directives (f2 + 1 + 1) full (ts2 ++ rest) := by
        rw [List.append_assoc]
        refine parse_directives_nlList (f2 + 1) full septs ?_ (ts2 ++ rest)
        intro t ht
        by_cases hc : ((Directive.mk nm mm aa (some bb)).hasBlock
            || prevHad) = true
        · rw [if_pos hc] at hsep
          obtain ⟨tn, tnil, heq2, hk, _, hnil⟩ :=
            erase_cons septs .newline ['\n'] []
              (by simpa [nlETok] using hsep)
          rw [heq2] at ht
          rw [erase_nil _ hnil] at ht
          simp only [List.mem_singleton] at ht
          rw [ht]
          exact isNlOrComment_of_kind tn hk
        · rw [if_neg hc] at hsep
          rw [erase_nil septs (by simpa using hsep)] at ht
          simp at ht
      rw [habs]
      rw [show dirEToks (.mk nm mm aa (some bb))
        = (TokenKind.word, nm) :: (matcherEToks mm ++ aa.map argETok
            ++ ((TokenKind.openBrace, [braceL]) :: nlETok ::
              (dirsEToksSp bb
                ++ [(TokenKind.closeBrace, [braceR]), nlETok])))
        from rfl] at hts2
      obtain ⟨dts, rts, rfl, hdts, hrts⟩ := erase_append ts2 _ _ hts2
      obtain ⟨tname, dts', rfl, hknm, htnm, hdts'⟩ :=
        erase_cons dts .word nm _ hdts
      simp only [List.cons_append, List.append_assoc]
      rw [parse_directives.eq_def]
      dsimp only
      rw [skipNC_cons_of_not tname _ (word_not_nc tname (Or.inl hknm))]
      dsimp only
      rw [if_neg (by simp [hknm])]
      obtain ⟨lt, hlt, heq⟩ := parse_directive_round_b nm mm aa bb hfw.1
        (f2 + 1) (by omega) full tname dts' (rts ++ rest) htnm hdts'
      rw [heq]
      dsimp only
      rw [parse_directives_nl f2 full lt _ (isNlOrComment_of_kind lt hlt)]
      rw [parse_directives_round_spr ds'
        (Directive.mk nm mm aa (some bb)).hasBlock hfw.2 (f2 + 1)
        (by omega) full rts rest hrts hrest]
  termination_by ds _ _ _ _ _ _ _ _ _ => (sizeOf ds, 0)

end

theorem natToDecAux_acc : ∀ (fuel n : Nat) (acc : List Char),
    natToDecAux fuel n acc = natToDecAux fuel n [] ++ acc
  | 0, _, _ => by rw [natToDecAux, natToDecAux, List.nil_append]
  | fuel + 1, n, acc => by
      rw [natToDecAux, natToDecAux]
      by_cases hn : n < 10
      · rw [if_pos hn, if_pos hn]
        rfl
      · rw [if_neg hn, if_neg hn]
        rw [natToDecAux_acc fuel (n / 10)
          (Char.ofNat (48 + n % 10) :: acc)]
        rw [natToDecAux_acc fuel (n / 10) [Char.ofNat (48 + n % 10)]]
        simp

theorem digitChar_toNat (n : Nat) :
    (Char.ofNat (48 + n % 10)).toNat = 48 + n % 10 := by
  have h : n % 10 < 10 := Nat.mod_lt _ (by omega)
  set k := n % 10 with hk
  interval_cases k <;> decide

theorem natToDecAux_val : ∀ (fuel n : Nat), n < fuel →
    (natToDecAux fuel n []).foldl (fun a c => a * 10 + (c.toNat - 48)) 0
      = n
  | 0, n, h => absurd h (by omega)
  | fuel + 1, n, h => by
      rw [natToDecAux]
      by_cases hn : n < 10
      · rw [if_pos hn]
        simp only [List.foldl_cons, List.foldl_nil]
        rw [digitChar_toNat]
        omega
      · rw [if_neg hn]
        rw [natToDecAux_acc fuel (n / 10) [Char.ofNat (48 + n % 10)]]
        rw [List.foldl_append]
        rw [natToDecAux_val fuel (n / 10) (by omega)]
        simp only [List.foldl_cons, List.foldl_nil]
        rw [digitChar_toNat]
        omega

theorem natToDec_val (n : Nat) :
    (natToDec n).foldl (fun a c => a * 10 + (c.toNat - 48)) 0 = n :=
  natToDecAux_val (n + 1) n (by omega)

theorem parseU16_natToDec (p : Nat) (h : p < 65536) :
    parseU16 (natToDec p) = some p := by
  rw [parseU16]
  have hne := natToDec_ne_nil p
  have hdig : (natToDec p).all (fun c => c.isDigit) = true :=
    natToDec_digits p
  rw [if_neg hne, if_pos hdig]
  rw [natToDec_val]
  rw [if_pos h]
  intro rest hr
  have hdig2 := natToDec_digits p
  rw [hr] at hdig2
  simp at hdig2

theorem firstIdx?_append_none (p : Char → Bool) :
    ∀ (A B : List Char), (∀ x ∈ A, p x = false) →
    firstIdx? p (A ++ B) = (firstIdx? p B).map (· + A.length)
  | [], B, _ => by
      rw [List.nil_append]
      cases h : firstIdx? p B <;> simp
  | c :: A', B, hA => by
      rw [List.cons_append, firstIdx?, if_neg (by
        rw [hA c (by simp)]
        exact fun hc => Bool.noConfusion hc)]
      rw [firstIdx?_append_none p A' B
        (fun x hx => hA x (List.mem_cons_of_mem c hx))]
      cases h : firstIdx? p B <;> simp [List.length_cons] <;> omega

theorem hostChar_not_slash (c : Char) (h : hostChar c = true) :
    isSlash c = false := by
  simp [isSlash, (hostChar_facts c h).2.2.2.2.2.1]

theorem hostChar_not_colon (c : Char) (h : hostChar c = true) :
    isColon c = false := by
  simp [isColon, (hostChar_facts c h).2.2.2.2.1]

theorem digit_not_slash (c : Char) (h : c.isDigit = true) :
    isSlash c = false := by
  simp [isSlash, isDigit_ne c '/' h (by decide)]

theorem digit_not_colon (c : Char) (h : c.isDigit = true) :
    isColon c = false := by
  simp [isColon, isDigit_ne c ':' h (by decide)]

theorem stripScheme_https (R : List Char) :
    stripScheme ("https://".toList ++ R) = (some .https, R) := by
  rw [stripScheme]
  rw [if_pos (by
    rw [List.isPrefixOf_iff_prefix]
    exact List.prefix_append _ _)]
  rw [show (8 : Nat) = ("https://".toList).length from rfl,
    List.drop_left]

theorem stripScheme_http (R : List Char) :
    stripScheme ("http://".toList ++ R) = (some .http, R) := by
  rw [stripScheme]
  rw [if_neg (by
    intro hc
    have : List.isPrefixOf ("https://".toList) ("http://".toList ++ R)
        = false := rfl
    rw [this] at hc
    exact Bool.noConfusion hc)]
  rw [if_pos (by
    rw [List.isPrefixOf_iff_prefix]
    exact List.prefix_append _ _)]
  rw [show (7 : Nat) = ("http://".toList).length from rfl,
    List.drop_left]

theorem stripScheme_plain (R : List Char)
    (h1 : List.isPrefixOf ("http://".toList) R = false)
    (h2 : List.isPrefixOf ("https://".toList) R = false) :
    stripScheme R = (none, R) := by
  rw [stripScheme]
  rw [if_neg (by rw [h2]; exact fun hc => Bool.noConfusion hc)]
  rw [if_neg (by rw [h1]; exact fun hc => Bool.noConfusion hc)]

theorem addr_tail_round (host : List Char) (port : Option Nat)
    (pth : Option (List Char))
    (hh : host ≠ []) (hhost : host.all hostChar = true)
    (hport : ∀ p, port = some p → p < 65536)
    (hpath : ∀ p, pth = some p → p.head? = some '/' ∧ p.all pathChar = true)
    (sc : Option Scheme)
    (hstrip : stripScheme (format_address ⟨sc, host, port, pth⟩)
      = (sc, host
          ++ ((match port with
               | some p => ':' :: natToDec p
               | none => [])
            ++ (match pth with
                | some p => p
                | none => [])))) :
    parse_address (format_address ⟨sc, host, port, pth⟩)
      = ⟨sc, host, port, pth⟩ := by
  rw [parse_address]
  rw [hstrip]
  have hhostmem : ∀ c ∈ host, hostChar c = true := by
    rw [List.all_eq_true] at hhost
    exact hhost
  cases port with
  | none =>
    cases pth with
    | none =>
      dsimp only
      have hfs : firstIdx? isSlash (host ++ ([] ++ [])) = none := by
        rw [firstIdx?_eq_none_iff]
        intro x hx
        simp only [List.append_nil] at hx
        exact hostChar_not_slash x (hhostmem x hx)
      rw [hfs]
      dsimp only
      have hlc : lastIdx? isColon (host ++ ([] ++ [])) = none := by
        rw [lastIdx?]
        have : firstIdx? isColon (host ++ ([] ++ [])).reverse = none := by
          rw [firstIdx?_eq_none_iff]
          intro x hx
          simp only [List.append_nil, List.mem_reverse] at hx
          exact hostChar_not_colon x (hhostmem x hx)
        rw [this]
      rw [hlc]
      simp
    | some p =>
      obtain ⟨hhead, hpc⟩ := hpath p rfl
      cases p with
      | nil => simp at hhead
      | cons c0 p' =>
        have hc0 : c0 = '/' := by simpa using hhead
        subst hc0
        dsimp only
        have hfs : firstIdx? isSlash (host ++ ([] ++ ('/' :: p')))
            = some host.length := by
          rw [firstIdx?_append_none isSlash host _
            (fun x hx => hostChar_not_slash x (hhostmem x hx))]
          rw [List.nil_append, firstIdx?, if_pos (by decide)]
          simp
        rw [hfs]
        dsimp only
        rw [List.nil_append]
        rw [List.take_left, List.drop_left]
        have hlc : lastIdx? isColon host = none := by
          rw [lastIdx?]
          have : firstIdx? isColon host.reverse = none := by
            rw [firstIdx?_eq_none_iff]
            intro x hx
            rw [List.mem_reverse] at hx
            exact hostChar_not_colon x (hhostmem x hx)
          rw [this]
        rw [hlc]
  | some pv =>
    have hpv : pv < 65536 := hport pv rfl
    have hdigmem : ∀ c ∈ natToDec pv, c.isDigit = true := by
      have := natToDec_digits pv
      rw [List.all_eq_true] at this
      exact this
    cases pth with
    | none =>
      dsimp only
      have hfs : firstIdx? isSlash
          (host ++ ((':' :: natToDec pv) ++ [])) = none := by
        rw [firstIdx?_eq_none_iff]
        intro x hx
        simp only [List.append_nil, List.mem_append,
          List.mem_cons] at hx
        rcases hx with hx | hx | hx
        · exact hostChar_not_slash x (hhostmem x hx)
        · subst hx; rfl
        · exact digit_not_slash x (hdigmem x hx)
      rw [hfs]
      dsimp only
      have hrev : (host ++ ((':' :: natToDec pv) ++ [])).reverse
          = (natToDec pv).reverse ++ (':' :: host.reverse) := by
        simp
      have hfi : firstIdx? isColon
          (host ++ ((':' :: natToDec pv) ++ [])).reverse
          = some (natToDec pv).length := by
        rw [hrev]
        rw [firstIdx?_append_none isColon _ _
          (fun x hx => digit_not_colon x
            (hdigmem x (List.mem_reverse.mp hx)))]
        rw [firstIdx?, if_pos (by decide)]
        simp
      have hlc : lastIdx? isColon (host ++ ((':' :: natToDec pv) ++ []))
          = some host.length := by
        rw [lastIdx?, hfi]
        dsimp only
        congr 1
        simp only [List.length_append, List.length_cons,
          List.length_nil]
        omega
      rw [hlc]
      dsimp only
      have hdrop : (host ++ ((':' :: natToDec pv) ++ [])).drop
          (host.length + 1) = natToDec pv := by
        rw [show host ++ ((':' :: natToDec pv) ++ [])
          = (host ++ [':']) ++ natToDec pv by simp]
        rw [show host.length + 1 = (host ++ [':']).length by simp]
        rw [List.drop_left]
      rw [hdrop, parseU16_natToDec pv hpv]
      dsimp only
      have htake : (host ++ ((':' :: natToDec pv) ++ [])).take host.length
          = host := List.take_left _ _
      rw [htake]
    | some p =>
      obtain ⟨hhead, hpc⟩ := hpath p rfl
      cases p with
      | nil => simp at hhead
      | cons c0 p' =>
        have hc0 : c0 = '/' := by simpa using hhead
        subst hc0
        dsimp only
        have hfs : firstIdx? isSlash
            (host ++ ((':' :: natToDec pv) ++ ('/' :: p')))
            = some (host.length + (natToDec pv).length + 1) := by
          rw [show host ++ ((':' :: natToDec pv) ++ ('/' :: p'))
            = (host ++ (':' :: natToDec pv)) ++ ('/' :: p') by simp]
          rw [firstIdx?_append_none isSlash _ _ (by
            intro x hx
            simp only [List.mem_append, List.mem_cons] at hx
            rcases hx with hx | hx | hx
            · exact hostChar_not_slash x (hhostmem x hx)
            · subst hx; rfl
            · exact digit_not_slash x (hdigmem x hx))]
          rw [firstIdx?, if_pos (by decide)]
          simp only [Option.map_some']
          congr 1
          simp only [List.length_append, List.length_cons]
          omega
        rw [hfs]
        dsimp only
        have hsplit : host ++ ((':' :: natToDec pv) ++ ('/' :: p'))
            = (host ++ (':' :: natToDec pv)) ++ ('/' :: p') := by simp
        have hlen : host.length + (natToDec pv).length + 1
            = (host ++ (':' :: natToDec pv)).length := by
          simp only [List.length_append, List.length_cons]
          omega
        rw [hsplit, hlen, List.take_left, List.drop_left]
        have hrev : (host ++ (':' :: natToDec pv)).reverse
            = (natToDec pv).reverse ++ (':' :: host.reverse) := by
          simp
        have hfi : firstIdx? isColon
            (host ++ (':' :: natToDec pv)).reverse
            = some (natToDec pv).length := by
          rw [hrev]
          rw [firstIdx?_append_none isColon _ _
            (fun x hx => digit_not_colon x
              (hdigmem x (List.mem_reverse.mp hx)))]
          rw [firstIdx?, if_pos (by decide)]
          simp
        have hlc : lastIdx? isColon (host ++ (':' :: natToDec pv))
            = some host.length := by
          rw [lastIdx?, hfi]
          dsimp only
          congr 1
          simp only [List.length_append, List.length_cons]
          omega
        rw [hlc]
        dsimp only
        have hdrop : (host ++ (':' :: natToDec pv)).drop
            (host.length + 1) = natToDec pv := by
          rw [show host ++ (':' :: natToDec pv)
            = (host ++ [':']) ++ natToDec pv by simp]
          rw [show host.length + 1 = (host ++ [':']).length by simp]
          rw [List.drop_left]
        rw [hdrop, parseU16_natToDec pv hpv]
        dsimp only
        have htake : (host ++ (':' :: natToDec pv)).take host.length
            = host := List.take_left _ _
        rw [htake]

theorem format_address_no_comma (a : Address) (h : addrOk a = true) :
    ∀ c ∈ format_address a, c ≠ ',' := by
  obtain ⟨sc, host, port, pth⟩ := a
  simp only [addrOk, Bool.and_eq_true, decide_eq_true_eq] at h
  obtain ⟨⟨⟨⟨hne, hhost⟩, hport⟩, hpath⟩, hscheme⟩ := h
  intro c hc
  rw [format_address] at hc
  simp only [List.mem_append] at hc
  rcases hc with ((hc | hc) | hc) | hc
  · cases sc with
    | none => simp at hc
    | some sch =>
      cases sch with
      | http =>
        rw [show ("http://".toList)
          = ['h', 't', 't', 'p', ':', '/', '/'] from rfl] at hc
        simp only [List.mem_cons, List.not_mem_nil, or_false] at hc
        rcases hc with rfl | rfl | rfl | rfl | rfl | rfl | rfl <;> decide
      | https =>
        rw [show ("https://".toList)
          = ['h', 't', 't', 'p', 's', ':', '/', '/'] from rfl] at hc
        simp only [List.mem_cons, List.not_mem_nil, or_false] at hc
        rcases hc with rfl | rfl | rfl | rfl | rfl | rfl | rfl | rfl <;>
          decide
  · have : hostChar c = true := by
      rw [List.all_eq_true] at hhost
      exact hhost c hc
    exact (hostChar_facts c this).2.2.2.1
  · cases port with
    | none => simp at hc
    | some pv =>
      simp only [List.mem_cons] at hc
      rcases hc with rfl | hc
      · decide
      · have : c.isDigit = true := by
          have := natToDec_digits pv
          rw [List.all_eq_true] at this
          exact this c hc
        exact isDigit_ne c ',' this (by decide)
  · cases pth with
    | none => simp at hc
    | some p =>
      simp only [Bool.and_eq_true] at hpath
      have : pathChar c = true := by
        rw [List.all_eq_true] at hpath
        exact hpath.2 c hc
      simp only [pathChar, Bool.and_eq_true, decide_eq_true_eq] at this
      exact this.2

theorem parse_address_round (a : Address) (h : addrOk a = true) :
    parse_address (format_address a) = a := by
  have horig := h
  obtain ⟨sc, host, port, pth⟩ := a
  simp only [addrOk, Bool.and_eq_true, decide_eq_true_eq] at h
  obtain ⟨⟨⟨⟨hne, hhost⟩, hport⟩, hpath⟩, hscheme⟩ := h
  refine addr_tail_round host port pth hne hhost ?_ ?_ sc ?_
  · intro p hp
    rw [hp] at hport
    simpa using hport
  · intro p hp
    rw [hp] at hpath
    simpa [Bool.and_eq_true] using hpath
  · cases sc with
    | none =>
      dsimp only at hscheme
      rw [decide_eq_true_eq] at hscheme
      have h5 : (List.isPrefixOf ("http://".toList)
            (format_address ⟨none, host, port, pth⟩)
          || List.isPrefixOf ("https://".toList)
            (format_address ⟨none, host, port, pth⟩)) = false := by
        cases hAB : (List.isPrefixOf ("http://".toList)
              (format_address ⟨none, host, port, pth⟩)
            || List.isPrefixOf ("https://".toList)
              (format_address ⟨none, host, port, pth⟩)) with
        | false => rfl
        | true => exact absurd hAB hscheme
      rw [Bool.or_eq_false_iff] at h5
      rw [stripScheme_plain _ h5.1 h5.2]
      cases port <;> cases pth <;> simp [format_address]
    | some sch =>
      cases sch with
      | http =>
        cases port <;> cases pth <;>
          (rw [format_address.eq_def]
           dsimp only
           rw [List.append_assoc, List.append_assoc, stripScheme_http])
      | https =>
        cases port <;> cases pth <;>
          (rw [format_address.eq_def]
           dsimp only
           rw [List.append_assoc, List.append_assoc, stripScheme_https])

theorem dropWhile_all_false (p : Char → Bool) :
    ∀ l : List Char, (∀ c ∈ l, p c = false) → l.dropWhile p = l
  | [], _ => rfl
  | c :: l', h => by
      rw [List.dropWhile_cons, if_neg (by
        rw [h c (by simp)]
        exact fun hc => Bool.noConfusion hc)]

theorem stripTrailingCommas_id (l : List Char)
    (h : ∀ c ∈ l, c ≠ ',') : stripTrailingCommas l = l := by
  rw [stripTrailingCommas, dropWhile_all_false _ _ (fun c hc =>
    decide_eq_false (h c (List.mem_reverse.mp hc))),
    List.reverse_reverse]

theorem stripTrailingCommas_comma (l : List Char)
    (h : ∀ c ∈ l, c ≠ ',') :
    stripTrailingCommas (l ++ [',']) = l := by
  rw [stripTrailingCommas, List.reverse_append,
    show ((([','] : List Char)).reverse ++ l.reverse)
      = ',' :: l.reverse from rfl,
    List.dropWhile_cons, if_pos (by decide),
    dropWhile_all_false _ _ (fun c hc =>
      decide_eq_false (h c (List.mem_reverse.mp hc))),
    List.reverse_reverse]

theorem addrLoop_round : ∀ (addrs : List Address),
    addrs.all addrOk = true →
    ∀ (ts rest : List Token), ts.map eraseTok = addrEToks addrs →
    (∃ tb tl, rest = tb :: tl ∧ tb.kind = .openBrace) →
    addrLoop (ts ++ rest) = (addrs, rest)
  | [], _, ts, rest, hts, hob => by
      rw [erase_nil ts (by simpa [show addrEToks [] = [] from rfl]
        using hts), List.nil_append]
      obtain ⟨tb, tl, rfl, hk⟩ := hob
      obtain ⟨k, txt, sp⟩ := tb
      dsimp only at hk
      subst hk
      rfl
  | [a], hall, ts, rest, hts, hob => by
      have ha : addrOk a = true := by simpa using hall
      rw [show addrEToks [a] = [(.word, format_address a)] from rfl] at hts
      obtain ⟨t, ts', rfl, hk, htxt, hrest⟩ := erase_cons ts _ _ _ hts
      rw [erase_nil ts' hrest]
      obtain ⟨k, txt, sp⟩ := t
      dsimp only at hk htxt
      subst hk
      subst htxt
      obtain ⟨tb, tl, rfl, hkb⟩ := hob
      obtain ⟨kb, txtb, spb⟩ := tb
      dsimp only at hkb
      subst hkb
      show addrLoop (⟨.word, format_address a, sp⟩ ::
        ⟨.openBrace, txtb, spb⟩ :: tl)
        = ([a], ⟨.openBrace, txtb, spb⟩ :: tl)
      rw [addrLoop.eq_def]
      dsimp only
      rw [show addrLoop (⟨.openBrace, txtb, spb⟩ :: tl)
        = ([], ⟨.openBrace, txtb, spb⟩ :: tl) from rfl]
      rw [stripTrailingCommas_id _ (format_address_no_comma a ha),
        parse_address_round a ha]
  | a :: b :: rest', hall, ts, rest, hts, hob => by
      have ha : addrOk a = true := by
        rw [List.all_cons, Bool.and_eq_true] at hall
        exact hall.1
      have hall' : (b :: rest').all addrOk = true := by
        rw [List.all_cons, Bool.and_eq_true] at hall
        exact hall.2
      rw [show addrEToks (a :: b :: rest')
        = (.word, format_address a ++ [',']) :: addrEToks (b :: rest')
        from rfl] at hts
      obtain ⟨t, ts', rfl, hk, htxt, hrest⟩ := erase_cons ts _ _ _ hts
      obtain ⟨k, txt, sp⟩ := t
      dsimp only at hk htxt
      subst hk
      subst htxt
      rw [List.cons_append, addrLoop.eq_def]
      dsimp only
      rw [addrLoop_round (b :: rest') hall' ts' rest hrest hob]
      rw [stripTrailingCommas_comma _ (format_address_no_comma a ha),
        parse_address_round a ha]

theorem skipNC_all_nl : ∀ (pre : List Token),
    (∀ t ∈ pre, isNlOrComment t = true) → skipNC pre = []
  | [], _ => rfl
  | t :: pre', h => by
      rw [skipNC_cons_nl t pre' (h t (by simp))]
      exact skipNC_all_nl pre' (fun x hx => h x (List.mem_cons_of_mem t hx))

theorem skipNC_append_nl : ∀ (pre rem : List Token),
    (∀ t ∈ pre, isNlOrComment t = true) →
    skipNC (pre ++ rem) = skipNC rem
  | [], rem, _ => by rw [List.nil_append]
  | t :: pre', rem, h => by
      rw [List.cons_append, skipNC_cons_nl t _ (h t (by simp))]
      exact skipNC_append_nl pre' rem
        (fun x hx => h x (List.mem_cons_of_mem t hx))

theorem parseBlocks_skipNC (fuel : Nat) (full : List Token)
    (rem : List Token) (acc : Caddyfile) :
    parseBlocks (fuel + 1) full (skipNC rem) acc
      = parseBlocks (fuel + 1) full rem acc := by
  induction rem with
  | nil => rfl
  | cons t rest ih =>
    by_cases hnc : isNlOrComment t = true
    · rw [skipNC_cons_nl t rest hnc, ih]
      conv_rhs => rw [parseBlocks.eq_def]
      dsimp only
      rw [skipNC_cons_nl t rest hnc]
      cases rest with
      | nil => rfl
      | cons r rs =>
        conv_lhs => rw [parseBlocks.eq_def]
    · rw [skipNC_cons_of_not t rest (by
        cases hv : isNlOrComment t
        · rfl
        · exact absurd hv hnc)]

theorem dirsFuel_pos : ∀ ds : Dirs, 1 ≤ dirsFuel ds
  | .nil => le_refl 1
  | .cons d ds' => by
      rw [show dirsFuel (.cons d ds')
        = max (dirFuel d) (dirsFuel ds') + 1 from rfl]
      omega

theorem isSnippetTok_snip (t : Token) (nm : List Char) (hne : nm ≠ [])
    (h : t.text = '(' :: (nm ++ [')'])) : isSnippetTok t = true := by
  rw [isSnippetTok, h]
  simp only [Bool.and_eq_true, decide_eq_true_eq]
  refine ⟨⟨by simp, ?_⟩, ?_⟩
  · rw [show ('(' :: (nm ++ [')'])) = ('(' :: nm) ++ [')'] from by simp]
    exact List.getLast?_concat _
  · have := List.length_pos.mpr hne
    simp only [List.length_cons, List.length_append]
    omega

theorem isSnippetTok_route (t : Token) (r : List Char)
    (h : t.text = '&' :: r) : isSnippetTok t = false := by
  rw [isSnippetTok, h]
  simp

theorem isRouteTok_route (t : Token) (nm : List Char) (hne : nm ≠ [])
    (h : t.text = '&' :: '(' :: (nm ++ [')'])) : isRouteTok t = true := by
  rw [isRouteTok, h]
  simp only [Bool.and_eq_true, decide_eq_true_eq]
  refine ⟨⟨rfl, ?_⟩, ?_⟩
  · rw [show ('&' :: '(' :: (nm ++ [')']))
      = ('&' :: '(' :: nm) ++ [')'] from by simp]
    exact List.getLast?_concat _
  · have := List.length_pos.mpr hne
    simp only [List.length_cons, List.length_append]
    omega

theorem addr_head_char (a : Address) (h : addrOk a = true) :
    ∃ c T, format_address a = c :: T ∧ c ≠ '(' ∧ c ≠ '&' := by
  obtain ⟨sc, host, port, pth⟩ := a
  simp only [addrOk, Bool.and_eq_true, decide_eq_true_eq] at h
  obtain ⟨⟨⟨⟨hne, hhost⟩, hport⟩, hpath⟩, hscheme⟩ := h
  rw [format_address]
  cases sc with
  | some sch =>
    cases sch <;> exact ⟨'h', _, rfl, by decide, by decide⟩
  | none =>
    cases host with
    | nil => exact absurd rfl hne
    | cons hc host' =>
      rw [List.all_cons, Bool.and_eq_true] at hhost
      obtain hf := hostChar_facts hc hhost.1
      exact ⟨hc, _, rfl, hf.2.2.2.2.2.2.1, hf.2.2.2.2.2.2.2⟩

theorem addr_tok_not_block (t : Token) (a : Address) (ha : addrOk a = true)
    (h : t.text = format_address a ∨ t.text = format_address a ++ [',']) :
    isSnippetTok t = false ∧ isRouteTok t = false := by
  obtain ⟨c, T, hfa, hc1, hc2⟩ := addr_head_char a ha
  constructor
  · rw [isSnippetTok]
    rcases h with h | h <;> rw [h, hfa] <;>
      simp [List.cons_append, hc1]
  · rw [isRouteTok]
    rcases h with h | h <;> rw [h, hfa] <;>
      simp [List.cons_append, List.take_succ_cons, hc2]

theorem parse_global_options_round (g : GlobalOptions)
    (hwf : dirsWF g.directives = true) :
    ∀ fuel : Nat, dirsFuel g.directives ≤ fuel →
    ∀ (full ts rest : List Token),
    ts.map eraseTok = gOptsEToks g →
    ∃ lt, lt.kind = .newline ∧
      parse_global_options fuel full (ts ++ rest)
        = some (.ok (g, lt :: rest)) := by
  obtain ⟨ds⟩ := g
  intro fuel hfuel full ts rest hts
  rw [show gOptsEToks ⟨ds⟩
    = (TokenKind.openBrace, [braceL]) :: nlETok ::
      (dirsEToks ds ++ [(TokenKind.closeBrace, [braceR]), nlETok])
    from rfl] at hts
  obtain ⟨tob, ts1, rfl, hk1, htxt1, hts1⟩ := erase_cons ts _ _ _ hts
  obtain ⟨tnl, ts2, rfl, hk2, htxt2, hts2⟩ := erase_cons ts1 _ _ _ hts1
  obtain ⟨u, v, rfl, hu, hv⟩ := erase_append ts2 _ _ hts2
  obtain ⟨tcb, v1, rfl, hk3, htxt3, hv1⟩ := erase_cons v _ _ _ hv
  obtain ⟨tnl2, v2, rfl, hk4, htxt4, hv2⟩ := erase_cons v1 _ _ _ hv1
  have hv2n := erase_nil v2 hv2
  subst hv2n
  have hfuel' : dirsFuel ds ≤ fuel := hfuel
  have hwf' : dirsWF ds = true := hwf
  obtain ⟨f, rfl⟩ : ∃ f, fuel = f + 1 :=
    ⟨fuel - 1, by have := dirsFuel_pos ds; omega⟩
  refine ⟨tnl2, hk4, ?_⟩
  simp only [List.cons_append, List.append_assoc, List.nil_append]
  rw [parse_global_options.eq_def]
  rw [expect_open_brace_round2 full tob _ hk1]
  dsimp only
  rw [parse_directives_nl f full tnl _ (isNlOrComment_of_kind tnl hk2)]
  rw [parse_directives_round ds hwf' (f + 1) hfuel' full u
    (tcb :: tnl2 :: rest) hu (Or.inr ⟨tcb, tnl2 :: rest, rfl, hk3⟩)]
  dsimp only
  rw [expect_close_brace_round2 full tcb _ hk3]

theorem parse_snippet_round (s : Snippet) (hwf : snipWF s = true) :
    ∀ fuel : Nat, dirsFuel s.directives ≤ fuel →
    ∀ (full : List Token) (t : Token) (ts rest : List Token),
    t.text = '(' :: (s.name ++ [')']) →
    ts.map eraseTok = (TokenKind.openBrace, [braceL]) :: nlETok ::
      (dirsEToks s.directives
        ++ [(TokenKind.closeBrace, [braceR]), nlETok]) →
    ∃ lt, lt.kind = .newline ∧
      parse_snippet fuel full t (ts ++ rest)
        = some (.ok (s, lt :: rest)) := by
  obtain ⟨nm, ds⟩ := s
  intro fuel hfuel full t ts rest htext hts
  dsimp only at hfuel htext hts
  simp only [snipWF, Bool.and_eq_true, decide_eq_true_eq] at hwf
  obtain ⟨tob, ts1, rfl, hk1, htxt1, hts1⟩ := erase_cons ts _ _ _ hts
  obtain ⟨tnl, ts2, rfl, hk2, htxt2, hts2⟩ := erase_cons ts1 _ _ _ hts1
  obtain ⟨u, v, rfl, hu, hv⟩ := erase_append ts2 _ _ hts2
  obtain ⟨tcb, v1, rfl, hk3, htxt3, hv1⟩ := erase_cons v _ _ _ hv
  obtain ⟨tnl2, v2, rfl, hk4, htxt4, hv2⟩ := erase_cons v1 _ _ _ hv1
  have hv2n := erase_nil v2 hv2
  subst hv2n
  obtain ⟨f, rfl⟩ : ∃ f, fuel = f + 1 :=
    ⟨fuel - 1, by have := dirsFuel_pos ds; omega⟩
  refine ⟨tnl2, hk4, ?_⟩
  simp only [List.cons_append, List.append_assoc, List.nil_append]
  rw [parse_snippet.eq_def]
  dsimp only
  rw [htext]
  rw [show (('(' :: (nm ++ [')'])).drop 1).dropLast = nm from by
    rw [show ('(' :: (nm ++ [')'])).drop 1 = nm ++ [')'] from rfl]
    simp]
  rw [skipNl_cons_of_not tob _ (by
    rw [hk1]
    exact fun hcon => TokenKind.noConfusion hcon)]
  rw [expect_open_brace_round2 full tob _ hk1]
  dsimp only
  rw [parse_directives_nl f full tnl _ (isNlOrComment_of_kind tnl hk2)]
  rw [parse_directives_round ds hwf.2 (f + 1) hfuel full u
    (tcb :: tnl2 :: rest) hu (Or.inr ⟨tcb, tnl2 :: rest, rfl, hk3⟩)]
  dsimp only
  rw [expect_close_brace_round2 full tcb _ hk3]

theorem parse_named_route_round (r : NamedRoute) (hwf : routeWF r = true) :
    ∀ fuel : Nat, dirsFuel r.directives ≤ fuel →
    ∀ (full : List Token) (t : Token) (ts rest : List Token),
    t.text = '&' :: '(' :: (r.name ++ [')']) →
    ts.map eraseTok = (TokenKind.openBrace, [braceL]) :: nlETok ::
      (dirsEToks r.directives
        ++ [(TokenKind.closeBrace, [braceR]), nlETok]) →
    ∃ lt, lt.kind = .newline ∧
      parse_named_route fuel full t (ts ++ rest)
        = some (.ok (r, lt :: rest)) := by
  obtain ⟨nm, ds⟩ := r
  intro fuel hfuel full t ts rest htext hts
  dsimp only at hfuel htext hts
  simp only [routeWF, Bool.and_eq_true, decide_eq_true_eq] at hwf
  obtain ⟨tob, ts1, rfl, hk1, htxt1, hts1⟩ := erase_cons ts _ _ _ hts
  obtain ⟨tnl, ts2, rfl, hk2, htxt2, hts2⟩ := erase_cons ts1 _ _ _ hts1
  obtain ⟨u, v, rfl, hu, hv⟩ := erase_append ts2 _ _ hts2
  obtain ⟨tcb, v1, rfl, hk3, htxt3, hv1⟩ := erase_cons v _ _ _ hv
  obtain ⟨tnl2, v2, rfl, hk4, htxt4, hv2⟩ := erase_cons v1 _ _ _ hv1
  have hv2n := erase_nil v2 hv2
  subst hv2n
  obtain ⟨f, rfl⟩ : ∃ f, fuel = f + 1 :=
    ⟨fuel - 1, by have := dirsFuel_pos ds; omega⟩
  refine ⟨tnl2, hk4, ?_⟩
  simp only [List.cons_append, List.append_assoc, List.nil_append]
  rw [parse_named_route.eq_def]
  dsimp only
  rw [htext]
  rw [show (('&' :: '(' :: (nm ++ [')'])).drop 2).dropLast = nm from by
    rw [show ('&' :: '(' :: (nm ++ [')'])).drop 2 = nm ++ [')'] from rfl]
    simp]
  rw [skipNl_cons_of_not tob _ (by
    rw [hk1]
    exact fun hcon => TokenKind.noConfusion hcon)]
  rw [expect_open_brace_round2 full tob _ hk1]
  dsimp only
  rw [parse_directives_nl f full tnl _ (isNlOrComment_of_kind tnl hk2)]
  rw [parse_directives_round ds hwf.2 (f + 1) hfuel full u
    (tcb :: tnl2 :: rest) hu (Or.inr ⟨tcb, tnl2 :: rest, rfl, hk3⟩)]
  dsimp only
  rw [expect_close_brace_round2 full tcb _ hk3]

theorem parse_site_block_round (s : SiteBlock) (hwf : siteWF s = true) :
    ∀ fuel : Nat, dirsFuel s.directives ≤ fuel →
    ∀ (full ts rest : List Token),
    ts.map eraseTok = siteEToks s →
    ∃ lt, lt.kind = .newline ∧
      parse_site_block fuel full (ts ++ rest)
        = some (.ok (s, lt :: rest)) := by
  obtain ⟨addrs, ds⟩ := s
  intro fuel hfuel full ts rest hts
  dsimp only at hfuel hts
  simp only [siteWF, Bool.and_eq_true, decide_eq_true_eq] at hwf
  obtain ⟨⟨hane, haok⟩, hdwf⟩ := hwf
  rw [show siteEToks ⟨addrs, ds⟩
    = addrEToks addrs ++ (TokenKind.openBrace, [braceL]) :: nlETok ::
      (dirsEToksSp ds ++ [(TokenKind.closeBrace, [braceR]), nlETok])
    from rfl] at hts
  obtain ⟨ua, w, rfl, hua, hw⟩ := erase_append ts _ _ hts
  obtain ⟨tob, w1, rfl, hk1, htxt1, hw1⟩ := erase_cons w _ _ _ hw
  obtain ⟨tnl, w2, rfl, hk2, htxt2, hw2⟩ := erase_cons w1 _ _ _ hw1
  obtain ⟨u, v, rfl, hu, hv⟩ := erase_append w2 _ _ hw2
  obtain ⟨tcb, v1, rfl, hk3, htxt3, hv1⟩ := erase_cons v _ _ _ hv
  obtain ⟨tnl2, v2, rfl, hk4, htxt4, hv2⟩ := erase_cons v1 _ _ _ hv1
  have hv2n := erase_nil v2 hv2
  subst hv2n
  obtain ⟨f, rfl⟩ : ∃ f, fuel = f + 1 :=
    ⟨fuel - 1, by have := dirsFuel_pos ds; omega⟩
  refine ⟨tnl2, hk4, ?_⟩
  simp only [List.cons_append, List.append_assoc, List.nil_append]
  rw [parse_site_block.eq_def]
  dsimp only
  rw [addrLoop_round addrs haok ua _ hua ⟨tob, _, rfl, hk1⟩]
  dsimp only
  rw [skipNC_cons_of_not tob _ (word_not_nc tob
    (Or.inr (Or.inr (Or.inr (Or.inr (Or.inl hk1))))))]
  dsimp only
  rw [if_neg (fun hne => hne hk1)]
  rw [expect_open_brace_round2 full tob _ hk1]
  dsimp only
  rw [parse_directives_nl f full tnl _ (isNlOrComment_of_kind tnl hk2)]
  rw [parse_directives_round_sp ds hdwf (f + 1) hfuel full u
    (tcb :: tnl2 :: rest) hu (Or.inr ⟨tcb, tnl2 :: rest, rfl, hk3⟩)]
  dsimp only
  rw [expect_close_brace_round2 full tcb _ hk3]

theorem sepToks_nc (usep : List Token) (first : Bool)
    (h : usep.map eraseTok = if first then [] else [nlETok]) :
    ∀ t ∈ usep, isNlOrComment t = true := by
  cases first with
  | true =>
    rw [if_pos rfl] at h
    rw [erase_nil usep h]
    intro t ht
    simp at ht
  | false =>
    rw [if_neg (by simp)] at h
    obtain ⟨t0, u0, rfl, hk, htxt, hrest⟩ :=
      erase_cons usep .newline ['\n'] [] (by simpa [nlETok] using h)
    have h0 := erase_nil u0 hrest
    subst h0
    intro t ht
    simp only [List.mem_cons, List.not_mem_nil, or_false] at ht
    rw [ht]
    exact isNlOrComment_of_kind t0 hk

theorem siteEToks_head (s : SiteBlock) (h : siteWF s = true) :
    ∃ a txt es, addrOk a = true
      ∧ (txt = format_address a ∨ txt = format_address a ++ [','])
      ∧ siteEToks s = (TokenKind.word, txt) :: es := by
  obtain ⟨addrs, ds⟩ := s
  simp only [siteWF, Bool.and_eq_true, decide_eq_true_eq] at h
  obtain ⟨⟨hane, haok⟩, _⟩ := h
  cases addrs with
  | nil => exact absurd rfl hane
  | cons a arest =>
    have ha : addrOk a = true := by
      rw [List.all_cons, Bool.and_eq_true] at haok
      exact haok.1
    cases arest with
    | nil => exact ⟨a, format_address a, _, ha, Or.inl rfl, rfl⟩
    | cons b brest =>
      exact ⟨a, format_address a ++ [','], _, ha, Or.inr rfl, rfl⟩

theorem parseBlocks_pre (f : Nat) (full : List Token)
    (P : List Token) (hP : ∀ t ∈ P, isNlOrComment t = true)
    (t0 : Token) (ts' : List Token) (acc : Caddyfile) :
    parseBlocks (f + 1) full (P ++ (t0 :: ts')) acc
      = parseBlocks (f + 1) full (t0 :: ts') acc := by
  have h1 : skipNC (P ++ (t0 :: ts')) = skipNC (t0 :: ts') :=
    skipNC_append_nl P _ hP
  cases P with
  | nil => rw [List.nil_append]
  | cons p ps =>
    rw [List.cons_append]
    have h1' : skipNC (p :: (ps ++ (t0 :: ts'))) = skipNC (t0 :: ts') := by
      rw [← List.cons_append]
      exact h1
    rw [parseBlocks.eq_def]
    conv_rhs => rw [parseBlocks.eq_def]
    dsimp only
    rw [h1']

theorem parseBlocks_sites :
    ∀ (sites : List SiteBlock), sites.all siteWF = true →
    ∀ fuel : Nat,
    sites.foldr (fun s a => max (dirsFuel s.directives) a + 1) 1 ≤ fuel →
    ∀ (full pre : List Token), (∀ t ∈ pre, isNlOrComment t = true) →
    ∀ (ts : List Token) (first : Bool) (acc : Caddyfile),
    ts.map eraseTok = emitEToks siteEToks sites first →
    parseBlocks fuel full (pre ++ ts) acc
      = some (.ok { acc with sites := acc.sites ++ sites })
  | [], _, fuel, hfuel, full, pre, hpre, ts, first, acc, hts => by
      rw [erase_nil ts (by
        simpa [show emitEToks siteEToks [] first = [] from rfl]
          using hts), List.append_nil]
      rw [List.foldr_nil] at hfuel
      obtain ⟨f, rfl⟩ : ∃ f, fuel = f + 1 := ⟨fuel - 1, by omega⟩
      cases pre with
      | nil =>
        rw [parseBlocks.eq_def]
        dsimp only
        simp
      | cons p ps =>
        rw [parseBlocks.eq_def]
        dsimp only
        rw [skipNC_all_nl (p :: ps) hpre]
        simp
  | s :: sites', hall, fuel, hfuel, full, pre, hpre, ts, first, acc,
      hts => by
      have hs : siteWF s = true ∧ sites'.all siteWF = true := by
        simpa using hall
      rw [List.foldr_cons] at hfuel
      obtain ⟨f, rfl⟩ : ∃ f, fuel = f + 1 := ⟨fuel - 1, by omega⟩
      have hf1 : dirsFuel s.directives ≤ f := by omega
      have hf2 : sites'.foldr
          (fun s a => max (dirsFuel s.directives) a + 1) 1 ≤ f := by
        omega
      rw [show emitEToks siteEToks (s :: sites') first
        = ((if first then [] else [nlETok]) ++ siteEToks s)
          ++ emitEToks siteEToks sites' false from rfl] at hts
      obtain ⟨u, v, rfl, hu, hv⟩ := erase_append ts _ _ hts
      obtain ⟨usep, usite, rfl, husep, husite⟩ := erase_append u _ _ hu
      have hsepnc := sepToks_nc usep first husep
      obtain ⟨a, txt0, es, hA, htxt0, hsE⟩ := siteEToks_head s hs.1
      rw [hsE] at husite
      obtain ⟨t0, u', rfl, hk0, htext0, hu'⟩ := erase_cons usite _ _ _ husite
      have husite2 : (t0 :: u').map eraseTok = siteEToks s := by
        rw [hsE, List.map_cons, hu',
          show eraseTok t0 = (t0.kind, t0.text) from rfl, hk0, htext0]
      rw [show pre ++ ((usep ++ (t0 :: u')) ++ v)
        = (pre ++ usep) ++ (t0 :: (u' ++ v)) from by simp]
      rw [parseBlocks_pre f full (pre ++ usep) (by
        intro t ht
        rcases List.mem_append.mp ht with h | h
        · exact hpre t h
        · exact hsepnc t h) t0 (u' ++ v) acc]
      rw [parseBlocks.eq_def]
      dsimp only
      rw [skipNC_cons_of_not t0 _ (word_not_nc t0 (Or.inl hk0))]
      dsimp only
      have hnb := addr_tok_not_block t0 a hA (by
        rcases htxt0 with h | h
        · exact Or.inl (htext0.trans h)
        · exact Or.inr (htext0.trans h))
      rw [if_neg (by rw [hnb.1]; exact fun hc => Bool.noConfusion hc)]
      rw [if_neg (by rw [hnb.2]; exact fun hc => Bool.noConfusion hc)]
      obtain ⟨lt, hlt, heq⟩ := parse_site_block_round s hs.1 f hf1 full
        (t0 :: u') v husite2
      rw [List.cons_append] at heq
      rw [heq]
      dsimp only
      rw [show lt :: v = [lt] ++ v from rfl]
      rw [parseBlocks_sites sites' hs.2 f hf2 full [lt] (by
        intro t ht
        simp only [List.mem_cons, List.not_mem_nil, or_false] at ht
        rw [ht]
        exact isNlOrComment_of_kind lt hlt) v false _ hv]
      simp [List.append_assoc]

theorem parseBlocks_routes :
    ∀ (routes : List NamedRoute) (sites : List SiteBlock),
    routes.all routeWF = true → sites.all siteWF = true →
    ∀ fuel : Nat,
    routes.foldr (fun r a => max (dirsFuel r.directives) a + 1)
      (sites.foldr (fun s a => max (dirsFuel s.directives) a + 1) 1)
      ≤ fuel →
    ∀ (full pre : List Token), (∀ t ∈ pre, isNlOrComment t = true) →
    ∀ (ts : List Token) (first : Bool) (acc : Caddyfile),
    ts.map eraseTok = emitEToks routeEToks routes first
      ++ emitEToks siteEToks sites (first && routes.isEmpty) →
    parseBlocks fuel full (pre ++ ts) acc
      = some (.ok { acc with
          named_routes := acc.named_routes ++ routes,
          sites := acc.sites ++ sites })
  | [], sites, _, hsw, fuel, hfuel, full, pre, hpre, ts, first, acc,
      hts => by
      rw [show emitEToks routeEToks [] first = [] from rfl,
        List.nil_append] at hts
      rw [List.foldr_nil] at hfuel
      rw [parseBlocks_sites sites hsw fuel hfuel full pre hpre ts
        (first && List.isEmpty []) acc hts]
      simp
  | r :: routes', sites, hrw, hsw, fuel, hfuel, full, pre, hpre, ts,
      first, acc, hts => by
      have hr : routeWF r = true ∧ routes'.all routeWF = true := by
        simpa using hrw
      rw [List.foldr_cons] at hfuel
      obtain ⟨f, rfl⟩ : ∃ f, fuel = f + 1 := ⟨fuel - 1, by omega⟩
      have hf1 : dirsFuel r.directives ≤ f := by omega
      have hf2 : routes'.foldr
          (fun r a => max (dirsFuel r.directives) a + 1)
          (sites.foldr (fun s a => max (dirsFuel s.directives) a + 1) 1)
          ≤ f := by omega
      rw [show emitEToks routeEToks (r :: routes') first
        = ((if first then [] else [nlETok]) ++ routeEToks r)
          ++ emitEToks routeEToks routes' false from rfl,
        show (first && (r :: routes').isEmpty) = false from by simp,
        List.append_assoc] at hts
      obtain ⟨u, v, rfl, hu, hv⟩ := erase_append ts _ _ hts
      obtain ⟨usep, urt, rfl, husep, hurt⟩ := erase_append u _ _ hu
      have hsepnc := sepToks_nc usep first husep
      rw [show routeEToks r
        = (TokenKind.word, '&' :: '(' :: (r.name ++ [')']))
          :: ((TokenKind.openBrace, [braceL]) :: nlETok ::
            (dirsEToks r.directives
              ++ [(TokenKind.closeBrace, [braceR]), nlETok]))
        from rfl] at hurt
      obtain ⟨t0, u', rfl, hk0, htext0, hu'⟩ := erase_cons urt _ _ _ hurt
      have hnmne : r.name ≠ [] := by
        have := hr.1
        simp only [routeWF, Bool.and_eq_true, decide_eq_true_eq] at this
        exact this.1.1
      rw [show pre ++ ((usep ++ (t0 :: u')) ++ v)
        = (pre ++ usep) ++ (t0 :: (u' ++ v)) from by simp]
      rw [parseBlocks_pre f full (pre ++ usep) (by
        intro t ht
        rcases List.mem_append.mp ht with h | h
        · exact hpre t h
        · exact hsepnc t h) t0 (u' ++ v) acc]
      rw [parseBlocks.eq_def]
      dsimp only
      rw [skipNC_cons_of_not t0 _ (word_not_nc t0 (Or.inl hk0))]
      dsimp only
      rw [if_neg (by
        rw [isSnippetTok_route t0 _ htext0]
        exact fun hc => Bool.noConfusion hc)]
      rw [if_pos (isRouteTok_route t0 r.name hnmne htext0)]
      obtain ⟨lt, hlt, heq⟩ := parse_named_route_round r hr.1 f hf1 full
        t0 u' v htext0 hu'
      rw [heq]
      dsimp only
      rw [show lt :: v = [lt] ++ v from rfl]
      rw [parseBlocks_routes routes' sites hr.2 hsw f hf2 full [lt] (by
        intro t ht
        simp only [List.mem_cons, List.not_mem_nil, or_false] at ht
        rw [ht]
        exact isNlOrComment_of_kind lt hlt) v false _ hv]
      simp [List.append_assoc]

theorem parseBlocks_snips :
    ∀ (snips : List Snippet) (routes : List NamedRoute)
      (sites : List SiteBlock),
    snips.all snipWF = true → routes.all routeWF = true →
    sites.all siteWF = true →
    ∀ fuel : Nat,
    snips.foldr (fun s a => max (dirsFuel s.directives) a + 1)
      (routes.foldr (fun r a => max (dirsFuel r.directives) a + 1)
        (sites.foldr (fun s a => max (dirsFuel s.directives) a + 1) 1))
      ≤ fuel →
    ∀ (full pre : List Token), (∀ t ∈ pre, isNlOrComment t = true) →
    ∀ (ts : List Token) (first : Bool) (acc : Caddyfile),
    ts.map eraseTok = emitEToks snipEToks snips first
      ++ emitEToks routeEToks routes (first && snips.isEmpty)
      ++ emitEToks siteEToks sites
          (first && snips.isEmpty && routes.isEmpty) →
    parseBlocks fuel full (pre ++ ts) acc
      = some (.ok { acc with
          snippets := acc.snippets ++ snips,
          named_routes := acc.named_routes ++ routes,
          sites := acc.sites ++ sites })
  | [], routes, sites, _, hrw, hsw, fuel, hfuel, full, pre, hpre, ts,
      first, acc, hts => by
      rw [show emitEToks snipEToks [] first = [] from rfl,
        List.nil_append] at hts
      rw [List.foldr_nil] at hfuel
      rw [parseBlocks_routes routes sites hrw hsw fuel hfuel full pre
        hpre ts (first && List.isEmpty []) acc hts]
      simp
  | s :: snips', routes, sites, hnw, hrw, hsw, fuel, hfuel, full, pre,
      hpre, ts, first, acc, hts => by
      have hn : snipWF s = true ∧ snips'.all snipWF = true := by
        simpa using hnw
      rw [List.foldr_cons] at hfuel
      obtain ⟨f, rfl⟩ : ∃ f, fuel = f + 1 := ⟨fuel - 1, by omega⟩
      have hf1 : dirsFuel s.directives ≤ f := by omega
      have hf2 : snips'.foldr
          (fun s a => max (dirsFuel s.directives) a + 1)
          (routes.foldr (fun r a => max (dirsFuel r.directives) a + 1)
            (sites.foldr (fun s a => max (dirsFuel s.directives) a + 1)
              1)) ≤ f := by omega
      rw [show emitEToks snipEToks (s :: snips') first
        = ((if first then [] else [nlETok]) ++ snipEToks s)
          ++ emitEToks snipEToks snips' false from rfl,
        show (first && (s :: snips').isEmpty) = false from by simp,
        List.append_assoc, List.append_assoc] at hts
      obtain ⟨u, v, rfl, hu, hv⟩ := erase_append ts _ _ hts
      obtain ⟨usep, usn, rfl, husep, husn⟩ := erase_append u _ _ hu
      have hsepnc := sepToks_nc usep first husep
      rw [show snipEToks s
        = (TokenKind.word, '(' :: (s.name ++ [')']))
          :: ((TokenKind.openBrace, [braceL]) :: nlETok ::
            (dirsEToks s.directives
              ++ [(TokenKind.closeBrace, [braceR]), nlETok]))
        from rfl] at husn
      obtain ⟨t0, u', rfl, hk0, htext0, hu'⟩ := erase_cons usn _ _ _ husn
      have hnmne : s.name ≠ [] := by
        have := hn.1
        simp only [snipWF, Bool.and_eq_true, decide_eq_true_eq] at this
        exact this.1.1
      rw [show pre ++ ((usep ++ (t0 :: u')) ++ v)
        = (pre ++ usep) ++ (t0 :: (u' ++ v)) from by simp]
      rw [parseBlocks_pre f full (pre ++ usep) (by
        intro t ht
        rcases List.mem_append.mp ht with h | h
        · exact hpre t h
        · exact hsepnc t h) t0 (u' ++ v) acc]
      rw [parseBlocks.eq_def]
      dsimp only
      rw [skipNC_cons_of_not t0 _ (word_not_nc t0 (Or.inl hk0))]
      dsimp only
      rw [if_pos (isSnippetTok_snip t0 s.name hnmne htext0)]
      obtain ⟨lt, hlt, heq⟩ := parse_snippet_round s hn.1 f hf1 full
        t0 u' v htext0 hu'
      rw [heq]
      dsimp only
      rw [show lt :: v = [lt] ++ v from rfl]
      rw [← List.append_assoc] at hv
      rw [parseBlocks_snips snips' routes sites hn.2 hrw hsw f hf2 full
        [lt] (by
          intro t ht
          simp only [List.mem_cons, List.not_mem_nil, or_false] at ht
          rw [ht]
          exact isNlOrComment_of_kind lt hlt) v false _ hv]
      simp [List.append_assoc]

theorem dirEToks_len_pos (d : Directive) : 1 ≤ (dirEToks d).length := by
  obtain ⟨es, he⟩ := dirEToks_head d
  rw [he]
  simp

mutual

theorem dirFuel_le : ∀ d : Directive, dirFuel d ≤ (dirEToks d).length
  | .mk nm mm aa none => by
      rw [show dirFuel (.mk nm mm aa none) = 1 from rfl,
        show dirEToks (.mk nm mm aa none)
          = (TokenKind.word, nm) :: (matcherEToks mm ++ aa.map argETok
            ++ [nlETok]) from rfl]
      simp
  | .mk nm mm aa (some b) => by
      rw [show dirFuel (.mk nm mm aa (some b)) = dirsFuel b + 1 from rfl,
        show dirEToks (.mk nm mm aa (some b))
          = (TokenKind.word, nm) :: (matcherEToks mm ++ aa.map argETok
            ++ ((TokenKind.openBrace, [braceL]) :: nlETok ::
              (dirsEToksSp b
                ++ [(TokenKind.closeBrace, [braceR]), nlETok])))
          from rfl]
      have hb := dirsFuel_le_sp b
      simp only [List.length_cons, List.length_append, List.length_nil]
      omega

theorem dirsFuel_le : ∀ ds : Dirs,
    dirsFuel ds ≤ (dirsEToks ds).length + 1
  | .nil => by
      rw [show dirsFuel .nil = 1 from rfl]
      simp
  | .cons d ds' => by
      rw [show dirsFuel (.cons d ds')
          = max (dirFuel d) (dirsFuel ds') + 1 from rfl,
        show dirsEToks (.cons d ds')
          = dirEToks d ++ dirsEToks ds' from rfl]
      have h1 := dirFuel_le d
      have h2 := dirsFuel_le ds'
      have h3 := dirEToks_len_pos d
      simp only [List.length_append]
      omega

theorem dirsFuel_le_sp : ∀ ds : Dirs,
    dirsFuel ds ≤ (dirsEToksSp ds).length + 1
  | .nil => by
      rw [show dirsFuel .nil = 1 from rfl]
      simp
  | .cons d ds' => by
      rw [show dirsFuel (.cons d ds')
          = max (dirFuel d) (dirsFuel ds') + 1 from rfl,
        show dirsEToksSp (.cons d ds')
          = dirEToks d ++ spEToksRest ds' d.hasBlock from rfl]
      have h1 := dirFuel_le d
      have h2 := dirsFuel_le_spr ds' d.hasBlock
      have h3 := dirEToks_len_pos d
      simp only [List.length_append]
      omega

theorem dirsFuel_le_spr : ∀ (ds : Dirs) (ph : Bool),
    dirsFuel ds ≤ (spEToksRest ds ph).length + 1
  | .nil, _ => by
      rw [show dirsFuel .nil = 1 from rfl]
      simp
  | .cons d ds', ph => by
      rw [show dirsFuel (.cons d ds')
          = max (dirFuel d) (dirsFuel ds') + 1 from rfl,
        show spEToksRest (.cons d ds') ph
          = (if d.hasBlock || ph then [nlETok] else [])
            ++ dirEToks d ++ spEToksRest ds' d.hasBlock from rfl]
      have h1 := dirFuel_le d
      have h2 := dirsFuel_le_spr ds' d.hasBlock
      have h3 := dirEToks_len_pos d
      simp only [List.length_append]
      omega

end

theorem foldr_step_pos {α : Type} (g : α → Nat) :
    ∀ (l : List α) (base : Nat), 1 ≤ base →
    1 ≤ l.foldr (fun x a => max (g x) a + 1) base
  | [], _, hb => by simpa using hb
  | _ :: l', base, hb => by
      rw [List.foldr_cons]
      omega

theorem foldr_fuel_le {α : Type} (g len : α → Nat)
    (h : ∀ x, g x + 1 ≤ len x) :
    ∀ (l : List α) (base : Nat), 1 ≤ base →
    l.foldr (fun x a => max (g x) a + 1) base ≤ (l.map len).sum + base
  | [], base, _ => by simp
  | x :: l', base, hb => by
      have ih := foldr_fuel_le g len h l' base hb
      have hx := h x
      have hp := foldr_step_pos g l' base hb
      rw [List.foldr_cons, List.map_cons, List.sum_cons]
      omega

theorem snip_fuel_len (s : Snippet) :
    dirsFuel s.directives + 1 ≤ (snipEToks s).length := by
  have h := dirsFuel_le s.directives
  rw [show snipEToks s
    = (TokenKind.word, '(' :: (s.name ++ [')']))
      :: ((TokenKind.openBrace, [braceL]) :: nlETok ::
        (dirsEToks s.directives
          ++ [(TokenKind.closeBrace, [braceR]), nlETok])) from rfl]
  simp only [List.length_cons, List.length_append, List.length_nil]
  omega

theorem route_fuel_len (r : NamedRoute) :
    dirsFuel r.directives + 1 ≤ (routeEToks r).length := by
  have h := dirsFuel_le r.directives
  rw [show routeEToks r
    = (TokenKind.word, '&' :: '(' :: (r.name ++ [')']))
      :: ((TokenKind.openBrace, [braceL]) :: nlETok ::
        (dirsEToks r.directives
          ++ [(TokenKind.closeBrace, [braceR]), nlETok])) from rfl]
  simp only [List.length_cons, List.length_append, List.length_nil]
  omega

theorem site_fuel_len (s : SiteBlock) :
    dirsFuel s.directives + 1 ≤ (siteEToks s).length := by
  have h := dirsFuel_le_sp s.directives
  rw [show siteEToks s
    = addrEToks s.addresses
      ++ (TokenKind.openBrace, [braceL]) :: nlETok ::
        (dirsEToksSp s.directives
          ++ [(TokenKind.closeBrace, [braceR]), nlETok]) from rfl]
  simp only [List.length_cons, List.length_append, List.length_nil]
  omega

theorem gopts_fuel_len (g : GlobalOptions) :
    dirsFuel g.directives + 1 ≤ (gOptsEToks g).length := by
  have h := dirsFuel_le g.directives
  rw [show gOptsEToks g
    = (TokenKind.openBrace, [braceL]) :: nlETok ::
      (dirsEToks g.directives
        ++ [(TokenKind.closeBrace, [braceR]), nlETok]) from rfl]
  simp only [List.length_cons, List.length_append, List.length_nil]
  omega

theorem emitE_len {α : Type} (g : α → List (TokenKind × List Char)) :
    ∀ (l : List α) (first : Bool),
    (l.map (fun x => (g x).length)).sum ≤ (emitEToks g l first).length
  | [], first => by
      rw [show emitEToks g [] first = [] from rfl]
      simp
  | x :: l', first => by
      rw [show emitEToks g (x :: l') first
        = ((if first then [] else [nlETok]) ++ g x)
          ++ emitEToks g l' false from rfl]
      have ih := emitE_len g l' false
      simp only [List.map_cons, List.sum_cons, List.length_append]
      omega

theorem snipEToks_ne (s : Snippet) : snipEToks s ≠ [] := by
  simp [snipEToks]

theorem routeEToks_ne (r : NamedRoute) : routeEToks r ≠ [] := by
  simp [routeEToks]

theorem siteEToks_ne (s : SiteBlock) : siteEToks s ≠ [] := by
  simp [siteEToks]

theorem gOptsEToks_ne (g : GlobalOptions) : gOptsEToks g ≠ [] := by
  simp [gOptsEToks]

theorem blocksFuel_le (cf : Caddyfile) :
    blocksFuel cf
      ≤ (cf.snippets.map (fun s => (snipEToks s).length)).sum
        + ((cf.named_routes.map (fun r => (routeEToks r).length)).sum
          + ((cf.sites.map (fun s => (siteEToks s).length)).sum + 1)) := by
  rw [blocksFuel]
  have p3 : 1 ≤ cf.sites.foldr
      (fun s a => max (dirsFuel s.directives) a + 1) 1 :=
    foldr_step_pos _ cf.sites 1 (le_refl 1)
  have h3 := foldr_fuel_le (fun s : SiteBlock => dirsFuel s.directives)
    (fun s => (siteEToks s).length) site_fuel_len cf.sites 1 (le_refl 1)
  have p2 : 1 ≤ cf.named_routes.foldr
      (fun r a => max (dirsFuel r.directives) a + 1)
      (cf.sites.foldr (fun s a => max (dirsFuel s.directives) a + 1) 1) :=
    foldr_step_pos _ cf.named_routes _ p3
  have h2 := foldr_fuel_le (fun r : NamedRoute => dirsFuel r.directives)
    (fun r => (routeEToks r).length) route_fuel_len cf.named_routes _ p3
  have h1 := foldr_fuel_le (fun s : Snippet => dirsFuel s.directives)
    (fun s => (snipEToks s).length) snip_fuel_len cf.snippets _ p2
  simp only [] at h1 h2 h3
  omega

theorem docFuel_le (cf : Caddyfile) :
    docFuel cf ≤ 2 * (docEToks cf).length + 8 := by
  obtain ⟨go, sns, nrs, sts⟩ := cf
  have hb := blocksFuel_le ⟨go, sns, nrs, sts⟩
  dsimp only at hb
  cases go with
  | none =>
    rw [docFuel, docEToks]
    dsimp only [Option.isNone]
    split
    · rename_i hout
      simp only [List.nil_append, List.append_eq_nil] at hout
      obtain ⟨⟨h1, h2⟩, h3⟩ := hout
      have hs : sns = [] :=
        (emitE_ne_nil snipEToks sns (fun x _ => snipEToks_ne x) _).mp h1
      have hr : nrs = [] :=
        (emitE_ne_nil routeEToks nrs (fun x _ => routeEToks_ne x) _).mp h2
      have hsi : sts = [] :=
        (emitE_ne_nil siteEToks sts (fun x _ => siteEToks_ne x) _).mp h3
      subst hs
      subst hr
      subst hsi
      simp only [List.map_nil, List.sum_nil] at hb
      simp only [List.length_cons, List.length_nil]
      omega
    · rename_i hout
      have e1 := emitE_len snipEToks sns true
      have e2 := emitE_len routeEToks nrs (true && sns.isEmpty)
      have e3 := emitE_len siteEToks sts
        ((true && sns.isEmpty) && nrs.isEmpty)
      simp only [List.nil_append, List.length_append]
      omega
  | some g =>
    rw [docFuel, docEToks]
    dsimp only [Option.isNone]
    have hg := gopts_fuel_len g
    split
    · rename_i hout
      simp only [List.append_eq_nil] at hout
      exact absurd hout.1.1.1 (gOptsEToks_ne g)
    · rename_i hout
      have e1 := emitE_len snipEToks sns false
      have e2 := emitE_len routeEToks nrs (false && sns.isEmpty)
      have e3 := emitE_len siteEToks sts
        ((false && sns.isEmpty) && nrs.isEmpty)
      simp only [List.length_append]
      omega

theorem emitE_nil {α : Type} (g : α → List (TokenKind × List Char))
    (first : Bool) : emitEToks g [] first = [] := rfl

theorem emitE_cons {α : Type} (g : α → List (TokenKind × List Char))
    (x : α) (l : List α) (first : Bool) :
    emitEToks g (x :: l) first
      = ((if first then [] else [nlETok]) ++ g x)
        ++ emitEToks g l false := rfl

theorem parseWithFuel_round (cf : Caddyfile) (h : docWF cf = true)
    (fuel : Nat) (hfuel : docFuel cf ≤ fuel)
    (ts : List Token) (hts : ts.map eraseTok = docEToks cf) :
    parseWithFuel fuel ts = some (.ok cf) := by
  obtain ⟨go, sns, nrs, sts⟩ := cf
  simp only [docWF, Bool.and_eq_true] at h
  obtain ⟨⟨⟨hgo, hsn⟩, hnr⟩, hst⟩ := h
  rw [docEToks] at hts
  dsimp only [Option.isNone] at hts
  rw [docFuel, blocksFuel] at hfuel
  dsimp only at hfuel
  cases go with
  | none =>
    dsimp only at hts hgo hfuel
    split at hts
    · rename_i hout
      simp only [List.nil_append, List.append_eq_nil] at hout
      obtain ⟨⟨h1, h2⟩, h3⟩ := hout
      have hs : sns = [] :=
        (emitE_ne_nil snipEToks sns (fun x _ => snipEToks_ne x) _).mp h1
      have hr : nrs = [] :=
        (emitE_ne_nil routeEToks nrs (fun x _ => routeEToks_ne x) _).mp h2
      have hsi : sts = [] :=
        (emitE_ne_nil siteEToks sts (fun x _ => siteEToks_ne x) _).mp h3
      subst hs
      subst hr
      subst hsi
      obtain ⟨tnl, ts', rfl, hk0, htext0, hts'⟩ :=
        erase_cons ts .newline ['\n'] [] (by simpa [nlETok] using hts)
      have hts'n := erase_nil ts' hts'
      subst hts'n
      rw [parseWithFuel.eq_def]
      dsimp only
      rw [skipNC_cons_nl tnl [] (isNlOrComment_of_kind tnl hk0),
        show skipNC [] = [] from rfl]
      dsimp only
      rw [parseBlocks.eq_def]
      dsimp only
      rfl
    · rename_i hout
      obtain ⟨txt0, es0, hX⟩ : ∃ txt es,
          (emitEToks snipEToks sns true
            ++ emitEToks routeEToks nrs (true && sns.isEmpty))
            ++ emitEToks siteEToks sts
                ((true && sns.isEmpty) && nrs.isEmpty)
          = (TokenKind.word, txt) :: es := by
        cases sns with
        | cons s sns' => exact ⟨_, _, rfl⟩
        | nil =>
          cases nrs with
          | cons r nrs' => exact ⟨_, _, rfl⟩
          | nil =>
            cases sts with
            | cons st sts' =>
              have hw : siteWF st = true := by
                rw [List.all_cons, Bool.and_eq_true] at hst
                exact hst.1
              obtain ⟨a, txt, es, hA, htxt, hsE⟩ := siteEToks_head st hw
              exact ⟨txt, es ++ emitEToks siteEToks sts' false, by
                simp [emitE_nil, emitE_cons, hsE]⟩
            | nil => exact absurd rfl hout
      simp only [List.nil_append] at hts
      rw [hX] at hts
      obtain ⟨t0, ts', rfl, hk0, htext0, hts'⟩ := erase_cons ts _ _ _ hts
      have hts2 : (t0 :: ts').map eraseTok
          = (emitEToks snipEToks sns true
            ++ emitEToks routeEToks nrs (true && sns.isEmpty))
            ++ emitEToks siteEToks sts
                ((true && sns.isEmpty) && nrs.isEmpty) := by
        rw [List.map_cons, hts',
          show eraseTok t0 = (t0.kind, t0.text) from rfl, hk0, htext0,
          hX]
      rw [parseWithFuel.eq_def]
      dsimp only
      rw [skipNC_cons_of_not t0 _ (word_not_nc t0 (Or.inl hk0))]
      dsimp only
      rw [if_neg (by
        rw [hk0]
        exact fun hc => TokenKind.noConfusion hc)]
      rw [show (t0 : Token) :: ts' = [] ++ (t0 :: ts') from rfl]
      rw [parseBlocks_snips sns nrs sts hsn hnr hst fuel (by omega)
        ([] ++ (t0 :: ts')) [] (by intro t ht; simp at ht)
        (t0 :: ts') true emptyCaddyfile hts2]
      simp [emptyCaddyfile]
  | some g =>
    dsimp only at hts hgo hfuel
    rw [if_neg (by
      intro hcon
      simp only [List.append_eq_nil] at hcon
      exact gOptsEToks_ne g hcon.1.1.1)] at hts
    rw [List.append_assoc, List.append_assoc] at hts
    obtain ⟨u0, v, rfl, hu0, hv⟩ := erase_append ts _ _ hts
    rw [← List.append_assoc] at hv
    obtain ⟨tob, u0', rfl, hk0, htext0, hu0'⟩ := erase_cons u0 _ _ _ (by
      rw [show gOptsEToks g
        = (TokenKind.openBrace, [braceL]) :: (nlETok ::
          (dirsEToks g.directives
            ++ [(TokenKind.closeBrace, [braceR]), nlETok])) from rfl]
        at hu0
      exact hu0)
    have hu02 : (tob :: u0').map eraseTok = gOptsEToks g := by
      rw [List.map_cons, hu0',
        show eraseTok tob = (tob.kind, tob.text) from rfl, hk0, htext0]
      rfl
    rw [List.cons_append]
    rw [parseWithFuel.eq_def]
    dsimp only
    rw [skipNC_cons_of_not tob _ (word_not_nc tob
      (Or.inr (Or.inr (Or.inr (Or.inr (Or.inl hk0))))))]
    dsimp only
    rw [if_pos hk0]
    obtain ⟨lt, hlt, heq⟩ := parse_global_options_round g hgo fuel
      (by omega) (tob :: (u0' ++ v)) (tob :: u0') v hu02
    rw [List.cons_append] at heq
    rw [heq]
    dsimp only
    obtain ⟨f, rfl⟩ : ∃ f, fuel = f + 1 :=
      ⟨fuel - 1, by have := dirsFuel_pos g.directives; omega⟩
    rw [parseBlocks_skipNC f (tob :: (u0' ++ v)) (lt :: v) _]
    rw [show (lt : Token) :: v = [lt] ++ v from rfl]
    rw [parseBlocks_snips sns nrs sts hsn hnr hst (f + 1) (by omega)
      (tob :: (u0' ++ v)) [lt] (by
        intro t ht
        simp only [List.mem_cons, List.not_mem_nil, or_false] at ht
        rw [ht]
        exact isNlOrComment_of_kind lt hlt) v false _ hv]
    simp [emptyCaddyfile]

theorem parse_round (cf : Caddyfile) (h : docWF cf = true)
    (ts : List Token) (hts : ts.map eraseTok = docEToks cf) :
    parse ts = .ok cf := by
  rw [parse]
  have hlen : ts.length = (docEToks cf).length := by
    rw [← hts, List.length_map]
  rw [parseWithFuel_round cf h (2 * ts.length + 8) (by
    rw [hlen]
    exact docFuel_le cf) ts hts]
  rfl

theorem roundtrip (cf : Caddyfile) (h : docWF cf = true) :
    ∃ ts, tokenize (format cf) = .ok ts ∧ parse ts = .ok cf := by
  obtain ⟨ts, h1, h2⟩ := tokenize_format cf h
  exact ⟨ts, h1, parse_round cf h ts h2⟩

/-- **C1** (amended to the well-formed document class `docWF`, which
mirrors the repository's own property-test generator): for every
well-formed document `cf`, tokenizing `format cf` succeeds, parsing the
resulting tokens succeeds, and formatting the parsed document yields
exactly `format cf` again — formatting is idempotent on well-formed
documents.  The unrestricted claim over all `Caddyfile` values is
refuted by `c1_counterexample`. -/
theorem c1_format_roundtrip_idempotent (cf : Caddyfile)
    (h : docWF cf = true) :
    ∃ ts cf', tokenize (format cf) = .ok ts ∧ parse ts = .ok cf'
      ∧ format cf' = format cf := by
  obtain ⟨ts, h1, h2⟩ := roundtrip cf h
  exact ⟨ts, cf, h1, h2, rfl⟩

/-- **C1** witness: the round trip evaluated on the concrete document
`exDoc` (site `example.com` with a `log` directive). -/
theorem c1_witness : docWF exDoc = true
    ∧ ∃ ts cf', tokenize (format exDoc) = .ok ts ∧ parse ts = .ok cf'
      ∧ format cf' = format exDoc :=
  ⟨by rfl, c1_format_roundtrip_idempotent exDoc (by rfl)⟩

/-- **C1** counterexample to the unrestricted claim: the document with
one site block holding no addresses formats to a line starting with a
space and an open brace, which re-parses as a global-options block and
re-formats without the leading space, so
`format (parse (tokenize (format d)))` differs from `format d`. -/
theorem c1_counterexample :
    reformat emptySiteDoc = some ("\x7b\n\x7d\n".toList)
      ∧ format emptySiteDoc = ' ' :: "\x7b\n\x7d\n".toList
      ∧ reformat emptySiteDoc ≠ some (format emptySiteDoc) := by
  exact ⟨by rfl, by rfl, by decide⟩

/-- **C5** (amended to the well-formed document class `docWF`; every
`Caddyfile` value is comment-free, the AST stores no comments): for
every well-formed document `cf`, formatting, re-tokenizing and
re-parsing succeeds and preserves the site count, the snippet count,
the named-route count and the presence of a global-options block.  The
unrestricted claim over all `Caddyfile` values is refuted by
`c5_counterexample`. -/
theorem c5_counts_preserved (cf : Caddyfile) (h : docWF cf = true) :
    (reparse cf).map countsOf = some (countsOf cf) := by
  obtain ⟨ts, h1, h2⟩ := roundtrip cf h
  rw [reparse.eq_def, h1]
  dsimp only
  rw [h2]
  rfl

/-- **C5** witness: count preservation evaluated on the concrete
document `exDoc`. -/
theorem c5_witness : docWF exDoc = true
    ∧ (reparse exDoc).map countsOf = some (countsOf exDoc) :=
  ⟨by rfl, c5_counts_preserved exDoc (by rfl)⟩

/-- **C5** counterexample to the unrestricted claim: the document with
one site block holding no addresses re-parses as a document with no
sites and a global-options block, so neither the site count nor the
global-options presence is preserved. -/
theorem c5_counterexample :
    (reparse emptySiteDoc).map countsOf = some (0, 0, 0, true)
      ∧ countsOf emptySiteDoc = (1, 0, 0, false)
      ∧ (reparse emptySiteDoc).map countsOf
          ≠ some (countsOf emptySiteDoc) := by
  exact ⟨by rfl, by rfl, by decide⟩

end Caddy
